import Mathlib

/-!
# NPNG (`npng.hpp`): shallow embedding and verification

The C++ header implements a decoder for 8-bit truecolour PNG files.  The
embedding below follows the source function by function.

Conventions of the embedding.

* `unsigned char` values and the elements of `vector<unsigned char>` are natural
  numbers; a value is a byte when it is below 256.  Wherever the source stores
  the result of promoted `int` arithmetic back into an `unsigned char` the
  reduction modulo 256 is explicit.
* `unsigned int` is 32 bits wide, `unsigned long` and `size_t` are 64 bits wide,
  `int` is 32 bits wide (LP64).  Unsigned arithmetic is reduced explicitly.
* Behaviour that the C++ standard leaves undefined (an out-of-range index into a
  vector, signed overflow of an `int`) makes the embedded function return `none`.
* The zlib entry points `crc32` and `inflate` are not part of the header.
  `crc32` is modelled as the standard CRC-32; the inflate loop is a parameter.
-/

namespace PNG

/-! ## Data model -/

/-- The enumeration `PNG::Error` (lines 15-26). -/
inductive Error
  | NONE
  | FAILED_TO_OPEN_FILE
  | INVALID_PNG_SIGNATURE
  | DUPLICATE_BLOCK
  | CRC_MISMATCH
  | UNSUPPORTED_IMAGE_OPTS
  | INVALID_BLOCK
  | ZLIB_ERROR
  | INVALID_FILTER_TYPE
  deriving DecidableEq

/-- The data members of `class Image` (lines 30-44); `filePath` is not modelled. -/
structure Image where
  raw_data : List Nat
  cur_pos : Nat
  err : Error
  processed : Bool
  header_processed : Bool
  first_block : Bool
  compressed_data : List Nat
  uncompressed_data : List Nat
  data : List Nat
  width : Nat
  height : Nat
  bit_depth : Nat
  color_type : Nat
  compression_method : Nat
  filter_method : Nat
  interlace_method : Nat
  components : Nat
  deriving DecidableEq

/-! ## Machine arithmetic -/

/-- Reduction to `unsigned int` (32 bits). -/
def uint (v : Nat) : Nat := v % 2 ^ 32

/-- Reduction to `unsigned long` / `size_t` (64 bits). -/
def ulong (v : Nat) : Nat := v % 2 ^ 64

/-- Conversion of an unsigned value to `int` (two's complement, 32 bits). -/
def to_int (u : Nat) : Int :=
  if u % 2 ^ 32 < 2 ^ 31 then ((u % 2 ^ 32 : Nat) : Int) else ((u % 2 ^ 32 : Nat) : Int) - 2 ^ 32

/-- Result of an arithmetic operation on `int`: signed overflow is undefined. -/
def int_op (v : Int) : Option Int :=
  if -2147483648 ≤ v ∧ v ≤ 2147483647 then some v else none

/-- Conversion of an `int` to `unsigned char` on assignment. -/
def to_uchar (v : Int) : Nat := (v % 256).toNat

/-- Value of a byte seen through the type `char`: unchanged where `char` is
unsigned, two's complement where `char` is signed. -/
def char_value (char_signed : Bool) (v : Nat) : Int :=
  if char_signed = true ∧ 128 ≤ v % 256 then ((v % 256 : Nat) : Int) - 256 else ((v % 256 : Nat) : Int)

/-- Element access `v[i]` of a vector with an `int` index.  A negative index
converts to a `size_t` of at least `2^63`, which no vector reaches. -/
def at_int (v : List Nat) (i : Int) : Option Nat :=
  if 0 ≤ i then v[i.toNat]? else none

/-- The loop `for (int i = i0; i < i0 + k; i++) body`, where `k` counts the
iterations that remain.  The loop stops early when the body has returned from
the enclosing function (`returned`), and the increment of an `int` counter
holding `INT_MAX` is undefined. -/
def for_int {σ : Type} (returned : σ → Bool) (body : Nat → σ → Option σ) :
    Nat → Nat → σ → Option σ
  | 0, _, s => some s
  | k + 1, i, s =>
    match body i s with
    | none => none
    | some s1 =>
      if returned s1 = true then some s1
      else if 2147483647 ≤ i then none
      else for_int returned body k (i + 1) s1

/-! ## `Image::paeth_predictor` (lines 247-259) -/

/-- The function `paeth_predictor`.  The arithmetic is that of `int` (the
operands are promoted bytes, so nothing overflows).  The result is the selected
operand; the return type `char` keeps its eight bits, and how the caller reads
them is `char_value`. -/
def paeth_predictor (a b c : Nat) : Nat :=
  let p : Int := (a : Int) + (b : Int) - (c : Int)
  let pa : Nat := (p - (a : Int)).natAbs
  let pb : Nat := (p - (b : Int)).natAbs
  let pc : Nat := (p - (c : Int)).natAbs
  if pa ≤ pb ∧ pa ≤ pc then a
  else if pb ≤ pc then b
  else c

/-! ## Filter reversal in `Image::Image` (lines 172-244) -/

/-- Body of the inner loop of lines 178-184 for one `byte_idx`. -/
def split_byte (uncompressed_data : List Nat) (scanline_width : Int) (scanline_idx byte_idx : Nat)
    (data : List Nat) : Option (List Nat) :=
  if byte_idx ≠ 0 then
    (int_op ((scanline_idx : Int) * scanline_width)).bind fun m =>
    (int_op (m + (byte_idx : Int))).bind fun i =>
    (at_int uncompressed_data i).bind fun v =>
    some (data ++ [v])
  else some data

/-- Body of the outer loop of lines 175-185 for one `scanline_idx`.  The state is
the pair of `filter_modes` (the slots written so far, in index order) and `data`. -/
def split_row (uncompressed_data : List Nat) (scanline_width : Int) (scanline_idx : Nat)
    (s : List Nat × List Nat) : Option (List Nat × List Nat) :=
  (int_op ((scanline_idx : Int) * scanline_width)).bind fun m =>
  (at_int uncompressed_data m).bind fun f =>
  (for_int (fun _ => false) (split_byte uncompressed_data scanline_width scanline_idx)
    scanline_width.toNat 0 s.2).bind fun data =>
  some (s.1 ++ [f], data)

/-- The statement pair `data[i] += v; data[i] %= 256;` with `v` of type `int`. -/
def add_assign (data : List Nat) (i : Nat) (v : Int) : Option (List Nat) :=
  (data[i]?).bind fun d =>
  some (data.set i (to_uchar (((to_uchar ((d : Int) + v) : Nat) : Int) % 256)))

/-- The neighbours `a`, `b`, `c` of lines 194-217. -/
def neighbours (width components : Nat) (y x : Nat) (data : List Nat) : Option (Nat × Nat × Nat) :=
  if y = 0 ∧ x < components then some (0, 0, 0)
  else if y = 0 then
    (data[ulong (y * width * components + x - components)]?).bind fun a =>
    some (a, 0, 0)
  else if x < components then
    (data[ulong ((y - 1) * width * components + x)]?).bind fun b =>
    some (0, b, 0)
  else
    (data[ulong (y * width * components + x - components)]?).bind fun a =>
    (data[ulong ((y - 1) * width * components + x)]?).bind fun b =>
    (data[ulong ((y - 1) * width * components + x - components)]?).bind fun c =>
    some (a, b, c)

/-- Body of the inner loop of lines 189-243 for one `(y, x)`.  The state is the
pair of `err` and `data`; `err` other than `NONE` means the constructor returned. -/
def unfilter_byte (char_signed : Bool) (width components : Nat) (filter_modes : List Nat)
    (y x : Nat) (s : Error × List Nat) : Option (Error × List Nat) :=
  let cur_byte_idx := uint (ulong (y * width * components + x))
  (s.2[cur_byte_idx]?).bind fun _cur_byte =>
  (neighbours width components y x s.2).bind fun abc =>
  (filter_modes[y]?).bind fun f =>
  if f = 0 then some s
  else if f = 1 then (add_assign s.2 cur_byte_idx (abc.1 : Int)).bind fun d => some (s.1, d)
  else if f = 2 then (add_assign s.2 cur_byte_idx (abc.2.1 : Int)).bind fun d => some (s.1, d)
  else if f = 3 then
    (add_assign s.2 cur_byte_idx (((abc.1 : Int) + (abc.2.1 : Int)) / 2)).bind fun d => some (s.1, d)
  else if f = 4 then
    (add_assign s.2 cur_byte_idx
      (char_value char_signed (paeth_predictor abc.1 abc.2.1 abc.2.2))).bind fun d => some (s.1, d)
  else if f = 5 then some (Error.INVALID_FILTER_TYPE, s.2)
  else some s

/-- Body of the outer loop of lines 187-244 for one `y`. -/
def unfilter_row (char_signed : Bool) (width components : Nat) (filter_modes : List Nat)
    (y : Nat) (s : Error × List Nat) : Option (Error × List Nat) :=
  for_int (fun t => t.1 != Error.NONE) (unfilter_byte char_signed width components filter_modes y)
    (ulong (width * components)) 0 s

/-- Lines 172-244: split the inflated buffer into `filter_modes` and `data`, then
reverse the filters in place.  The member `data` is empty on entry.  The result
is the pair of `err` and `data` on leaving the constructor. -/
def reconstruct (char_signed : Bool) (width height components : Nat)
    (uncompressed_data : List Nat) : Option (Error × List Nat) :=
  let scanline_width : Int := to_int (ulong (width * components + 1))
  (for_int (fun _ => false) (split_row uncompressed_data scanline_width) height 0 ([], [])).bind
    fun fd =>
  for_int (fun t => t.1 != Error.NONE) (unfilter_row char_signed width components fd.1) height 0
    (Error.NONE, fd.2)

/-! ## zlib `crc32` -/

/-- One bit of the CRC-32 shift register (reflected polynomial `0xEDB88320`). -/
def crc_bit (c : Nat) : Nat :=
  if c % 2 = 1 then (c >>> 1) ^^^ 0xEDB88320 else c >>> 1

/-- One byte of the CRC-32 shift register. -/
def crc_byte (c b : Nat) : Nat := crc_bit^[8] (c ^^^ b)

/-- Modelled from the spec: `crc32` is zlib's function, which is not in the
header; section 6 of the specification fixes it as the standard CRC-32 "as used
by zlib's crc32".  The register starts from the complement of `crc`, absorbs the
buffer byte by byte, and is complemented again. -/
def crc32 (crc : Nat) (buf : List Nat) : Nat :=
  (buf.foldl crc_byte (crc ^^^ 0xFFFFFFFF)) ^^^ 0xFFFFFFFF

/-! ## `Image::get_u_int` (lines 75-83) -/

/-- Body of the loop of `get_u_int` for one `i`: `res = (res << 8) | raw_data[idx + i]`. -/
def get_u_int_step (raw_data : List Nat) (idx : Int) (i : Nat) (res : Nat) : Option Nat :=
  (int_op (idx + (i : Int))).bind fun j =>
  (at_int raw_data j).bind fun b =>
  some (uint (uint (res <<< 8) ||| b))

/-- The function `get_u_int`.  The local `res` is not initialised in the source;
`res0` is the indeterminate value it starts from. -/
def get_u_int (res0 : Nat) (raw_data : List Nat) (idx : Int) : Option Nat :=
  for_int (fun _ => false) (get_u_int_step raw_data idx) 4 0 res0

/-! ## `Image::process_chunk` (lines 261-354) -/

/-- The type tag `"IHDR"`. -/
def IHDR : List Nat := [73, 72, 68, 82]

/-- The type tag `"IDAT"`. -/
def IDAT : List Nat := [73, 68, 65, 84]

/-- The type tag `"IEND"`. -/
def IEND : List Nat := [73, 69, 78, 68]

/-- The bytes of the pointer range `[&v[first], &v[last])`; a range that is
reversed or leaves the vector is undefined. -/
def range (v : List Nat) (first last : Nat) : Option (List Nat) :=
  if first ≤ last ∧ last ≤ v.length then some ((v.drop first).take (last - first)) else none

/-- The IHDR branch of lines 302-350, entered with the cursor on the payload. -/
def process_header (res0 : Nat) (st : Image) (done : Nat) : Option Image :=
  if st.header_processed = false then
    (get_u_int res0 st.raw_data (to_int st.cur_pos)).bind fun width =>
    (get_u_int res0 st.raw_data (to_int (uint (st.cur_pos + 4)))).bind fun height =>
    (st.raw_data[uint (st.cur_pos + 8)]?).bind fun bit_depth =>
    (st.raw_data[uint (st.cur_pos + 9)]?).bind fun color_type =>
    (st.raw_data[uint (st.cur_pos + 10)]?).bind fun compression_method =>
    (st.raw_data[uint (st.cur_pos + 11)]?).bind fun filter_method =>
    (st.raw_data[uint (st.cur_pos + 12)]?).bind fun interlace_method =>
    let components :=
      if color_type = 2 then 3 else if color_type = 6 then 4 else st.components
    let st1 : Image :=
      { st with
        width := width, height := height, bit_depth := bit_depth, color_type := color_type,
        compression_method := compression_method, filter_method := filter_method,
        interlace_method := interlace_method, components := components }
    let invalid_opts : Bool :=
      (decide (color_type ≠ 2 ∧ color_type ≠ 6) || decide (bit_depth ≠ 8)
        || decide (compression_method ≠ 0) || decide (filter_method ≠ 0)
        || decide (interlace_method ≠ 0))
    if invalid_opts = true then some { st1 with err := Error.UNSUPPORTED_IMAGE_OPTS }
    else some { st1 with header_processed := true, cur_pos := done }
  else some { st with err := Error.DUPLICATE_BLOCK }

/-- The function `process_chunk`: one chunk at the cursor.  `res0` is the
indeterminate start value of `get_u_int`. -/
def process_chunk (res0 : Nat) (st : Image) : Option Image :=
  (get_u_int res0 st.raw_data (to_int st.cur_pos)).bind fun chunk_len =>
  let pos_type := uint (st.cur_pos + 4)
  (range st.raw_data pos_type (uint (pos_type + 4))).bind fun chunk_type =>
  (range st.raw_data pos_type (pos_type + uint (chunk_len + 4))).bind fun buf =>
  let crc := crc32 0 buf
  let pos_data := uint (pos_type + 4)
  (get_u_int res0 st.raw_data (to_int (uint (pos_data + chunk_len)))).bind fun orig_crc =>
  if crc ≠ orig_crc then some { st with cur_pos := pos_data, err := Error.CRC_MISMATCH }
  else if st.first_block = true ∧ chunk_type ≠ IHDR then
    some { st with cur_pos := pos_data, err := Error.INVALID_BLOCK }
  else
    let st1 : Image := { st with cur_pos := pos_data, first_block := false }
    let done := uint (pos_data + uint (chunk_len + 4))
    if chunk_type = IEND then some { st1 with processed := true, cur_pos := done }
    else if chunk_type = IDAT then
      (range st.raw_data pos_data (uint (pos_data + chunk_len))).bind fun payload =>
      some { st1 with compressed_data := st1.compressed_data ++ payload, cur_pos := done }
    else if chunk_type = IHDR then process_header res0 st1 done
    else some { st1 with cur_pos := done }

/-! ## The constructor `Image::Image` (lines 85-245) -/

/-- How a run of the constructor ends: it returns, it runs into undefined
behaviour, or the bound on the number of chunk-loop iterations is used up. -/
inductive Run (α : Type)
  | finished (a : α)
  | undefined
  | out_of_fuel
  deriving DecidableEq

/-- The eight bytes the signature check of lines 107-109 compares against. -/
def PNG_SIGNATURE : List Nat := [0x89, 0x50, 0x4E, 0x47, 0x0D, 0x0A, 0x1A, 0x0A]

/-- The conjunction of lines 107-109 from byte `i` on, evaluated left to right
with short circuit. -/
def signature_from (raw_data : List Nat) : Nat → List Nat → Option Bool
  | _, [] => some true
  | i, s :: rest =>
    match raw_data[i]? with
    | none => none
    | some b => if b = s then signature_from raw_data (i + 1) rest else some false

/-- The flag `is_png` of lines 107-109. -/
def is_png (raw_data : List Nat) : Option Bool := signature_from raw_data 0 PNG_SIGNATURE

/-- The loop of lines 120-125, with a bound `fuel` on the number of iterations.
A state with `err` other than `NONE` means the constructor returned. -/
def chunk_loop (res0 : Nat) : Nat → Image → Run Image
  | 0, st => if st.processed = true then Run.finished st else Run.out_of_fuel
  | fuel + 1, st =>
    if st.processed = true then Run.finished st
    else
      match process_chunk res0 st with
      | none => Run.undefined
      | some st1 => if st1.err ≠ Error.NONE then Run.finished st1 else chunk_loop res0 fuel st1

/-- The members after their default initialisers (lines 31-37): vectors are
empty, and the members without initialiser keep the indeterminate values of `u`. -/
def init_members (u : Image) : Image :=
  { u with
    raw_data := [], cur_pos := 0, err := Error.NONE, processed := false,
    header_processed := false, first_block := true, compressed_data := [],
    uncompressed_data := [], data := [] }

/-- Lines 127-244 of the constructor: inflate `compressed_data` and reverse the
filters.  `inflate` stands for the zlib loop of lines 128-170: it maps
`compressed_data` to whether every zlib call succeeded and to the bytes
accumulated in `uncompressed_data`. -/
def inflate_and_reconstruct (char_signed : Bool) (inflate : List Nat → Bool × List Nat)
    (st : Image) : Run Image :=
  if (inflate st.compressed_data).1 = false then
    Run.finished
      { st with uncompressed_data := (inflate st.compressed_data).2, err := Error.ZLIB_ERROR }
  else
    match reconstruct char_signed st.width st.height st.components
        (inflate st.compressed_data).2 with
    | none => Run.undefined
    | some r =>
      Run.finished
        { st with uncompressed_data := (inflate st.compressed_data).2, err := r.1, data := r.2 }

/-- The constructor.  `file` is the content of the file (`none` when it cannot be
opened), `u` supplies the indeterminate values of the members without
initialiser, `res0` that of the local of `get_u_int`, and `fuel` bounds the
number of iterations of the chunk loop. -/
def Image_Image (fuel res0 : Nat) (char_signed : Bool) (inflate : List Nat → Bool × List Nat)
    (file : Option (List Nat)) (u : Image) : Run Image :=
  match file with
  | none => Run.finished { init_members u with err := Error.FAILED_TO_OPEN_FILE }
  | some bytes =>
    match is_png bytes with
    | none => Run.undefined
    | some false =>
      Run.finished { init_members u with raw_data := bytes, err := Error.INVALID_PNG_SIGNATURE }
    | some true =>
      match chunk_loop res0 fuel { init_members u with raw_data := bytes, cur_pos := 8 } with
      | Run.undefined => Run.undefined
      | Run.out_of_fuel => Run.out_of_fuel
      | Run.finished st1 =>
        if st1.err ≠ Error.NONE then Run.finished st1
        else inflate_and_reconstruct char_signed inflate st1

/-! ## Reference inverse filter (specification section 4.6) -/

/-- The function `PaethPredictor` as the specification words it, on integers. -/
def PaethPredictor (a b c : Int) : Int :=
  let p := a + b - c
  if |p - a| ≤ |p - b| ∧ |p - a| ≤ |p - c| then a
  else if |p - b| ≤ |p - c| then b
  else c

/-- Neighbour `a` of the specification: the byte one pixel to the left in a
row-major buffer with rows of `W` bytes and pixels of `n` bytes, `0` outside. -/
def left_of (data : List Nat) (W n y x : Nat) : Nat :=
  if n ≤ x then data.getD (y * W + x - n) 0 else 0

/-- Neighbour `b` of the specification: the byte above, `0` outside. -/
def above (data : List Nat) (W y x : Nat) : Nat :=
  if 1 ≤ y then data.getD ((y - 1) * W + x) 0 else 0

/-- Neighbour `c` of the specification: the byte above and to the left, `0` outside. -/
def above_left (data : List Nat) (W n y x : Nat) : Nat :=
  if 1 ≤ y ∧ n ≤ x then data.getD ((y - 1) * W + x - n) 0 else 0

/-- The predictor the specification adds for filter type `f`. -/
def inverse_filter_pred (f a b c : Nat) : Nat :=
  if f = 0 then 0
  else if f = 1 then a
  else if f = 2 then b
  else if f = 3 then (a + b) / 2
  else (PaethPredictor (a : Int) (b : Int) (c : Int)).toNat

/-- The reference equation at byte `(y, x)`: the reconstructed byte is the
inflated byte plus the predictor of its reconstructed neighbours, modulo 256. -/
def RecAt (unc data : List Nat) (W n y x : Nat) : Prop :=
  data[y * W + x]? = some ((unc.getD (y * (W + 1) + 1 + x) 0 +
    inverse_filter_pred (unc.getD (y * (W + 1)) 0) (left_of data W n y x) (above data W y x)
      (above_left data W n y x)) % 256)

/-- State of `data` when the bytes before flat position `k` are reconstructed
and the bytes from `k` on still hold the inflated values. -/
def UnfilterInv (unc : List Nat) (W h n k : Nat) (data : List Nat) : Prop :=
  data.length = h * W ∧
    (∀ y x, y < h → x < W → y * W + x < k → RecAt unc data W n y x) ∧
    (∀ y x, y < h → x < W → k ≤ y * W + x →
      data[y * W + x]? = some (unc.getD (y * (W + 1) + 1 + x) 0))

/-! ## The PNG forward filter -/

/-- The predictor the forward filter subtracts for filter type `f`, with Paeth
computed by `paeth_predictor`. -/
def forward_pred (f a b c : Nat) : Nat :=
  if f = 0 then 0
  else if f = 1 then a
  else if f = 2 then b
  else if f = 3 then (a + b) / 2
  else paeth_predictor a b c

/-- The filtered byte at `(y, x)`: the pixel byte minus the predictor of its
unfiltered neighbours in `P`, modulo 256. -/
def filter_byte (P : List Nat) (W n f y x : Nat) : Nat :=
  ((((P.getD (y * W + x) 0 : Nat) : Int) -
    ((forward_pred f (left_of P W n y x) (above P W y x) (above_left P W n y x) : Nat) : Int))
      % 256).toNat

/-- One filtered scanline: the filter-type byte followed by the filtered bytes. -/
def filter_scanline (P : List Nat) (W n : Nat) (f : Nat → Nat) (y : Nat) : List Nat :=
  f y :: (List.range W).map (fun x => filter_byte P W n (f y) y x)

/-- The forward-filtered buffer of the first `h` rows of `P`, row `y` filtered
with type `f y`. -/
def png_filter (P : List Nat) (W n : Nat) (f : Nat → Nat) : Nat → List Nat
  | 0 => []
  | h + 1 => png_filter P W n f h ++ filter_scanline P W n f h

/-! ## The chunk layout of the file format (specification section 6) -/

/-- The four big-endian bytes of a 32-bit value. -/
def be32 (v : Nat) : List Nat := [v / 2 ^ 24 % 256, v / 2 ^ 16 % 256, v / 2 ^ 8 % 256, v % 256]

/-- The value of four big-endian bytes. -/
def be_value (b0 b1 b2 b3 : Nat) : Nat := b0 * 2 ^ 24 + b1 * 2 ^ 16 + b2 * 2 ^ 8 + b3

/-- A chunk as it lies in the file: length of the payload, type tag and payload
(`body`, the tag being its first four bytes), stored CRC. -/
def chunk_raw (body : List Nat) (crc : Nat) : List Nat :=
  be32 (body.length - 4) ++ body ++ be32 crc

/-- A chunk whose stored CRC is the CRC-32 of type tag and payload. -/
def chunk_bytes (tag payload : List Nat) : List Nat :=
  chunk_raw (tag ++ payload) (crc32 0 (tag ++ payload))

/-- The buffer with bit `k` of the byte at position `pos` flipped. -/
def flip_bit (raw : List Nat) (pos k : Nat) : List Nat :=
  raw.set pos (raw.getD pos 0 ^^^ 2 ^ k)

/-- The supported subset of section 4.3 of the specification. -/
def supported_opts (bit_depth color_type compression_method filter_method interlace_method : Nat) :
    Prop :=
  bit_depth = 8 ∧ (color_type = 2 ∨ color_type = 6) ∧ compression_method = 0 ∧
    filter_method = 0 ∧ interlace_method = 0

instance supported_opts_decidable (bd ct cm fm im : Nat) :
    Decidable (supported_opts bd ct cm fm im) := by
  unfold supported_opts
  infer_instance

/-- The value of `err` when the constructor has returned. -/
def run_err : Run Image → Option Error
  | Run.finished img => some img.err
  | _ => none

/-- Members without initialiser holding zero, as one choice of indeterminate values. -/
def blank : Image :=
  { raw_data := [], cur_pos := 0, err := Error.NONE, processed := false,
    header_processed := false, first_block := true, compressed_data := [],
    uncompressed_data := [], data := [], width := 0, height := 0, bit_depth := 0,
    color_type := 0, compression_method := 0, filter_method := 0, interlace_method := 0,
    components := 0 }

/-- An inflate loop that succeeds with output `out` on every input. -/
def inflate_to (out : List Nat) : List Nat → Bool × List Nat := fun _ => (true, out)

/-- The file bytes of a sequence of CRC-valid chunks, each given by its type tag
and its payload. -/
def chunks_bytes : List (List Nat × List Nat) → List Nat
  | [] => []
  | c :: cs => chunk_bytes c.1 c.2 ++ chunks_bytes cs

/-- The payloads of the chunks tagged IDAT, concatenated in file order. -/
def idat_payloads : List (List Nat × List Nat) → List Nat
  | [] => []
  | c :: cs => (if c.1 = IDAT then c.2 else []) ++ idat_payloads cs

/-- The header fields of the image, in declaration order. -/
def header_fields (st : Image) : List Nat :=
  [st.width, st.height, st.bit_depth, st.color_type, st.compression_method, st.filter_method,
    st.interlace_method, st.components]

/-- A chunk between the header and the end of the stream: a four-byte tag other
than IHDR and IEND, and bytes throughout. -/
def middle_chunk (c : List Nat × List Nat) : Prop :=
  c.1.length = 4 ∧ c.1 ≠ IHDR ∧ c.1 ≠ IEND ∧ ∀ v ∈ c.1 ++ c.2, v < 256

/-- A header inside the supported subset, with 32-bit dimensions. -/
def HeaderOk (st : Image) : Prop :=
  st.bit_depth = 8 ∧ (st.color_type = 2 ∧ st.components = 3 ∨ st.color_type = 6 ∧ st.components = 4) ∧
    st.compression_method = 0 ∧ st.filter_method = 0 ∧ st.interlace_method = 0 ∧
    st.width < 2 ^ 32 ∧ st.height < 2 ^ 32

/-- Invariant of the chunk loop while `err` is `NONE`: either no chunk was
accepted yet, or the first chunk was an IHDR chunk with a supported header. -/
def ScanInv (st : Image) : Prop :=
  (st.first_block = true ∧ st.header_processed = false ∧ st.processed = false) ∨
    (st.first_block = false ∧ st.header_processed = true ∧ HeaderOk st)

/-- The states of the chunk scanner that are reachable from an initial state
(`first_block` set, nothing processed, `err = NONE`) by calls of `process_chunk`
that leave `err` at `NONE`. -/
inductive Reachable : Image → Prop
  | init (st : Image) (h1 : st.first_block = true) (h2 : st.header_processed = false)
      (h3 : st.processed = false) (h4 : st.err = Error.NONE) : Reachable st
  | step (res0 : Nat) (st st1 : Image) (h : Reachable st)
      (hstep : process_chunk res0 st = some st1) (herr : st1.err = Error.NONE) : Reachable st1

/-- The state with the header fields of the IHDR payload `hdr` stored, as the IHDR
branch of `process_chunk` leaves them when the options are supported. -/
def with_header (st : Image) (hdr : List Nat) : Image :=
  { st with
    first_block := false, header_processed := true,
    width := be_value (hdr.getD 0 0) (hdr.getD 1 0) (hdr.getD 2 0) (hdr.getD 3 0),
    height := be_value (hdr.getD 4 0) (hdr.getD 5 0) (hdr.getD 6 0) (hdr.getD 7 0),
    bit_depth := hdr.getD 8 0, color_type := hdr.getD 9 0,
    compression_method := hdr.getD 10 0, filter_method := hdr.getD 11 0,
    interlace_method := hdr.getD 12 0,
    components := if hdr.getD 9 0 = 2 then 3 else if hdr.getD 9 0 = 6 then 4 else st.components }

/-- The state the chunk loop ends in on a well-formed chunk sequence: header
stored, cursor at `pos`, the IDAT payloads of `cs` appended, `processed` set. -/
def scan_result (st : Image) (hdr : List Nat) (cs : List (List Nat × List Nat)) (pos : Nat) :
    Image :=
  { with_header st hdr with
    cur_pos := pos, processed := true,
    compressed_data := st.compressed_data ++ idat_payloads cs }

/-- The pixel buffer when the constructor has returned. -/
def run_data : Run Image → Option (List Nat)
  | Run.finished img => some img.data
  | _ => none

/-- The state in front of the IHDR chunk of a 1x1 truecolour image. -/
def at_header_1x1 : Image :=
  { blank with
    raw_data := PNG_SIGNATURE ++ chunk_bytes IHDR [0, 0, 0, 1, 0, 0, 0, 1, 8, 2, 0, 0, 0],
    cur_pos := 8 }

/-- The state after the IHDR chunk of a 1x1 truecolour image was processed. -/
def after_header_1x1 : Image :=
  { blank with
    raw_data := PNG_SIGNATURE ++ chunk_bytes IHDR [0, 0, 0, 1, 0, 0, 0, 1, 8, 2, 0, 0, 0],
    cur_pos := 33, first_block := false, header_processed := true, width := 1, height := 1,
    bit_depth := 8, color_type := 2, components := 3 }

/-! ## The Paeth predictor -/

theorem paeth_predictor_cases (a b c : Nat) :
    paeth_predictor a b c = a ∨ paeth_predictor a b c = b ∨ paeth_predictor a b c = c := by
  unfold paeth_predictor
  simp only []
  split_ifs <;> simp

theorem paeth_predictor_select (a b c : Nat) :
    (|(a : Int) + b - c - a| ≤ |(a : Int) + b - c - b| ∧
        |(a : Int) + b - c - a| ≤ |(a : Int) + b - c - c| → paeth_predictor a b c = a) ∧
    (¬ (|(a : Int) + b - c - a| ≤ |(a : Int) + b - c - b| ∧
        |(a : Int) + b - c - a| ≤ |(a : Int) + b - c - c|) →
      |(a : Int) + b - c - b| ≤ |(a : Int) + b - c - c| → paeth_predictor a b c = b) ∧
    (¬ (|(a : Int) + b - c - a| ≤ |(a : Int) + b - c - b| ∧
        |(a : Int) + b - c - a| ≤ |(a : Int) + b - c - c|) →
      ¬ |(a : Int) + b - c - b| ≤ |(a : Int) + b - c - c| → paeth_predictor a b c = c) := by
  unfold paeth_predictor
  simp only [Int.abs_eq_natAbs, Nat.cast_le]
  refine ⟨fun h => ?_, fun h1 h2 => ?_, fun h1 h2 => ?_⟩
  · rw [if_pos h]
  · rw [if_neg h1, if_pos h2]
  · rw [if_neg h1, if_neg h2]

theorem paeth_predictor_nearest (a b c : Nat) :
    |(a : Int) + b - c - (paeth_predictor a b c : Nat)| =
      min |(a : Int) + b - c - a| (min |(a : Int) + b - c - b| |(a : Int) + b - c - c|) := by
  unfold paeth_predictor
  simp only [Int.abs_eq_natAbs]
  split_ifs with h1 h2
  · simp only [Int.abs_eq_natAbs, Nat.cast_le] at *
    omega
  · simp only [Int.abs_eq_natAbs, Nat.cast_le] at *
    omega
  · simp only [Int.abs_eq_natAbs, Nat.cast_le] at *
    omega


/-! ## Machine arithmetic and loops: basic facts -/

theorem uint_of_lt {v : Nat} (h : v < 2 ^ 32) : uint v = v := Nat.mod_eq_of_lt h

theorem ulong_of_lt {v : Nat} (h : v < 2 ^ 64) : ulong v = v := Nat.mod_eq_of_lt h

theorem to_int_of_lt {u : Nat} (h : u < 2 ^ 31) : to_int u = (u : Int) := by
  unfold to_int
  have h1 : u % 2 ^ 32 = u := Nat.mod_eq_of_lt (by omega)
  rw [h1, if_pos h]

theorem int_op_natCast {v : Nat} (h : v < 2 ^ 31) : int_op (v : Int) = some (v : Int) := by
  unfold int_op
  rw [if_pos]
  omega

theorem at_int_natCast (l : List Nat) (i : Nat) : at_int l (i : Int) = l[i]? := by
  unfold at_int
  simp

theorem getElem?_eq_some_getD {l : List Nat} {i : Nat} (h : i < l.length) :
    l[i]? = some (l.getD i 0) := by
  simp [List.getD, List.getElem?_eq_getElem h]

theorem for_int_zero {σ : Type} (ret : σ → Bool) (body : Nat → σ → Option σ) (i : Nat) (s : σ) :
    for_int ret body 0 i s = some s := rfl

theorem for_int_next {σ : Type} (ret : σ → Bool) (body : Nat → σ → Option σ) (k i : Nat)
    (s s1 : σ) (hbody : body i s = some s1) (hret : ret s1 = false) (hi : i < 2147483647) :
    for_int ret body (k + 1) i s = for_int ret body k (i + 1) s1 := by
  rw [for_int, hbody]
  simp only [hret, Bool.false_eq_true, if_false]
  rw [if_neg (by omega)]

/-- A loop whose body never returns early and keeps an invariant runs to the end,
provided the counter stays within `int`. -/
theorem for_int_rule {σ : Type} (ret : σ → Bool) (body : Nat → σ → Option σ)
    (P : Nat → σ → Prop) :
    ∀ (k i : Nat) (s : σ), i + k ≤ 2147483647 → P i s →
      (∀ j t, i ≤ j → j < i + k → P j t →
        ∃ t', body j t = some t' ∧ ret t' = false ∧ P (j + 1) t') →
      ∃ s', for_int ret body k i s = some s' ∧ P (i + k) s' := by
  intro k
  induction k with
  | zero => intro i s _ h0 _; exact ⟨s, rfl, h0⟩
  | succ k ih =>
    intro i s hb h0 hstep
    obtain ⟨t', hbody, hret, hP⟩ := hstep i s (Nat.le_refl i) (by omega) h0
    obtain ⟨s', hs', hP'⟩ := ih (i + 1) t' (by omega) hP
      (fun j t hj1 hj2 hPj => hstep j t (by omega) (by omega) hPj)
    refine ⟨s', ?_, ?_⟩
    · rw [for_int, hbody]
      simp only [hret, Bool.false_eq_true, if_false]
      rw [if_neg (by omega)]
      exact hs'
    · have : i + (k + 1) = i + 1 + k := by omega
      rw [this]; exact hP'

/-- Positions of a row-major buffer determine row and column. -/
theorem flat_inj {W y x y' x' : Nat} (hx : x < W) (hx' : x' < W)
    (h : y * W + x = y' * W + x') : y = y' ∧ x = x' := by
  have hW : 0 < W := by omega
  have h1 : (y * W + x) / W = y := by
    rw [Nat.add_comm, Nat.add_mul_div_right _ _ hW, Nat.div_eq_of_lt hx, Nat.zero_add]
  have h2 : (y' * W + x') / W = y' := by
    rw [Nat.add_comm, Nat.add_mul_div_right _ _ hW, Nat.div_eq_of_lt hx', Nat.zero_add]
  have hy : y = y' := by rw [← h1, ← h2, h]
  subst hy
  exact ⟨rfl, by omega⟩

theorem row_le {W y h : Nat} (hy : y < h) : y * W + W ≤ h * W := by
  have := Nat.mul_le_mul_right W (Nat.succ_le_of_lt hy)
  rw [Nat.succ_mul] at this
  exact this

/-! ## Splitting the inflated buffer (lines 172-185) -/

/-- State of `data` after `k` bytes have been pushed: it holds the inflated bytes
with the filter bytes left out. -/
def SplitInv (unc : List Nat) (W k : Nat) (data : List Nat) : Prop :=
  data.length = k ∧
    ∀ y x, x < W → y * W + x < k → data[y * W + x]? = some (unc.getD (y * (W + 1) + 1 + x) 0)

theorem split_byte_zero (unc : List Nat) (sw : Int) (y : Nat) (data : List Nat) :
    split_byte unc sw y 0 data = some data := by
  simp [split_byte]

theorem split_byte_pos (unc : List Nat) (S y b : Nat) (data : List Nat) (hb : b ≠ 0)
    (h1 : y * S + b < 2 ^ 31) (h2 : y * S + b < unc.length) :
    split_byte unc (S : Int) y b data = some (data ++ [unc.getD (y * S + b) 0]) := by
  unfold split_byte
  rw [if_pos hb]
  have e1 : (y : Int) * (S : Int) = ((y * S : Nat) : Int) := by push_cast; rfl
  rw [e1, int_op_natCast (by omega)]
  simp only [Option.some_bind]
  have e2 : ((y * S : Nat) : Int) + (b : Int) = ((y * S + b : Nat) : Int) := by push_cast; rfl
  rw [e2, int_op_natCast h1]
  simp only [Option.some_bind]
  rw [at_int_natCast, getElem?_eq_some_getD h2]
  simp

theorem split_inner (unc : List Nat) (W y : Nat) (data : List Nat)
    (h1 : y * (W + 1) + (W + 1) < 2 ^ 31) (h2 : y * (W + 1) + (W + 1) ≤ unc.length)
    (hinv : SplitInv unc W (y * W) data) :
    ∃ data', for_int (fun _ => false) (split_byte unc ((W + 1 : Nat) : Int) y)
        (W + 1) 0 data = some data' ∧ SplitInv unc W (y * W + W) data' := by
  have key := for_int_rule (fun _ => false) (split_byte unc ((W + 1 : Nat) : Int) y)
    (fun b d => SplitInv unc W (y * W + (b - 1)) d) (W + 1) 0 data (by omega)
    (by simpa using hinv)
    (by
      intro b d _ hb hd
      by_cases hb0 : b = 0
      · subst hb0
        exact ⟨d, split_byte_zero _ _ _ _, rfl, by simpa using hd⟩
      · refine ⟨d ++ [unc.getD (y * (W + 1) + b) 0],
          split_byte_pos unc (W + 1) y b d hb0 (by omega) (by omega), rfl, ?_⟩
        obtain ⟨hl, hc⟩ := hd
        refine ⟨by simp [hl]; omega, ?_⟩
        intro y' x' hx' hlt
        by_cases hlast : y' * W + x' = y * W + (b - 1)
        · obtain ⟨rfl, rfl⟩ := flat_inj hx' (by omega) hlast
          rw [List.getElem?_append_right (by omega)]
          have e : y' * W + (b - 1) - d.length = 0 := by omega
          have e2 : y' * (W + 1) + 1 + (b - 1) = y' * (W + 1) + b := by omega
          simp [e, e2]
        · rw [List.getElem?_append_left (by omega)]
          exact hc y' x' hx' (by omega))
  obtain ⟨data', h, hinv'⟩ := key
  exact ⟨data', h, by simpa using hinv'⟩

theorem split_row_spec (unc : List Nat) (W y : Nat) (fm data : List Nat)
    (h1 : y * (W + 1) + (W + 1) < 2 ^ 31) (h2 : y * (W + 1) + (W + 1) ≤ unc.length)
    (hinv : SplitInv unc W (y * W) data) :
    ∃ data', split_row unc ((W + 1 : Nat) : Int) y (fm, data)
        = some (fm ++ [unc.getD (y * (W + 1)) 0], data') ∧ SplitInv unc W (y * W + W) data' := by
  obtain ⟨data', h, hinv'⟩ := split_inner unc W y data h1 h2 hinv
  refine ⟨data', ?_, hinv'⟩
  unfold split_row
  have e1 : (y : Int) * ((W + 1 : Nat) : Int) = ((y * (W + 1) : Nat) : Int) := by push_cast; rfl
  rw [e1, int_op_natCast (by omega)]
  simp only [Option.some_bind]
  rw [at_int_natCast, getElem?_eq_some_getD (by omega)]
  simp only [Option.some_bind, Int.toNat_ofNat]
  rw [h]
  simp

theorem split_loop_spec (unc : List Nat) (W h : Nat) (hsize : h * (W + 1) < 2 ^ 31)
    (hlen : h * (W + 1) ≤ unc.length) :
    ∃ fm data, for_int (fun _ => false) (split_row unc (to_int (ulong (W + 1)))) h 0 ([], [])
        = some (fm, data) ∧ fm.length = h ∧
      (∀ y, y < h → fm[y]? = some (unc.getD (y * (W + 1)) 0)) ∧ SplitInv unc W (h * W) data := by
  have hh : h < 2 ^ 31 := by
    have : h ≤ h * (W + 1) := Nat.le_mul_of_pos_right h (by omega)
    omega
  by_cases h0 : h = 0
  · subst h0
    exact ⟨[], [], rfl, rfl, by intro y hy; omega, by simp [SplitInv]⟩
  have hW : W + 1 < 2 ^ 31 := by
    have : W + 1 ≤ h * (W + 1) := Nat.le_mul_of_pos_left (W + 1) (Nat.pos_of_ne_zero h0)
    omega
  rw [ulong_of_lt (by omega), to_int_of_lt hW]
  have key := for_int_rule (fun _ => false) (split_row unc ((W + 1 : Nat) : Int))
    (fun y s => s.1.length = y ∧ (∀ y', y' < y → s.1[y']? = some (unc.getD (y' * (W + 1)) 0)) ∧
      SplitInv unc W (y * W) s.2) h 0 ([], []) (by omega)
    ⟨rfl, by intro y hy; omega, by simp [SplitInv]⟩
    (by
      intro y s _ hy hs
      obtain ⟨fm, data⟩ := s
      obtain ⟨hl, hf, hd⟩ := hs
      have hr := row_le (W := W + 1) (show y < h by omega)
      obtain ⟨data', hrow, hinv'⟩ := split_row_spec unc W y fm data (by omega) (by omega) hd
      refine ⟨_, hrow, rfl, by simp [hl], ?_, ?_⟩
      · intro y' hy'
        simp only at hl hf ⊢
        by_cases hlast : y' = y
        · subst hlast
          rw [List.getElem?_append_right (by omega)]
          simp [hl]
        · rw [List.getElem?_append_left (by omega)]
          exact hf y' (by omega)
      · simp only
        rw [Nat.succ_mul]
        exact hinv')
  obtain ⟨⟨fm, data⟩, hrun, hl, hf, hd⟩ := key
  refine ⟨fm, data, hrun, by simpa using hl, ?_, by simpa using hd⟩
  intro y hy
  exact hf y (by simpa using hy)

/-! ## Reversing the filters (lines 187-244) -/

theorem paeth_predictor_eq_spec (a b c : Nat) :
    ((paeth_predictor a b c : Nat) : Int) = PaethPredictor (a : Int) (b : Int) (c : Int) := by
  unfold paeth_predictor PaethPredictor
  simp only [Int.abs_eq_natAbs, Nat.cast_le]
  split_ifs <;> rfl

theorem to_uchar_add_nat (d v : Nat) :
    to_uchar (((to_uchar ((d : Int) + (v : Int)) : Nat) : Int) % 256) = (d + v) % 256 := by
  unfold to_uchar
  omega

theorem to_uchar_add_char (char_signed : Bool) (d r : Nat) :
    to_uchar (((to_uchar ((d : Int) + char_value char_signed r) : Nat) : Int) % 256)
      = (d + r) % 256 := by
  unfold to_uchar char_value
  split_ifs <;> omega

theorem getD_set_ne (l : List Nat) {i j : Nat} (v : Nat) (h : i ≠ j) :
    (l.set i v).getD j 0 = l.getD j 0 := by
  simp [List.getD, List.getElem?_set_ne h]

theorem neighbours_spec (w n h y x : Nat) (d : List Nat) (hd : d.length = h * (w * n))
    (hy : y < h) (hx : x < w * n) (hsize : h * (w * n) < 2 ^ 64) :
    neighbours w n y x d
      = some (left_of d (w * n) n y x, above d (w * n) y x, above_left d (w * n) n y x) := by
  have hr := row_le (W := w * n) hy
  unfold neighbours left_of above above_left
  simp only [Nat.mul_assoc]
  by_cases h0 : y = 0
  · subst h0
    by_cases hxn : x < n
    · simp [hxn, Nat.not_le.mpr hxn]
    · have hnx : n ≤ x := Nat.le_of_not_lt hxn
      simp only [hxn, and_false, if_false, if_true, hnx, Nat.zero_mul, Nat.zero_add] at *
      rw [ulong_of_lt (by omega), getElem?_eq_some_getD (by omega)]
      simp
  · obtain ⟨z, rfl⟩ : ∃ z, y = z + 1 := ⟨y - 1, by omega⟩
    have hz : (z + 1) * (w * n) = z * (w * n) + w * n := Nat.succ_mul _ _
    simp only [Nat.add_sub_cancel, h0, false_and, if_false, Nat.le_add_left, true_and, if_true]
    by_cases hxn : x < n
    · simp only [hxn, if_true, Nat.not_le.mpr hxn, if_false]
      rw [ulong_of_lt (by omega), getElem?_eq_some_getD (by omega)]
      simp
    · have hnx : n ≤ x := Nat.le_of_not_lt hxn
      simp only [hxn, if_false, hnx, if_true]
      rw [ulong_of_lt (by omega), getElem?_eq_some_getD (by omega),
        ulong_of_lt (by omega), getElem?_eq_some_getD (by omega),
        ulong_of_lt (by omega), getElem?_eq_some_getD (by omega)]
      simp

theorem add_assign_nat (d : List Nat) (k v : Nat) (hk : k < d.length) :
    add_assign d k (v : Int) = some (d.set k ((d.getD k 0 + v) % 256)) := by
  unfold add_assign
  rw [getElem?_eq_some_getD hk]
  simp only [Option.some_bind, to_uchar_add_nat]

theorem add_assign_char (char_signed : Bool) (d : List Nat) (k r : Nat) (hk : k < d.length) :
    add_assign d k (char_value char_signed r) = some (d.set k ((d.getD k 0 + r) % 256)) := by
  unfold add_assign
  rw [getElem?_eq_some_getD hk]
  simp only [Option.some_bind, to_uchar_add_char]

/-- One byte of the filter reversal, for a filter type in `0..4`. -/
theorem unfilter_byte_spec (char_signed : Bool) (w n h y x f : Nat) (fm d : List Nat) (e : Error)
    (hd : d.length = h * (w * n)) (hy : y < h) (hx : x < w * n) (hsize : h * (w * n) < 2 ^ 31)
    (hfm : fm[y]? = some f) (hf : f ≤ 4) :
    unfilter_byte char_signed w n fm y x (e, d)
      = some (e, if f = 0 then d else
          d.set (y * (w * n) + x) ((d.getD (y * (w * n) + x) 0 +
            inverse_filter_pred f (left_of d (w * n) n y x) (above d (w * n) y x)
              (above_left d (w * n) n y x)) % 256)) := by
  have hr := row_le (W := w * n) hy
  have hk : y * (w * n) + x < d.length := by omega
  unfold unfilter_byte
  simp only [Nat.mul_assoc]
  rw [ulong_of_lt (by omega), uint_of_lt (by omega), getElem?_eq_some_getD hk,
    neighbours_spec w n h y x d hd hy hx (by omega), hfm]
  simp only [Option.some_bind]
  unfold inverse_filter_pred
  by_cases h0 : f = 0
  · simp [h0]
  by_cases h1 : f = 1
  · simp [h1, add_assign_nat d _ _ hk]
  by_cases h2 : f = 2
  · simp [h2, add_assign_nat d _ _ hk]
  by_cases h3 : f = 3
  · have e3 : ((left_of d (w * n) n y x : Nat) : Int) + ((above d (w * n) y x : Nat) : Int)
        = ((left_of d (w * n) n y x + above d (w * n) y x : Nat) : Int) := by push_cast; rfl
    have e4 : ∀ m : Nat, ((m : Nat) : Int) / 2 = ((m / 2 : Nat) : Int) := by intro m; omega
    simp only [h3, e3, e4, add_assign_nat d _ _ hk]
    simp
  have h4 : f = 4 := by omega
  simp only [h4, add_assign_char char_signed d _ _ hk, ← paeth_predictor_eq_spec]
  simp

theorem left_of_set (d : List Nat) (W n y x k v : Nat) (hn : 0 < n) (hk : y * W + x ≤ k) :
    left_of (d.set k v) W n y x = left_of d W n y x := by
  unfold left_of
  split_ifs with h
  · exact getD_set_ne d v (by omega)
  · rfl

theorem above_set (d : List Nat) (W y x k v : Nat) (hx : x < W) (hk : y * W + x ≤ k) :
    above (d.set k v) W y x = above d W y x := by
  unfold above
  split_ifs with h
  · obtain ⟨z, rfl⟩ : ∃ z, y = z + 1 := ⟨y - 1, by omega⟩
    have hz : (z + 1) * W = z * W + W := Nat.succ_mul _ _
    simp only [Nat.add_sub_cancel]
    exact getD_set_ne d v (by omega)
  · rfl

theorem above_left_set (d : List Nat) (W n y x k v : Nat) (hx : x < W) (hk : y * W + x ≤ k) :
    above_left (d.set k v) W n y x = above_left d W n y x := by
  unfold above_left
  split_ifs with h
  · obtain ⟨z, rfl⟩ : ∃ z, y = z + 1 := ⟨y - 1, by omega⟩
    have hz : (z + 1) * W = z * W + W := Nat.succ_mul _ _
    simp only [Nat.add_sub_cancel]
    exact getD_set_ne d v (by omega)
  · rfl

theorem recAt_set (unc d : List Nat) (W n y x k v : Nat) (hn : 0 < n) (hx : x < W)
    (hk : y * W + x < k) (h : RecAt unc d W n y x) : RecAt unc (d.set k v) W n y x := by
  unfold RecAt at h ⊢
  rw [left_of_set d W n y x k v hn (by omega), above_set d W y x k v hx (by omega),
    above_left_set d W n y x k v hx (by omega), List.getElem?_set_ne (by omega)]
  exact h

/-- The invariant advances by one byte. -/
theorem unfilterInv_step (unc d : List Nat) (W h n y x : Nat) (hn : 0 < n)
    (hy : y < h) (hx : x < W) (hbyte : unc.getD (y * (W + 1) + 1 + x) 0 < 256)
    (hinv : UnfilterInv unc W h n (y * W + x) d) :
    UnfilterInv unc W h n (y * W + x + 1)
      (if unc.getD (y * (W + 1)) 0 = 0 then d else
        d.set (y * W + x) ((d.getD (y * W + x) 0 +
          inverse_filter_pred (unc.getD (y * (W + 1)) 0) (left_of d W n y x) (above d W y x)
            (above_left d W n y x)) % 256)) := by
  obtain ⟨hl, hdone, htodo⟩ := hinv
  have hr := row_le (W := W) hy
  have hcur := htodo y x hy hx (Nat.le_refl _)
  have hcurD : d.getD (y * W + x) 0 = unc.getD (y * (W + 1) + 1 + x) 0 := by
    simp [List.getD, hcur]
  by_cases hf : unc.getD (y * (W + 1)) 0 = 0
  · rw [if_pos hf]
    refine ⟨hl, ?_, ?_⟩
    · intro y' x' hy' hx' hlt
      by_cases hlast : y' * W + x' = y * W + x
      · obtain ⟨rfl, rfl⟩ := flat_inj hx' hx hlast
        unfold RecAt inverse_filter_pred
        rw [hcur, if_pos hf]
        simp only [Nat.add_zero, Nat.mod_eq_of_lt hbyte]
      · exact hdone y' x' hy' hx' (by omega)
    · intro y' x' hy' hx' hle
      exact htodo y' x' hy' hx' (by omega)
  · rw [if_neg hf]
    refine ⟨by simp [hl], ?_, ?_⟩
    · intro y' x' hy' hx' hlt
      by_cases hlast : y' * W + x' = y * W + x
      · obtain ⟨rfl, rfl⟩ := flat_inj hx' hx hlast
        unfold RecAt
        rw [left_of_set d W n y' x' _ _ hn (Nat.le_refl _),
          above_set d W y' x' _ _ hx (Nat.le_refl _),
          above_left_set d W n y' x' _ _ hx (Nat.le_refl _),
          List.getElem?_set_self (by omega), hcurD]
      · exact recAt_set unc d W n y' x' _ _ hn hx' (by omega) (hdone y' x' hy' hx' (by omega))
    · intro y' x' hy' hx' hle
      rw [List.getElem?_set_ne (by omega)]
      exact htodo y' x' hy' hx' (by omega)

theorem unfilter_row_spec (char_signed : Bool) (unc fm d : List Nat) (w h n y : Nat)
    (hn : 0 < n) (hy : y < h) (hsize : h * (w * n + 1) < 2 ^ 31)
    (hbyte : ∀ v ∈ unc, v < 256) (hlen : unc.length = h * (w * n + 1))
    (hfm : fm[y]? = some (unc.getD (y * (w * n + 1)) 0))
    (hf : unc.getD (y * (w * n + 1)) 0 ≤ 4)
    (hinv : UnfilterInv unc (w * n) h n (y * (w * n)) d) :
    ∃ d', unfilter_row char_signed w n fm y (Error.NONE, d) = some (Error.NONE, d') ∧
      UnfilterInv unc (w * n) h n (y * (w * n) + w * n) d' := by
  have hr := row_le (W := w * n) hy
  have hr1 := row_le (W := w * n + 1) hy
  have hm : h * (w * n + 1) = h * (w * n) + h := Nat.mul_succ _ _
  have hmy : y * (w * n + 1) = y * (w * n) + y := Nat.mul_succ _ _
  unfold unfilter_row
  rw [ulong_of_lt (by omega)]
  have key := for_int_rule (fun t => t.1 != Error.NONE)
    (unfilter_byte char_signed w n fm y)
    (fun x s => s.1 = Error.NONE ∧ UnfilterInv unc (w * n) h n (y * (w * n) + x) s.2)
    (w * n) 0 (Error.NONE, d) (by omega) ⟨rfl, by simpa using hinv⟩
    (by
      intro x s _ hx hs
      obtain ⟨e, d1⟩ := s
      obtain ⟨he, hi⟩ := hs
      simp only at he hi
      subst he
      have hx' : x < w * n := by omega
      refine ⟨_, unfilter_byte_spec char_signed w n h y x _ fm d1 Error.NONE hi.1 hy hx'
        (by omega) hfm hf, by simp, rfl, ?_⟩
      apply unfilterInv_step unc d1 (w * n) h n y x hn hy hx' _ hi
      apply hbyte
      rw [List.getD_eq_getElem _ _ (by omega)]
      exact List.getElem_mem _)
  obtain ⟨⟨e, d'⟩, hrun, he, hi⟩ := key
  simp only at he hi
  subst he
  exact ⟨d', hrun, by simpa using hi⟩

/-- The filter reversal started on the split buffer ends without error in a state
where every byte satisfies the reference equation. -/
theorem reconstruct_reference (char_signed : Bool) (w h n : Nat) (unc : List Nat)
    (hn : 0 < n) (hsize : h * (w * n + 1) < 2 ^ 31) (hlen : unc.length = h * (w * n + 1))
    (hbyte : ∀ v ∈ unc, v < 256)
    (hfilter : ∀ y, y < h → unc.getD (y * (w * n + 1)) 0 ≤ 4) :
    ∃ data, reconstruct char_signed w h n unc = some (Error.NONE, data) ∧
      UnfilterInv unc (w * n) h n (h * (w * n)) data := by
  obtain ⟨fm, d0, hsplit, hfl, hfm, hl0, hd0⟩ :=
    split_loop_spec unc (w * n) h hsize (by omega)
  have hh : h < 2 ^ 31 := by
    have : h ≤ h * (w * n + 1) := Nat.le_mul_of_pos_right h (by omega)
    omega
  unfold reconstruct
  simp only [hsplit, Option.some_bind]
  have key := for_int_rule (fun t => t.1 != Error.NONE)
    (unfilter_row char_signed w n fm)
    (fun y s => s.1 = Error.NONE ∧ UnfilterInv unc (w * n) h n (y * (w * n)) s.2)
    h 0 (Error.NONE, d0) (by omega)
    ⟨rfl, by
      refine ⟨hl0, ?_, ?_⟩
      · intro y x _ _ hlt; simp at hlt
      · intro y x hy hx _
        exact hd0 y x hx (by have := row_le (W := w * n) hy; omega)⟩
    (by
      intro y s _ hy hs
      obtain ⟨e, d1⟩ := s
      obtain ⟨he, hi⟩ := hs
      simp only at he hi
      subst he
      have hy' : y < h := by omega
      obtain ⟨d', hrun, hi'⟩ := unfilter_row_spec char_signed unc fm d1 w h n y hn hy' hsize
        hbyte hlen (hfm y hy') (hfilter y hy') hi
      refine ⟨_, hrun, by simp, rfl, ?_⟩
      simp only
      rw [Nat.succ_mul]
      exact hi')
  obtain ⟨⟨e, d'⟩, hrun, he, hi⟩ := key
  simp only at he hi
  subst he
  exact ⟨d', hrun, by simpa using hi⟩

/-! ## Round trip with the forward filter -/

theorem inverse_filter_pred_eq_forward (f a b c : Nat) :
    inverse_filter_pred f a b c = forward_pred f a b c := by
  unfold inverse_filter_pred forward_pred
  rw [← paeth_predictor_eq_spec]
  simp

theorem filter_scanline_length (P : List Nat) (W n : Nat) (f : Nat → Nat) (y : Nat) :
    (filter_scanline P W n f y).length = W + 1 := by
  simp [filter_scanline]

theorem png_filter_length (P : List Nat) (W n : Nat) (f : Nat → Nat) (h : Nat) :
    (png_filter P W n f h).length = h * (W + 1) := by
  induction h with
  | zero => simp [png_filter]
  | succ h ih => simp [png_filter, ih, filter_scanline_length, Nat.succ_mul]

theorem png_filter_getElem? (P : List Nat) (W n : Nat) (f : Nat → Nat) (h y j : Nat)
    (hy : y < h) (hj : j < W + 1) :
    (png_filter P W n f h)[y * (W + 1) + j]? = (filter_scanline P W n f y)[j]? := by
  induction h with
  | zero => omega
  | succ h ih =>
    unfold png_filter
    by_cases hlast : y = h
    · subst hlast
      rw [List.getElem?_append_right (by rw [png_filter_length]; omega), png_filter_length]
      congr 1
      omega
    · have hy' : y < h := by omega
      have hr := row_le (W := W + 1) hy'
      rw [List.getElem?_append_left (by rw [png_filter_length]; omega)]
      exact ih hy'

theorem png_filter_type (P : List Nat) (W n : Nat) (f : Nat → Nat) (h y : Nat) (hy : y < h) :
    (png_filter P W n f h).getD (y * (W + 1)) 0 = f y := by
  have := png_filter_getElem? P W n f h y 0 hy (by omega)
  simp only [Nat.add_zero] at this
  simp [List.getD, this, filter_scanline]

theorem png_filter_byte (P : List Nat) (W n : Nat) (f : Nat → Nat) (h y x : Nat) (hy : y < h)
    (hx : x < W) :
    (png_filter P W n f h).getD (y * (W + 1) + 1 + x) 0 = filter_byte P W n (f y) y x := by
  have := png_filter_getElem? P W n f h y (1 + x) hy (by omega)
  rw [← Nat.add_assoc] at this
  have e : (filter_scanline P W n f y)[1 + x]? = some (filter_byte P W n (f y) y x) := by
    unfold filter_scanline
    rw [Nat.add_comm 1 x, List.getElem?_cons_succ]
    simp [List.getElem?_map, List.getElem?_range hx]
  simp [List.getD, this, e]

theorem png_filter_bytes (P : List Nat) (W n : Nat) (f : Nat → Nat) (h : Nat)
    (hf : ∀ y, y < h → f y ≤ 4) : ∀ v ∈ png_filter P W n f h, v < 256 := by
  induction h with
  | zero => simp [png_filter]
  | succ h ih =>
    intro v hv
    unfold png_filter at hv
    rcases List.mem_append.mp hv with hv | hv
    · exact ih (fun y hy => hf y (by omega)) v hv
    · unfold filter_scanline at hv
      rcases List.mem_cons.mp hv with hv | hv
      · have := hf h (by omega)
        omega
      · obtain ⟨x, _, rfl⟩ := List.mem_map.mp hv
        unfold filter_byte
        omega

/-- A buffer that satisfies the reference equations over a forward-filtered
input agrees with the unfiltered pixels at every position. -/
theorem recAt_unique (P data : List Nat) (W h n : Nat) (f : Nat → Nat) (hn : 0 < n)
    (hbyte : ∀ v ∈ P, v < 256) (hlen : P.length = h * W)
    (hrec : ∀ y x, y < h → x < W → RecAt (png_filter P W n f h) data W n y x) :
    ∀ K y x, y < h → x < W → y * W + x < K → data.getD (y * W + x) 0 = P.getD (y * W + x) 0 := by
  intro K
  induction K with
  | zero => intro y x _ _ hlt; omega
  | succ K ih =>
    intro y x hy hx hlt
    by_cases hK : y * W + x < K
    · exact ih y x hy hx hK
    have hr := row_le (W := W) hy
    have hl : left_of data W n y x = left_of P W n y x := by
      unfold left_of
      split_ifs with hnx
      · have e : y * W + x - n = y * W + (x - n) := by omega
        rw [e]
        exact ih y (x - n) hy (by omega) (by omega)
      · rfl
    have ha : above data W y x = above P W y x := by
      unfold above
      split_ifs with h1
      · have hz : (y - 1 + 1) * W = (y - 1) * W + W := Nat.succ_mul _ _
        have e : y - 1 + 1 = y := by omega
        rw [e] at hz
        exact ih (y - 1) x (by omega) hx (by omega)
      · rfl
    have hal : above_left data W n y x = above_left P W n y x := by
      unfold above_left
      split_ifs with h1
      · have hz : (y - 1 + 1) * W = (y - 1) * W + W := Nat.succ_mul _ _
        have e : y - 1 + 1 = y := by omega
        rw [e] at hz
        have e2 : (y - 1) * W + x - n = (y - 1) * W + (x - n) := by omega
        rw [e2]
        exact ih (y - 1) (x - n) (by omega) (by omega) (by omega)
      · rfl
    have h1 := hrec y x hy hx
    unfold RecAt at h1
    rw [png_filter_type P W n f h y hy, png_filter_byte P W n f h y x hy hx, hl, ha, hal,
      inverse_filter_pred_eq_forward] at h1
    have hp : P.getD (y * W + x) 0 < 256 := by
      apply hbyte
      rw [List.getD_eq_getElem _ _ (by omega)]
      exact List.getElem_mem _
    rw [List.getD_eq_getElem?_getD data, h1, Option.getD_some]
    unfold filter_byte
    omega

/-- Reconstruction of a forward-filtered buffer gives back the pixels. -/
theorem reconstruct_png_filter (char_signed : Bool) (w h n : Nat) (P : List Nat) (f : Nat → Nat)
    (hn : 0 < n) (hsize : h * (w * n + 1) < 2 ^ 31) (hlen : P.length = h * (w * n))
    (hbyte : ∀ v ∈ P, v < 256) (hf : ∀ y, y < h → f y ≤ 4) :
    reconstruct char_signed w h n (png_filter P (w * n) n f h) = some (Error.NONE, P) := by
  obtain ⟨data, hrun, hl, hdone, _⟩ := reconstruct_reference char_signed w h n
    (png_filter P (w * n) n f h) hn hsize (png_filter_length _ _ _ _ _)
    (png_filter_bytes P (w * n) n f h hf)
    (fun y hy => by rw [png_filter_type P (w * n) n f h y hy]; exact hf y hy)
  rw [hrun]
  have hrec : ∀ y x, y < h → x < w * n → RecAt (png_filter P (w * n) n f h) data (w * n) n y x :=
    fun y x hy hx => hdone y x hy hx (by have := row_le (W := w * n) hy; omega)
  have hall := recAt_unique P data (w * n) h n f hn hbyte hlen hrec (h * (w * n))
  have : data = P := by
    apply List.ext_getElem (by rw [hl, hlen])
    intro i h1 h2
    have hW : 0 < w * n := by
      rcases Nat.eq_zero_or_pos (w * n) with h0 | h0
      · rw [hl, h0] at h1; simp at h1
      · exact h0
    have hi : i / (w * n) * (w * n) + i % (w * n) = i := by
      rw [Nat.mul_comm]; exact Nat.div_add_mod i (w * n)
    have hy : i / (w * n) < h := by
      rw [Nat.div_lt_iff_lt_mul hW]; omega
    have := hall (i / (w * n)) (i % (w * n)) hy (Nat.mod_lt _ hW) (by omega)
    rw [hi] at this
    rw [List.getD_eq_getElem _ _ h1, List.getD_eq_getElem _ _ h2] at this
    exact this
  rw [this]

/-! ## CRC-32: range and injectivity -/

theorem crc_bit_lt {c : Nat} (h : c < 2 ^ 32) : crc_bit c < 2 ^ 32 := by
  unfold crc_bit
  have h1 : c >>> 1 < 2 ^ 32 := by rw [Nat.shiftRight_eq_div_pow]; omega
  split_ifs
  · exact Nat.xor_lt_two_pow h1 (by norm_num)
  · exact h1

theorem crc_bit_odd_ge {c : Nat} (h : c < 2 ^ 32) (hodd : c % 2 = 1) : 2 ^ 31 ≤ crc_bit c := by
  unfold crc_bit
  rw [if_pos hodd]
  apply Nat.testBit_implies_ge
  have h1 : c >>> 1 < 2 ^ 31 := by rw [Nat.shiftRight_eq_div_pow]; omega
  rw [Nat.testBit_xor, Nat.testBit_lt_two_pow h1]
  decide

theorem crc_bit_even_lt {c : Nat} (h : c < 2 ^ 32) (heven : ¬ c % 2 = 1) : crc_bit c < 2 ^ 31 := by
  unfold crc_bit
  rw [if_neg heven, Nat.shiftRight_eq_div_pow]
  omega

theorem crc_bit_inj {c c' : Nat} (h : c < 2 ^ 32) (h' : c' < 2 ^ 32)
    (heq : crc_bit c = crc_bit c') : c = c' := by
  by_cases hodd : c % 2 = 1 <;> by_cases hodd' : c' % 2 = 1
  · unfold crc_bit at heq
    rw [if_pos hodd, if_pos hodd', Nat.xor_left_inj] at heq
    simp only [Nat.shiftRight_eq_div_pow] at heq
    omega
  · have := crc_bit_odd_ge h hodd
    have := crc_bit_even_lt h' hodd'
    omega
  · have := crc_bit_odd_ge h' hodd'
    have := crc_bit_even_lt h hodd
    omega
  · unfold crc_bit at heq
    rw [if_neg hodd, if_neg hodd'] at heq
    simp only [Nat.shiftRight_eq_div_pow] at heq
    omega

theorem crc_bit_iterate_lt (n : Nat) {c : Nat} (h : c < 2 ^ 32) : crc_bit^[n] c < 2 ^ 32 := by
  induction n generalizing c with
  | zero => exact h
  | succ n ih => rw [Function.iterate_succ_apply]; exact ih (crc_bit_lt h)

theorem crc_bit_iterate_inj (n : Nat) {c c' : Nat} (h : c < 2 ^ 32) (h' : c' < 2 ^ 32)
    (heq : crc_bit^[n] c = crc_bit^[n] c') : c = c' := by
  induction n generalizing c c' with
  | zero => exact heq
  | succ n ih =>
    rw [Function.iterate_succ_apply, Function.iterate_succ_apply] at heq
    exact crc_bit_inj h h' (ih (crc_bit_lt h) (crc_bit_lt h') heq)

theorem crc_byte_lt {c b : Nat} (h : c < 2 ^ 32) (hb : b < 256) : crc_byte c b < 2 ^ 32 :=
  crc_bit_iterate_lt 8 (Nat.xor_lt_two_pow h (by omega))

theorem crc_byte_inj_state {c c' b : Nat} (h : c < 2 ^ 32) (h' : c' < 2 ^ 32) (hb : b < 256)
    (heq : crc_byte c b = crc_byte c' b) : c = c' :=
  Nat.xor_left_inj.mp (crc_bit_iterate_inj 8 (Nat.xor_lt_two_pow h (by omega))
    (Nat.xor_lt_two_pow h' (by omega)) heq)

theorem crc_byte_inj_byte {c b b' : Nat} (h : c < 2 ^ 32) (hb : b < 256) (hb' : b' < 256)
    (heq : crc_byte c b = crc_byte c b') : b = b' :=
  Nat.xor_right_inj.mp (crc_bit_iterate_inj 8 (Nat.xor_lt_two_pow h (by omega))
    (Nat.xor_lt_two_pow h (by omega)) heq)

theorem crc_foldl_lt (l : List Nat) (hl : ∀ v ∈ l, v < 256) {c : Nat} (h : c < 2 ^ 32) :
    l.foldl crc_byte c < 2 ^ 32 := by
  induction l generalizing c with
  | nil => exact h
  | cons b t ih =>
    rw [List.foldl_cons]
    exact ih (fun v hv => hl v (List.mem_cons_of_mem _ hv))
      (crc_byte_lt h (hl b (List.mem_cons_self _ _)))

theorem crc_foldl_inj_state (l : List Nat) (hl : ∀ v ∈ l, v < 256) {c c' : Nat}
    (h : c < 2 ^ 32) (h' : c' < 2 ^ 32) (hne : c ≠ c') :
    l.foldl crc_byte c ≠ l.foldl crc_byte c' := by
  induction l generalizing c c' with
  | nil => exact hne
  | cons b t ih =>
    rw [List.foldl_cons, List.foldl_cons]
    have hb := hl b (List.mem_cons_self _ _)
    exact ih (fun v hv => hl v (List.mem_cons_of_mem _ hv)) (crc_byte_lt h hb)
      (crc_byte_lt h' hb) (fun heq => hne (crc_byte_inj_state h h' hb heq))

theorem crc_foldl_set_ne (l : List Nat) (hl : ∀ v ∈ l, v < 256) (i v : Nat) (hi : i < l.length)
    (hv : v < 256) (hne : v ≠ l.getD i 0) {c : Nat} (h : c < 2 ^ 32) :
    (l.set i v).foldl crc_byte c ≠ l.foldl crc_byte c := by
  induction l generalizing c i with
  | nil => simp at hi
  | cons b t ih =>
    have hb := hl b (List.mem_cons_self _ _)
    have ht : ∀ v ∈ t, v < 256 := fun v hv => hl v (List.mem_cons_of_mem _ hv)
    cases i with
    | zero =>
      simp only [List.set_cons_zero, List.foldl_cons]
      simp only [List.getD_cons_zero] at hne
      exact crc_foldl_inj_state t ht (crc_byte_lt h hv) (crc_byte_lt h hb)
        (fun heq => hne (crc_byte_inj_byte h hv hb heq))
    | succ j =>
      simp only [List.set_cons_succ, List.foldl_cons]
      simp only [List.getD_cons_succ] at hne
      exact ih ht j (by simpa using hi) hne (crc_byte_lt h hb)

theorem crc32_lt (l : List Nat) (hl : ∀ v ∈ l, v < 256) : crc32 0 l < 2 ^ 32 := by
  unfold crc32
  exact Nat.xor_lt_two_pow (crc_foldl_lt l hl (by norm_num)) (by norm_num)

/-- Changing one byte of the buffer changes the CRC-32. -/
theorem crc32_set_ne (l : List Nat) (hl : ∀ v ∈ l, v < 256) (i v : Nat) (hi : i < l.length)
    (hv : v < 256) (hne : v ≠ l.getD i 0) : crc32 0 (l.set i v) ≠ crc32 0 l := by
  unfold crc32
  intro heq
  exact crc_foldl_set_ne l hl i v hi hv hne (by norm_num) (Nat.xor_left_inj.mp heq)

theorem flip_bit_lt {b k : Nat} (hb : b < 256) (hk : k < 8) : b ^^^ 2 ^ k < 256 := by
  have h2 : 2 ^ k < 2 ^ 8 := Nat.pow_lt_pow_right (by norm_num) hk
  exact Nat.xor_lt_two_pow (n := 8) hb h2

theorem flip_bit_ne (b k : Nat) : b ^^^ 2 ^ k ≠ b := by
  intro h
  have h1 : b ^^^ (b ^^^ 2 ^ k) = 2 ^ k := Nat.xor_cancel_left b (2 ^ k)
  rw [h, Nat.xor_self] at h1
  exact absurd h1.symm (Nat.pos_iff_ne_zero.mp (Nat.two_pow_pos k))

/-! ## Reading the chunk layout -/

theorem get_u_int_step_eq (raw : List Nat) (p i res b : Nat) (hb : raw[p + i]? = some b)
    (hlt : b < 256) (hp : p + i < 2 ^ 31) :
    get_u_int_step raw (p : Int) i res = some (res % 2 ^ 24 * 256 + b) := by
  unfold get_u_int_step
  have e : (p : Int) + (i : Int) = ((p + i : Nat) : Int) := by push_cast; rfl
  rw [e, int_op_natCast hp]
  simp only [Option.some_bind]
  rw [at_int_natCast, hb]
  simp only [Option.some_bind]
  have e1 : uint (res <<< 8) = 2 ^ 8 * (res % 2 ^ 24) := by
    unfold uint
    rw [Nat.shiftLeft_eq]
    omega
  rw [e1, ← Nat.mul_add_lt_is_or (by omega)]
  unfold uint
  congr 1
  omega

/-- Four bytes below `2^31` are read as their big-endian value, whatever `res`
holds on entry. -/
theorem get_u_int_bytes (res0 : Nat) (raw : List Nat) (p b0 b1 b2 b3 : Nat)
    (h0 : raw[p]? = some b0) (h1 : raw[p + 1]? = some b1) (h2 : raw[p + 2]? = some b2)
    (h3 : raw[p + 3]? = some b3) (l0 : b0 < 256) (l1 : b1 < 256) (l2 : b2 < 256) (l3 : b3 < 256)
    (hp : p + 3 < 2 ^ 31) :
    get_u_int res0 raw (to_int p) = some (be_value b0 b1 b2 b3) := by
  unfold get_u_int
  rw [to_int_of_lt (by omega)]
  rw [for_int_next _ _ 3 0 res0 _ (get_u_int_step_eq raw p 0 res0 b0 (by simpa using h0) l0
    (by omega)) rfl (by omega)]
  rw [for_int_next _ _ 2 1 _ _ (get_u_int_step_eq raw p 1 _ b1 h1 l1 (by omega)) rfl (by omega)]
  rw [for_int_next _ _ 1 2 _ _ (get_u_int_step_eq raw p 2 _ b2 h2 l2 (by omega)) rfl (by omega)]
  rw [for_int_next _ _ 0 3 _ _ (get_u_int_step_eq raw p 3 _ b3 h3 l3 (by omega)) rfl (by omega)]
  rw [for_int_zero]
  unfold be_value
  refine congrArg some ?_
  omega

theorem be32_length (v : Nat) : (be32 v).length = 4 := rfl

theorem be32_bytes (v : Nat) : ∀ b ∈ be32 v, b < 256 := by
  intro b hb
  simp only [be32, List.mem_cons, List.mem_singleton, List.not_mem_nil, or_false] at hb
  omega

theorem get_u_int_be32 (res0 : Nat) (raw front back : List Nat) (v : Nat)
    (hraw : raw = front ++ be32 v ++ back) (hv : v < 2 ^ 32) (hp : front.length + 4 ≤ 2 ^ 31) :
    get_u_int res0 raw (to_int front.length) = some v := by
  have hget : ∀ i, i < 4 → raw[front.length + i]? = (be32 v)[i]? := by
    intro i hi
    rw [hraw, List.append_assoc, List.getElem?_append_right (by omega)]
    rw [List.getElem?_append_left (by simp [be32_length]; omega)]
    congr 1
    omega
  have h0 := hget 0 (by omega)
  have h1 := hget 1 (by omega)
  have h2 := hget 2 (by omega)
  have h3 := hget 3 (by omega)
  simp only [be32, List.getElem?_cons_zero, List.getElem?_cons_succ] at h0 h1 h2 h3
  rw [get_u_int_bytes res0 raw front.length _ _ _ _ h0 h1 h2 h3 (by omega) (by omega) (by omega)
    (by omega) (by omega)]
  unfold be_value
  refine congrArg some ?_
  omega

theorem range_append (raw front mid back : List Nat) (hraw : raw = front ++ mid ++ back)
    (a b : Nat) (ha : a = front.length) (hb : b = front.length + mid.length) :
    range raw a b = some mid := by
  subst ha hb hraw
  unfold range
  rw [if_pos ⟨by omega, by simp⟩]
  simp [List.append_assoc, List.drop_append, List.take_append]

/-- Normal form of `process_chunk` on a chunk that lies wholly in the buffer and
below `2^31`: the length field, the type tag, the CRC range and the stored CRC
are read from where the layout puts them. -/
theorem process_chunk_layout (res0 : Nat) (st : Image) (front body back : List Nat) (crc : Nat)
    (hraw : st.raw_data = front ++ chunk_raw body crc ++ back) (hpos : st.cur_pos = front.length)
    (hbody : 4 ≤ body.length) (hcrc : crc < 2 ^ 32)
    (hsize : front.length + body.length + 8 ≤ 2 ^ 31) :
    process_chunk res0 st =
      if crc32 0 body ≠ crc then
        some { st with cur_pos := front.length + 8, err := Error.CRC_MISMATCH }
      else if st.first_block = true ∧ body.take 4 ≠ IHDR then
        some { st with cur_pos := front.length + 8, err := Error.INVALID_BLOCK }
      else if body.take 4 = IEND then
        some { st with cur_pos := front.length + body.length + 8, first_block := false,
                       processed := true }
      else if body.take 4 = IDAT then
        some { st with cur_pos := front.length + body.length + 8, first_block := false,
                       compressed_data := st.compressed_data ++ body.drop 4 }
      else if body.take 4 = IHDR then
        process_header res0 { st with cur_pos := front.length + 8, first_block := false }
          (front.length + body.length + 8)
      else some { st with cur_pos := front.length + body.length + 8, first_block := false } := by
  have hlen : get_u_int res0 st.raw_data (to_int st.cur_pos) = some (body.length - 4) := by
    rw [hpos]
    exact get_u_int_be32 res0 _ front (body ++ be32 crc ++ back) (body.length - 4)
      (by rw [hraw]; simp [chunk_raw, List.append_assoc]) (by omega) (by omega)
  have hsplit : body = body.take 4 ++ body.drop 4 := (List.take_append_drop 4 body).symm
  have htake : (body.take 4).length = 4 := by simp; omega
  have hdrop : (body.drop 4).length = body.length - 4 := by simp
  have htype : range st.raw_data (front.length + 4) (front.length + 8) = some (body.take 4) := by
    apply range_append _ (front ++ be32 (body.length - 4)) (body.take 4)
      (body.drop 4 ++ be32 crc ++ back)
    · rw [hraw]
      simp only [chunk_raw, List.append_assoc]
      rw [← List.append_assoc (List.take 4 body), List.take_append_drop]
    · simp [be32_length]
    · simp [be32_length]; omega
  have hbuf : range st.raw_data (front.length + 4) (front.length + 4 + body.length) = some body := by
    apply range_append _ (front ++ be32 (body.length - 4)) body (be32 crc ++ back)
    · rw [hraw]; simp [chunk_raw, List.append_assoc]
    · simp [be32_length]
    · simp [be32_length]
  have hpay : range st.raw_data (front.length + 8) (front.length + 8 + (body.length - 4))
      = some (body.drop 4) := by
    apply range_append _ (front ++ be32 (body.length - 4) ++ body.take 4) (body.drop 4)
      (be32 crc ++ back)
    · rw [hraw]
      simp only [chunk_raw, List.append_assoc]
      rw [← List.append_assoc (List.take 4 body), List.take_append_drop]
    · simp [be32_length]; omega
    · simp [be32_length]; omega
  have horig : get_u_int res0 st.raw_data (to_int (front.length + 8 + (body.length - 4)))
      = some crc := by
    have := get_u_int_be32 res0 st.raw_data (front ++ be32 (body.length - 4) ++ body) back crc
      (by rw [hraw]; simp [chunk_raw, List.append_assoc]) hcrc
      (by simp [be32_length]; omega)
    have e : (front ++ be32 (body.length - 4) ++ body).length
        = front.length + 8 + (body.length - 4) := by simp [be32_length]; omega
    rw [e] at this
    exact this
  unfold process_chunk
  rw [hlen]
  simp only [Option.some_bind, hpos]
  have u1 : uint (front.length + 4) = front.length + 4 := uint_of_lt (by omega)
  have u2 : uint (front.length + 4 + 4) = front.length + 8 := by rw [uint_of_lt (by omega)]
  have u3 : uint (body.length - 4 + 4) = body.length := by rw [uint_of_lt (by omega)]; omega
  have u4 : uint (front.length + 8 + (body.length - 4)) = front.length + 8 + (body.length - 4) :=
    uint_of_lt (by omega)
  have u5 : uint (front.length + 8 + body.length) = front.length + body.length + 8 := by
    rw [uint_of_lt (by omega)]; omega
  simp only [u1, u2, u3, u4, u5, htype, hbuf, hpay, horig, Option.some_bind]

/-! ## The IHDR branch -/

theorem getElem?_middle (front mid back : List Nat) (j : Nat) (hj : j < mid.length) :
    (front ++ mid ++ back)[front.length + j]? = some (mid.getD j 0) := by
  rw [List.append_assoc, List.getElem?_append_right (by omega)]
  rw [List.getElem?_append_left (by omega)]
  rw [show front.length + j - front.length = j by omega]
  exact getElem?_eq_some_getD hj

theorem getD_mem_lt (l : List Nat) (hl : ∀ v ∈ l, v < 256) (j : Nat) : l.getD j 0 < 256 := by
  by_cases hj : j < l.length
  · rw [List.getD_eq_getElem _ _ hj]
    exact hl _ (List.getElem_mem _)
  · rw [List.getD_eq_default _ _ (by omega)]
    omega

/-- Normal form of the IHDR branch when thirteen payload bytes lie at the cursor. -/
theorem process_header_layout (res0 : Nat) (st : Image) (front payload back : List Nat)
    (done : Nat) (hraw : st.raw_data = front ++ payload ++ back) (hpos : st.cur_pos = front.length)
    (hlen : 13 ≤ payload.length) (hbytes : ∀ v ∈ payload, v < 256)
    (hsize : front.length + 13 ≤ 2 ^ 31) :
    process_header res0 st done =
      if st.header_processed = false then
        if (decide (payload.getD 9 0 ≠ 2 ∧ payload.getD 9 0 ≠ 6) || decide (payload.getD 8 0 ≠ 8)
            || decide (payload.getD 10 0 ≠ 0) || decide (payload.getD 11 0 ≠ 0)
            || decide (payload.getD 12 0 ≠ 0)) = true then
          some { st with
            width := be_value (payload.getD 0 0) (payload.getD 1 0) (payload.getD 2 0)
              (payload.getD 3 0),
            height := be_value (payload.getD 4 0) (payload.getD 5 0) (payload.getD 6 0)
              (payload.getD 7 0),
            bit_depth := payload.getD 8 0, color_type := payload.getD 9 0,
            compression_method := payload.getD 10 0, filter_method := payload.getD 11 0,
            interlace_method := payload.getD 12 0,
            components := if payload.getD 9 0 = 2 then 3 else if payload.getD 9 0 = 6 then 4
              else st.components,
            err := Error.UNSUPPORTED_IMAGE_OPTS }
        else
          some { st with
            width := be_value (payload.getD 0 0) (payload.getD 1 0) (payload.getD 2 0)
              (payload.getD 3 0),
            height := be_value (payload.getD 4 0) (payload.getD 5 0) (payload.getD 6 0)
              (payload.getD 7 0),
            bit_depth := payload.getD 8 0, color_type := payload.getD 9 0,
            compression_method := payload.getD 10 0, filter_method := payload.getD 11 0,
            interlace_method := payload.getD 12 0,
            components := if payload.getD 9 0 = 2 then 3 else if payload.getD 9 0 = 6 then 4
              else st.components,
            header_processed := true, cur_pos := done }
      else some { st with err := Error.DUPLICATE_BLOCK } := by
  have hget : ∀ j, j < 13 → st.raw_data[front.length + j]? = some (payload.getD j 0) := by
    intro j hj
    rw [hraw]
    exact getElem?_middle front payload back j (by omega)
  have hb := getD_mem_lt payload hbytes
  have hw : get_u_int res0 st.raw_data (to_int front.length)
      = some (be_value (payload.getD 0 0) (payload.getD 1 0) (payload.getD 2 0)
          (payload.getD 3 0)) :=
    get_u_int_bytes res0 _ _ _ _ _ _ (hget 0 (by omega)) (hget 1 (by omega)) (hget 2 (by omega))
      (hget 3 (by omega)) (hb 0) (hb 1) (hb 2) (hb 3) (by omega)
  have hh : get_u_int res0 st.raw_data (to_int (front.length + 4))
      = some (be_value (payload.getD 4 0) (payload.getD 5 0) (payload.getD 6 0)
          (payload.getD 7 0)) :=
    get_u_int_bytes res0 _ _ _ _ _ _ (hget 4 (by omega)) (hget 5 (by omega)) (hget 6 (by omega))
      (hget 7 (by omega)) (hb 4) (hb 5) (hb 6) (hb 7) (by omega)
  unfold process_header
  have u : ∀ j, j < 13 → uint (front.length + j) = front.length + j :=
    fun j hj => uint_of_lt (by omega)
  simp only [hpos, u 4 (by omega), u 8 (by omega), u 9 (by omega), u 10 (by omega),
    u 11 (by omega), u 12 (by omega), hw, hh, hget 8 (by omega), hget 9 (by omega),
    hget 10 (by omega), hget 11 (by omega), hget 12 (by omega), Option.some_bind]

theorem chunk_bytes_eq (tag payload : List Nat) :
    chunk_bytes tag payload = chunk_raw (tag ++ payload) (crc32 0 (tag ++ payload)) := rfl

theorem IHDR_bytes : ∀ v ∈ IHDR, v < 256 := by decide

/-- What `process_chunk` does on a CRC-valid chunk tagged IHDR whose payload has
at least thirteen bytes. -/
theorem process_chunk_ihdr (res0 : Nat) (st : Image) (front payload back : List Nat)
    (hraw : st.raw_data = front ++ chunk_bytes IHDR payload ++ back)
    (hpos : st.cur_pos = front.length)
    (hbytes : ∀ v ∈ payload, v < 256) (hsize : front.length + payload.length + 12 ≤ 2 ^ 31) :
    process_chunk res0 st =
      process_header res0 { st with cur_pos := front.length + 8, first_block := false }
        (front.length + payload.length + 12) := by
  have hb : ∀ v ∈ IHDR ++ payload, v < 256 := by
    intro v hv
    rcases List.mem_append.mp hv with h | h
    · exact IHDR_bytes v h
    · exact hbytes v h
  have hl : (IHDR ++ payload).length = payload.length + 4 := by simp [IHDR]
  rw [process_chunk_layout res0 st front (IHDR ++ payload) back (crc32 0 (IHDR ++ payload))
    (by rw [hraw, chunk_bytes_eq]) hpos (by omega) (crc32_lt _ hb) (by omega)]
  have ht : List.take 4 (IHDR ++ payload) = IHDR := by simp [IHDR]
  have e : front.length + (IHDR ++ payload).length + 8 = front.length + payload.length + 12 := by
    omega
  rw [if_neg (by simp), if_neg (by simp [ht]), if_neg (by rw [ht]; decide),
    if_neg (by rw [ht]; decide), if_pos ht, e]

theorem invalid_opts_iff (bd ct cm fm im : Nat) :
    (decide (ct ≠ 2 ∧ ct ≠ 6) || decide (bd ≠ 8) || decide (cm ≠ 0) || decide (fm ≠ 0)
      || decide (im ≠ 0)) = true ↔ ¬ supported_opts bd ct cm fm im := by
  unfold supported_opts
  simp only [Bool.or_eq_true, decide_eq_true_eq]
  omega

/-- The header part of `process_chunk` on a CRC-valid IHDR chunk, in one step. -/
theorem process_chunk_ihdr_header (res0 : Nat) (st : Image) (front payload back : List Nat)
    (hraw : st.raw_data = front ++ chunk_bytes IHDR payload ++ back)
    (hpos : st.cur_pos = front.length) (hlen : 13 ≤ payload.length)
    (hbytes : ∀ v ∈ payload, v < 256) (hsize : front.length + payload.length + 12 ≤ 2 ^ 31) :
    process_chunk res0 st =
      if st.header_processed = false then
        if ¬ supported_opts (payload.getD 8 0) (payload.getD 9 0) (payload.getD 10 0)
            (payload.getD 11 0) (payload.getD 12 0) then
          some { st with
            cur_pos := front.length + 8, first_block := false,
            width := be_value (payload.getD 0 0) (payload.getD 1 0) (payload.getD 2 0)
              (payload.getD 3 0),
            height := be_value (payload.getD 4 0) (payload.getD 5 0) (payload.getD 6 0)
              (payload.getD 7 0),
            bit_depth := payload.getD 8 0, color_type := payload.getD 9 0,
            compression_method := payload.getD 10 0, filter_method := payload.getD 11 0,
            interlace_method := payload.getD 12 0,
            components := if payload.getD 9 0 = 2 then 3 else if payload.getD 9 0 = 6 then 4
              else st.components,
            err := Error.UNSUPPORTED_IMAGE_OPTS }
        else
          some { st with
            first_block := false,
            width := be_value (payload.getD 0 0) (payload.getD 1 0) (payload.getD 2 0)
              (payload.getD 3 0),
            height := be_value (payload.getD 4 0) (payload.getD 5 0) (payload.getD 6 0)
              (payload.getD 7 0),
            bit_depth := payload.getD 8 0, color_type := payload.getD 9 0,
            compression_method := payload.getD 10 0, filter_method := payload.getD 11 0,
            interlace_method := payload.getD 12 0,
            components := if payload.getD 9 0 = 2 then 3 else if payload.getD 9 0 = 6 then 4
              else st.components,
            header_processed := true, cur_pos := front.length + payload.length + 12 }
      else some { st with cur_pos := front.length + 8, first_block := false,
                          err := Error.DUPLICATE_BLOCK } := by
  rw [process_chunk_ihdr res0 st front payload back hraw hpos hbytes hsize]
  rw [process_header_layout res0 _ (front ++ be32 ((IHDR ++ payload).length - 4) ++ IHDR) payload
    (be32 (crc32 0 (IHDR ++ payload)) ++ back) _
    (by simp [hraw, chunk_bytes_eq, chunk_raw, List.append_assoc])
    (by simp [be32_length, IHDR]) hlen hbytes (by simp [be32_length, IHDR]; omega)]
  simp only [invalid_opts_iff]

/-! ## The chunk loop -/

theorem is_png_signature (back : List Nat) : is_png (PNG_SIGNATURE ++ back) = some true := by
  simp [is_png, signature_from, PNG_SIGNATURE]

theorem chunk_raw_length (body : List Nat) (crc : Nat) :
    (chunk_raw body crc).length = body.length + 8 := by
  simp [chunk_raw, be32_length]
  omega

/-- The constructor on a file that carries the signature. -/
theorem Image_Image_signed (fuel res0 : Nat) (char_signed : Bool)
    (inflate : List Nat → Bool × List Nat) (u : Image) (back : List Nat) :
    Image_Image fuel res0 char_signed inflate (some (PNG_SIGNATURE ++ back)) u =
      match chunk_loop res0 fuel
          { init_members u with raw_data := PNG_SIGNATURE ++ back, cur_pos := 8 } with
      | Run.undefined => Run.undefined
      | Run.out_of_fuel => Run.out_of_fuel
      | Run.finished st1 =>
        if st1.err ≠ Error.NONE then Run.finished st1
        else inflate_and_reconstruct char_signed inflate st1 := by
  unfold Image_Image
  simp only [is_png_signature]

theorem chunk_bytes_length (tag payload : List Nat) (htag : tag.length = 4) :
    (chunk_bytes tag payload).length = payload.length + 12 := by
  rw [chunk_bytes_eq, chunk_raw_length]
  simp [htag]
  omega

theorem chunk_loop_step_error (res0 fuel : Nat) (st st1 : Image) (hproc : st.processed = false)
    (hstep : process_chunk res0 st = some st1) (herr : st1.err ≠ Error.NONE) :
    chunk_loop res0 (fuel + 1) st = Run.finished st1 := by
  rw [chunk_loop, hproc, hstep]
  simp [herr]

theorem chunk_loop_step_next (res0 fuel : Nat) (st st1 : Image) (hproc : st.processed = false)
    (hstep : process_chunk res0 st = some st1) (herr : st1.err = Error.NONE) :
    chunk_loop res0 (fuel + 1) st = chunk_loop res0 fuel st1 := by
  rw [chunk_loop, hproc, hstep]
  simp [herr]

/-- What `process_chunk` does on a CRC-valid chunk with a four-byte tag. -/
theorem process_chunk_valid (res0 : Nat) (st : Image) (front tag payload back : List Nat)
    (hraw : st.raw_data = front ++ chunk_bytes tag payload ++ back)
    (hpos : st.cur_pos = front.length) (htag : tag.length = 4)
    (hbytes : ∀ v ∈ tag ++ payload, v < 256)
    (hsize : front.length + payload.length + 12 ≤ 2 ^ 31) :
    process_chunk res0 st =
      if st.first_block = true ∧ tag ≠ IHDR then
        some { st with cur_pos := front.length + 8, err := Error.INVALID_BLOCK }
      else if tag = IEND then
        some { st with cur_pos := front.length + payload.length + 12, first_block := false,
                       processed := true }
      else if tag = IDAT then
        some { st with cur_pos := front.length + payload.length + 12, first_block := false,
                       compressed_data := st.compressed_data ++ payload }
      else if tag = IHDR then
        process_header res0 { st with cur_pos := front.length + 8, first_block := false }
          (front.length + payload.length + 12)
      else some { st with cur_pos := front.length + payload.length + 12, first_block := false } := by
  have hl : (tag ++ payload).length = payload.length + 4 := by simp [htag]; omega
  rw [process_chunk_layout res0 st front (tag ++ payload) back (crc32 0 (tag ++ payload))
    (by rw [hraw, chunk_bytes_eq]) hpos (by omega) (crc32_lt _ hbytes) (by omega)]
  have ht : List.take 4 (tag ++ payload) = tag := by
    rw [← htag]; exact List.take_left' rfl
  have hd : List.drop 4 (tag ++ payload) = payload := by
    rw [← htag]; exact List.drop_left' rfl
  have e : front.length + (tag ++ payload).length + 8 = front.length + payload.length + 12 := by
    omega
  rw [if_neg (by simp), ht, hd, e]

/-! ## A flipped bit in the CRC range -/

theorem set_middle (front mid back : List Nat) (j v : Nat) (hj : j < mid.length) :
    (front ++ mid ++ back).set (front.length + j) v = front ++ mid.set j v ++ back := by
  rw [List.append_assoc, List.set_append, if_neg (by omega), List.set_append,
    show front.length + j - front.length = j by omega, if_pos hj, List.append_assoc]

theorem getD_middle (front mid back : List Nat) (j : Nat) (hj : j < mid.length) :
    (front ++ mid ++ back).getD (front.length + j) 0 = mid.getD j 0 := by
  rw [List.getD_eq_getElem?_getD, getElem?_middle front mid back j hj, Option.getD_some]

/-- A chunk whose stored CRC matches, with one bit flipped between the length
field and the stored CRC, fails the CRC comparison of `process_chunk`. -/
theorem process_chunk_flipped (res0 : Nat) (st : Image) (front body back : List Nat) (i k : Nat)
    (hraw : st.raw_data = front ++ chunk_raw body (crc32 0 body) ++ back)
    (hpos : st.cur_pos = front.length) (hbody : 4 ≤ body.length) (hbytes : ∀ v ∈ body, v < 256)
    (hsize : front.length + body.length + 8 ≤ 2 ^ 31) (hi : i < body.length) (hk : k < 8) :
    process_chunk res0
        { st with raw_data := flip_bit st.raw_data (front.length + 4 + i) k }
      = some { st with
          raw_data := flip_bit st.raw_data (front.length + 4 + i) k,
          cur_pos := front.length + 8, err := Error.CRC_MISMATCH } := by
  have hraw1 : st.raw_data = (front ++ be32 (body.length - 4)) ++ body ++ (be32 (crc32 0 body) ++ back) := by
    rw [hraw]; simp [chunk_raw, List.append_assoc]
  have hl : (front ++ be32 (body.length - 4)).length = front.length + 4 := by
    simp [be32_length]
  have hget : st.raw_data.getD (front.length + 4 + i) 0 = body.getD i 0 := by
    rw [hraw1, ← hl]; exact getD_middle _ _ _ i hi
  have hset : st.raw_data.set (front.length + 4 + i) (body.getD i 0 ^^^ 2 ^ k)
      = front ++ chunk_raw (body.set i (body.getD i 0 ^^^ 2 ^ k)) (crc32 0 body) ++ back := by
    rw [hraw1, ← hl, set_middle _ _ _ i _ hi]
    simp [chunk_raw, List.append_assoc]
  unfold flip_bit
  rw [hget]
  have hstep := process_chunk_layout res0
    { st with raw_data := st.raw_data.set (front.length + 4 + i) (body.getD i 0 ^^^ 2 ^ k) }
    front (body.set i (body.getD i 0 ^^^ 2 ^ k)) back
    (crc32 0 body) hset hpos (by simpa using hbody) (crc32_lt body hbytes) (by simpa using hsize)
  rw [hstep, if_pos (crc32_set_ne body hbytes i _ hi
    (flip_bit_lt (getD_mem_lt body hbytes i) hk) (flip_bit_ne _ _))]

theorem chunks_bytes_length_cons (c : List Nat × List Nat) (cs : List (List Nat × List Nat))
    (hc : c.1.length = 4) :
    (chunks_bytes (c :: cs)).length = c.2.length + 12 + (chunks_bytes cs).length := by
  simp [chunks_bytes, chunk_bytes_length _ _ hc]

/-- The chunk loop walks over a run of CRC-valid chunks that are neither IHDR
nor IEND, appending the IDAT payloads to `compressed_data`. -/
theorem chunk_loop_scan (res0 fuel : Nat) :
    ∀ (cs : List (List Nat × List Nat)) (st : Image) (front back : List Nat),
      st.raw_data = front ++ chunks_bytes cs ++ back → st.cur_pos = front.length →
      st.first_block = false → st.processed = false → st.err = Error.NONE →
      (∀ c ∈ cs, middle_chunk c) → front.length + (chunks_bytes cs).length ≤ 2 ^ 31 →
      chunk_loop res0 (cs.length + fuel) st =
        chunk_loop res0 fuel
          { st with cur_pos := front.length + (chunks_bytes cs).length,
                    compressed_data := st.compressed_data ++ idat_payloads cs } := by
  intro cs
  induction cs with
  | nil =>
    intro st front back _ hpos _ _ _ _ _
    simp only [List.length_nil, Nat.zero_add, chunks_bytes, idat_payloads, Nat.add_zero,
      List.append_nil, ← hpos]
  | cons c cs ih =>
    intro st front back hraw hpos hfirst hproc herr hcs hsize
    obtain ⟨htag, hne1, hne2, hbytes⟩ := hcs c (List.mem_cons_self _ _)
    rw [chunks_bytes_length_cons c cs htag] at hsize
    have hstep := process_chunk_valid res0 st front c.1 c.2 (chunks_bytes cs ++ back)
      (by rw [hraw]; simp [chunks_bytes, List.append_assoc]) hpos htag hbytes (by omega)
    rw [if_neg (by simp [hfirst]), if_neg hne2, if_neg hne1] at hstep
    have hstep1 : process_chunk res0 st = some
        { st with cur_pos := front.length + c.2.length + 12, first_block := false,
                  compressed_data := st.compressed_data ++ (if c.1 = IDAT then c.2 else []) } := by
      rw [hstep]
      by_cases hd : c.1 = IDAT
      · simp only [hd, if_true]
      · simp only [hd, if_false, List.append_nil]
    have e : (c :: cs).length + fuel = cs.length + fuel + 1 := by simp; omega
    rw [e, chunk_loop_step_next res0 _ st _ hproc hstep1 herr]
    have hih := ih
      { st with cur_pos := front.length + c.2.length + 12, first_block := false,
                compressed_data := st.compressed_data ++ (if c.1 = IDAT then c.2 else []) }
      (front ++ chunk_bytes c.1 c.2) back
      (by simp [hraw, chunks_bytes, List.append_assoc])
      (by simp [chunk_bytes_length _ _ htag]; omega) rfl hproc herr
      (fun c' hc' => hcs c' (List.mem_cons_of_mem _ hc'))
      (by simp [chunk_bytes_length _ _ htag]; omega)
    rw [hih]
    congr 1
    simp only [Image.mk.injEq, true_and, and_true, chunks_bytes_length_cons c cs htag,
      idat_payloads, List.append_assoc, List.length_append, chunk_bytes_length _ _ htag]
    exact ⟨by omega, hfirst.symm⟩

theorem process_header_duplicate (res0 : Nat) (st : Image) (done : Nat)
    (hhp : st.header_processed = true) :
    process_header res0 st done = some { st with err := Error.DUPLICATE_BLOCK } := by
  unfold process_header
  rw [if_neg (by simp [hhp])]

/-- Once a header is processed, `process_chunk` leaves the header fields alone. -/
theorem process_chunk_header_frame (res0 : Nat) (st st1 : Image)
    (hhp : st.header_processed = true) (hrun : process_chunk res0 st = some st1) :
    header_fields st1 = header_fields st := by
  unfold process_chunk at hrun
  simp only [Option.bind_eq_some] at hrun
  obtain ⟨len, _, ty, _, buf, _, crc, _, hrun⟩ := hrun
  split_ifs at hrun
  · cases hrun; rfl
  · cases hrun; rfl
  · cases hrun; rfl
  · simp only [Option.bind_eq_some] at hrun
    obtain ⟨p, _, hrun⟩ := hrun
    cases hrun; rfl
  · rw [process_header_duplicate _ _ _ (by exact hhp)] at hrun
    cases hrun; rfl
  · cases hrun; rfl

/-- The first, supported IHDR chunk: the state after `process_chunk`. -/
theorem process_chunk_supported_header (res0 : Nat) (st : Image) (front hdr back : List Nat)
    (hraw : st.raw_data = front ++ chunk_bytes IHDR hdr ++ back)
    (hpos : st.cur_pos = front.length) (hhp : st.header_processed = false)
    (hlen : 13 ≤ hdr.length) (hbytes : ∀ v ∈ hdr, v < 256)
    (hsup : supported_opts (hdr.getD 8 0) (hdr.getD 9 0) (hdr.getD 10 0) (hdr.getD 11 0)
      (hdr.getD 12 0))
    (hsize : front.length + hdr.length + 12 ≤ 2 ^ 31) :
    ∃ st1, process_chunk res0 st = some st1 ∧ st1.raw_data = st.raw_data ∧
      st1.cur_pos = front.length + hdr.length + 12 ∧ st1.first_block = false ∧
      st1.header_processed = true ∧ st1.processed = st.processed ∧ st1.err = st.err ∧
      st1.compressed_data = st.compressed_data ∧
      header_fields st1 =
        [be_value (hdr.getD 0 0) (hdr.getD 1 0) (hdr.getD 2 0) (hdr.getD 3 0),
          be_value (hdr.getD 4 0) (hdr.getD 5 0) (hdr.getD 6 0) (hdr.getD 7 0),
          hdr.getD 8 0, hdr.getD 9 0, hdr.getD 10 0, hdr.getD 11 0, hdr.getD 12 0,
          if hdr.getD 9 0 = 2 then 3 else 4] := by
  rw [process_chunk_ihdr_header res0 st front hdr back hraw hpos hlen hbytes hsize, if_pos hhp,
    if_neg (not_not.mpr hsup)]
  refine ⟨_, rfl, rfl, rfl, rfl, rfl, rfl, rfl, rfl, ?_⟩
  unfold supported_opts at hsup
  unfold header_fields
  rcases hsup.2.1 with h | h
  · simp only [h, if_true]
  · simp only [h, if_true]

/-- A CRC-valid IHDR chunk met after a header was processed. -/
theorem process_chunk_second_header (res0 : Nat) (st : Image) (front hdr2 back : List Nat)
    (hraw : st.raw_data = front ++ chunk_bytes IHDR hdr2 ++ back)
    (hpos : st.cur_pos = front.length) (hfirst : st.first_block = false)
    (hhp : st.header_processed = true) (hbytes : ∀ v ∈ hdr2, v < 256)
    (hsize : front.length + hdr2.length + 12 ≤ 2 ^ 31) :
    process_chunk res0 st
      = some { st with cur_pos := front.length + 8, err := Error.DUPLICATE_BLOCK } := by
  have hd := process_header_duplicate res0
    { st with cur_pos := front.length + 8, first_block := false }
    (front.length + hdr2.length + 12) hhp
  rw [process_chunk_ihdr res0 st front hdr2 back hraw hpos hbytes hsize, hd]
  simp only [Image.mk.injEq, Option.some.injEq, true_and, and_true]
  exact hfirst.symm

/-- The chunk loop on a supported IHDR chunk, a run of chunks that are neither
IHDR nor IEND, and a second IHDR chunk. -/
theorem chunk_loop_duplicate (res0 fuel : Nat) (st : Image) (front hdr hdr2 back : List Nat)
    (cs : List (List Nat × List Nat))
    (hraw : st.raw_data = front ++ chunk_bytes IHDR hdr ++ chunks_bytes cs
      ++ chunk_bytes IHDR hdr2 ++ back)
    (hpos : st.cur_pos = front.length) (hhp : st.header_processed = false)
    (hproc : st.processed = false) (herr : st.err = Error.NONE)
    (hlen : 13 ≤ hdr.length) (hbytes : ∀ v ∈ hdr, v < 256)
    (hsup : supported_opts (hdr.getD 8 0) (hdr.getD 9 0) (hdr.getD 10 0) (hdr.getD 11 0)
      (hdr.getD 12 0))
    (hcs : ∀ c ∈ cs, middle_chunk c) (hbytes2 : ∀ v ∈ hdr2, v < 256)
    (hsize : front.length + (hdr.length + 12) + (chunks_bytes cs).length + (hdr2.length + 12)
      ≤ 2 ^ 31) :
    ∃ img, chunk_loop res0 (cs.length + 2 + fuel) st = Run.finished img ∧
      img.err = Error.DUPLICATE_BLOCK ∧
      header_fields img =
        [be_value (hdr.getD 0 0) (hdr.getD 1 0) (hdr.getD 2 0) (hdr.getD 3 0),
          be_value (hdr.getD 4 0) (hdr.getD 5 0) (hdr.getD 6 0) (hdr.getD 7 0),
          hdr.getD 8 0, hdr.getD 9 0, hdr.getD 10 0, hdr.getD 11 0, hdr.getD 12 0,
          if hdr.getD 9 0 = 2 then 3 else 4] := by
  have hIHDR : IHDR.length = 4 := rfl
  obtain ⟨st1, h1, hraw1, hpos1, hfirst1, hhp1, hproc1, herr1, _, hf1⟩ :=
    process_chunk_supported_header res0 st front hdr
      (chunks_bytes cs ++ chunk_bytes IHDR hdr2 ++ back)
      (by rw [hraw]; simp only [List.append_assoc]) hpos hhp hlen hbytes hsup (by omega)
  have e : cs.length + 2 + fuel = cs.length + (1 + fuel) + 1 := by omega
  rw [e, chunk_loop_step_next res0 _ st st1 hproc h1 (by rw [herr1, herr])]
  rw [chunk_loop_scan res0 (1 + fuel) cs st1 (front ++ chunk_bytes IHDR hdr)
    (chunk_bytes IHDR hdr2 ++ back) (by rw [hraw1, hraw]; simp only [List.append_assoc])
    (by simp [hpos1, chunk_bytes_length _ _ hIHDR]; omega) hfirst1 (by rw [hproc1, hproc])
    (by rw [herr1, herr]) hcs (by simp [chunk_bytes_length _ _ hIHDR]; omega)]
  have h3 := process_chunk_second_header res0
    { st1 with
      cur_pos := (front ++ chunk_bytes IHDR hdr).length + (chunks_bytes cs).length,
      compressed_data := st1.compressed_data ++ idat_payloads cs }
    (front ++ chunk_bytes IHDR hdr ++ chunks_bytes cs) hdr2 back
    (by show st1.raw_data = _; rw [hraw1, hraw])
    (by simp [Nat.add_assoc]) hfirst1 hhp1 hbytes2 (by simp [chunk_bytes_length _ _ hIHDR]; omega)
  have e2 : 1 + fuel = fuel + 1 := by omega
  rw [e2, chunk_loop_step_error res0 fuel _ _ (by show st1.processed = false; rw [hproc1, hproc])
    h3 (fun h => Error.noConfusion h)]
  exact ⟨_, rfl, rfl, hf1⟩

/-! ## Length of the pixel buffer -/

theorem for_int_preserve {σ : Type} (ret : σ → Bool) (body : Nat → σ → Option σ) (Q : σ → Prop)
    (hstep : ∀ j s s1, body j s = some s1 → Q s → Q s1) :
    ∀ (k i : Nat) (s s1 : σ), for_int ret body k i s = some s1 → Q s → Q s1 := by
  intro k
  induction k with
  | zero =>
    intro i s s1 h hQ
    rw [for_int_zero] at h
    cases h
    exact hQ
  | succ k ih =>
    intro i s s1 h hQ
    rw [for_int] at h
    cases hb : body i s with
    | none => rw [hb] at h; cases h
    | some t =>
      rw [hb] at h
      simp only at h
      have hQt := hstep i s t hb hQ
      split_ifs at h with h1 h2
      · cases h; exact hQt
      · exact ih (i + 1) t s1 h hQt

/-- A loop that ran to its end without an early return did every iteration. -/
theorem for_int_complete {σ : Type} (ret : σ → Bool) (body : Nat → σ → Option σ) (k i : Nat)
    (s s1 : σ) (h : for_int ret body (k + 1) i s = some s1) (hret : ret s1 = false) :
    ∃ t, body i s = some t ∧ ret t = false ∧ i < 2147483647 ∧
      for_int ret body k (i + 1) t = some s1 := by
  rw [for_int] at h
  cases hb : body i s with
  | none => rw [hb] at h; cases h
  | some t =>
    rw [hb] at h
    simp only at h
    split_ifs at h with h1 h2
    · cases h
      rw [hret] at h1
      cases h1
    · exact ⟨t, rfl, by simpa using h1, by omega, h⟩

theorem for_int_bound {σ : Type} (ret : σ → Bool) (body : Nat → σ → Option σ) :
    ∀ (k i : Nat) (s s1 : σ), for_int ret body k i s = some s1 → ret s1 = false → 0 < k →
      i + k ≤ 2147483647 := by
  intro k
  induction k with
  | zero => intro i s s1 _ _ hk; omega
  | succ k ih =>
    intro i s s1 h hret _
    obtain ⟨t, _, _, hi, hrest⟩ := for_int_complete ret body k i s s1 h hret
    rcases Nat.eq_zero_or_pos k with h0 | hpos
    · omega
    · have := ih (i + 1) t s1 hrest hret hpos
      omega

theorem split_byte_length (unc : List Nat) (sw : Int) (y b : Nat) (d d1 : List Nat)
    (h : split_byte unc sw y b d = some d1) :
    d1.length = d.length + (if b = 0 then 0 else 1) := by
  unfold split_byte at h
  by_cases hb : b = 0
  · rw [if_neg (by simp [hb])] at h
    cases h
    simp [hb]
  · rw [if_pos hb] at h
    simp only [Option.bind_eq_some] at h
    obtain ⟨m, _, i, _, v, _, h⟩ := h
    cases h
    simp [hb]

theorem split_inner_length (unc : List Nat) (sw : Int) (y : Nat) :
    ∀ (k b : Nat) (d d1 : List Nat),
      for_int (fun _ => false) (split_byte unc sw y) k b d = some d1 →
      d1.length + (if b = 0 ∧ 0 < k then 1 else 0) = d.length + k := by
  intro k
  induction k with
  | zero =>
    intro b d d1 h
    rw [for_int_zero] at h
    cases h
    simp
  | succ k ih =>
    intro b d d1 h
    obtain ⟨t, hb, _, _, hrest⟩ := for_int_complete _ _ k b d d1 h rfl
    have h1 := split_byte_length unc sw y b d t hb
    have h2 := ih (b + 1) t d1 hrest
    rw [if_neg (by omega)] at h2
    by_cases hb0 : b = 0
    · rw [if_pos hb0] at h1
      rw [if_pos ⟨hb0, by omega⟩]
      omega
    · rw [if_neg hb0] at h1
      rw [if_neg (by omega)]
      omega

theorem split_row_length (unc : List Nat) (sw : Int) (y : Nat) (s s1 : List Nat × List Nat)
    (h : split_row unc sw y s = some s1) : s1.2.length = s.2.length + (sw.toNat - 1) := by
  unfold split_row at h
  simp only [Option.bind_eq_some] at h
  obtain ⟨m, _, f, _, d, hd, h⟩ := h
  cases h
  have := split_inner_length unc sw y sw.toNat 0 s.2 d hd
  by_cases h0 : 0 < sw.toNat
  · rw [if_pos ⟨rfl, h0⟩] at this
    simp only
    omega
  · rw [if_neg (by omega)] at this
    simp only
    omega

theorem split_loop_length (unc : List Nat) (sw : Int) :
    ∀ (k y : Nat) (s s1 : List Nat × List Nat),
      for_int (fun _ => false) (split_row unc sw) k y s = some s1 →
      s1.2.length = s.2.length + k * (sw.toNat - 1) := by
  intro k
  induction k with
  | zero =>
    intro y s s1 h
    rw [for_int_zero] at h
    cases h
    simp
  | succ k ih =>
    intro y s s1 h
    obtain ⟨t, hb, _, _, hrest⟩ := for_int_complete _ _ k y s s1 h rfl
    rw [ih (y + 1) t s1 hrest, split_row_length unc sw y s t hb, Nat.succ_mul]
    omega

theorem add_assign_length (d d1 : List Nat) (i : Nat) (v : Int)
    (h : add_assign d i v = some d1) : d1.length = d.length := by
  unfold add_assign at h
  simp only [Option.bind_eq_some] at h
  obtain ⟨x, _, h⟩ := h
  cases h
  simp

theorem unfilter_byte_length (char_signed : Bool) (w n : Nat) (fm : List Nat) (y x : Nat)
    (s s1 : Error × List Nat) (h : unfilter_byte char_signed w n fm y x s = some s1) :
    s1.2.length = s.2.length ∧ uint (ulong (y * w * n + x)) < s.2.length := by
  unfold unfilter_byte at h
  simp only [Option.bind_eq_some] at h
  obtain ⟨c, hc, abc, _, f, _, h⟩ := h
  have hlt : uint (ulong (y * w * n + x)) < s.2.length := by
    by_contra hge
    rw [List.getElem?_eq_none (by omega)] at hc
    cases hc
  refine ⟨?_, hlt⟩
  split_ifs at h
  · cases h; rfl
  · simp only [Option.bind_eq_some] at h
    obtain ⟨d, hd, h⟩ := h
    cases h
    exact add_assign_length _ _ _ _ hd
  · simp only [Option.bind_eq_some] at h
    obtain ⟨d, hd, h⟩ := h
    cases h
    exact add_assign_length _ _ _ _ hd
  · simp only [Option.bind_eq_some] at h
    obtain ⟨d, hd, h⟩ := h
    cases h
    exact add_assign_length _ _ _ _ hd
  · simp only [Option.bind_eq_some] at h
    obtain ⟨d, hd, h⟩ := h
    cases h
    exact add_assign_length _ _ _ _ hd
  · cases h; rfl
  · cases h; rfl

theorem unfilter_row_length (char_signed : Bool) (w n : Nat) (fm : List Nat) (y : Nat)
    (s s1 : Error × List Nat) (h : unfilter_row char_signed w n fm y s = some s1) :
    s1.2.length = s.2.length := by
  unfold unfilter_row at h
  exact for_int_preserve _ _ (fun t => t.2.length = s.2.length)
    (fun j t t1 hb hQ => by
      show t1.2.length = s.2.length
      rw [(unfilter_byte_length char_signed w n fm y j t t1 hb).1]; exact hQ)
    _ _ s s1 h rfl

theorem unfilter_loop_length (char_signed : Bool) (w n : Nat) (fm : List Nat) (k y : Nat)
    (s s1 : Error × List Nat)
    (h : for_int (fun t => t.1 != Error.NONE) (unfilter_row char_signed w n fm) k y s = some s1) :
    s1.2.length = s.2.length :=
  for_int_preserve _ _ (fun t => t.2.length = s.2.length)
    (fun j t t1 hb hQ => by
      show t1.2.length = s.2.length
      rw [unfilter_row_length char_signed w n fm j t t1 hb]; exact hQ)
    _ _ s s1 h rfl

/-- Whenever the filter reversal ends without error, `data` has
`width * height * components` bytes. -/
theorem reconstruct_length (char_signed : Bool) (w h n : Nat) (unc data : List Nat)
    (hw : w * n < 2 ^ 64) (hrun : reconstruct char_signed w h n unc = some (Error.NONE, data)) :
    data.length = w * h * n := by
  unfold reconstruct at hrun
  simp only [Option.bind_eq_some] at hrun
  obtain ⟨fd, hsplit, hun⟩ := hrun
  have hl0 := split_loop_length unc _ h 0 ([], []) fd hsplit
  have hl1 := unfilter_loop_length char_signed w n fd.1 h 0 _ _ hun
  simp only [List.length_nil, Nat.zero_add] at hl0 hl1
  rw [hl1, hl0]
  cases h with
  | zero => simp
  | succ h' =>
    obtain ⟨t, hrow, hret, _, _⟩ := for_int_complete _ _ h' 0 _ _ hun rfl
    unfold unfilter_row at hrow
    rw [ulong_of_lt hw] at hrow
    have e : w * (h' + 1) * n = (h' + 1) * (w * n) := by
      rw [Nat.mul_right_comm, Nat.mul_comm]
    rw [e]
    rcases Nat.eq_zero_or_pos (w * n) with h0 | hpos
    · rw [h0]
      have : to_int (ulong (0 + 1)) = 1 := by decide
      simp [this]
    · obtain ⟨k, hk⟩ : ∃ k, w * n = k + 1 := ⟨w * n - 1, by omega⟩
      rw [hk] at hrow
      obtain ⟨t1, hbyte, _, _, hrest⟩ := for_int_complete _ _ k 0 _ _ hrow hret
      have hbound : w * n ≤ 2147483647 := by
        have := for_int_bound _ _ (k + 1) 0 _ _ hrow hret (by omega)
        omega
      have hread := (unfilter_byte_length char_signed w n fd.1 0 0 _ _ hbyte).2
      simp only [Nat.zero_mul, Nat.add_zero] at hread
      have hread' : 0 < fd.2.length := by
        have : uint (ulong 0) = 0 := by decide
        rw [this] at hread
        exact hread
      rw [hl0] at hread'
      have hsw : 0 < (to_int (ulong (w * n + 1))).toNat - 1 := by
        rcases Nat.eq_zero_or_pos ((to_int (ulong (w * n + 1))).toNat - 1) with hz | hz
        · rw [hz] at hread'; simp at hread'
        · exact hz
      have hlt : w * n + 1 < 2 ^ 31 := by
        by_contra hge
        have h31 : w * n + 1 = 2 ^ 31 := by omega
        rw [h31] at hsw
        revert hsw
        decide
      rw [ulong_of_lt (by omega), to_int_of_lt hlt, Int.toNat_ofNat, Nat.add_sub_cancel]

/-! ## Invariant of the chunk loop -/

theorem get_u_int_lt (res0 : Nat) (raw : List Nat) (idx : Int) (v : Nat)
    (h : get_u_int res0 raw idx = some v) : v < 2 ^ 32 := by
  unfold get_u_int at h
  obtain ⟨t1, _, _, _, h⟩ := for_int_complete _ _ 3 0 _ _ h rfl
  obtain ⟨t2, _, _, _, h⟩ := for_int_complete _ _ 2 _ _ _ h rfl
  obtain ⟨t3, _, _, _, h⟩ := for_int_complete _ _ 1 _ _ _ h rfl
  obtain ⟨t4, hb, _, _, h⟩ := for_int_complete _ _ 0 _ _ _ h rfl
  rw [for_int_zero] at h
  cases h
  unfold get_u_int_step at hb
  simp only [Option.bind_eq_some] at hb
  obtain ⟨j, _, b, _, hb⟩ := hb
  cases hb
  exact Nat.mod_lt _ (by norm_num)

theorem process_header_inv (res0 : Nat) (st st1 : Image) (done : Nat)
    (h : process_header res0 st done = some st1) (herr : st1.err = Error.NONE) :
    st1.first_block = st.first_block ∧ st1.header_processed = true ∧ HeaderOk st1 := by
  unfold process_header at h
  by_cases hhp : st.header_processed = false
  · rw [if_pos hhp] at h
    simp only [Option.bind_eq_some, invalid_opts_iff] at h
    obtain ⟨w, hw, ht, hht, bd, _, ct, _, cm, _, fm, _, im, _, h⟩ := h
    by_cases hs : supported_opts bd ct cm fm im
    · rw [if_neg (not_not.mpr hs)] at h
      cases h
      refine ⟨rfl, rfl, ?_⟩
      have hw1 := get_u_int_lt _ _ _ _ hw
      have hh1 := get_u_int_lt _ _ _ _ hht
      obtain ⟨h1, h2, h3, h4, h5⟩ := hs
      refine ⟨h1, ?_, h3, h4, h5, hw1, hh1⟩
      rcases h2 with h2 | h2
      · left
        exact ⟨h2, by show (if ct = 2 then 3 else _) = 3; rw [if_pos h2]⟩
      · right
        refine ⟨h2, ?_⟩
        show (if ct = 2 then 3 else if ct = 6 then 4 else _) = 4
        rw [if_neg (by omega), if_pos h2]
    · rw [if_pos hs] at h
      cases h
      cases herr
  · rw [if_neg hhp] at h
    cases h
    cases herr

theorem process_chunk_inv (res0 : Nat) (st st1 : Image) (hinv : ScanInv st)
    (h : process_chunk res0 st = some st1) (herr : st1.err = Error.NONE) : ScanInv st1 := by
  unfold process_chunk at h
  simp only [Option.bind_eq_some] at h
  obtain ⟨len, _, ty, _, buf, _, crc, _, h⟩ := h
  have hother : ∀ (hfb : ¬ (st.first_block = true ∧ ty ≠ IHDR)) (_ : ty ≠ IHDR),
      st.first_block = false ∧ st.header_processed = true ∧ HeaderOk st := by
    intro hfb hty
    rcases hinv with ⟨h1, _, _⟩ | h2
    · exact absurd ⟨h1, hty⟩ hfb
    · exact h2
  split_ifs at h with h1 h2 h3 h4 h5
  · cases h; cases herr
  · cases h; cases herr
  · cases h
    have := hother h2 (by rw [h3]; decide)
    exact Or.inr ⟨rfl, this.2.1, this.2.2⟩
  · simp only [Option.bind_eq_some] at h
    obtain ⟨p, _, h⟩ := h
    cases h
    have := hother h2 (by rw [h4]; decide)
    exact Or.inr ⟨rfl, this.2.1, this.2.2⟩
  · obtain ⟨ha, hb, hc⟩ := process_header_inv res0 _ st1 _ h herr
    exact Or.inr ⟨ha, hb, hc⟩
  · cases h
    have := hother h2 h5
    exact Or.inr ⟨rfl, this.2.1, this.2.2⟩

theorem chunk_loop_inv (res0 : Nat) :
    ∀ (fuel : Nat) (st st1 : Image), ScanInv st → chunk_loop res0 fuel st = Run.finished st1 →
      st1.err = Error.NONE → ScanInv st1 ∧ st1.processed = true := by
  intro fuel
  induction fuel with
  | zero =>
    intro st st1 hinv h _
    rw [chunk_loop] at h
    split_ifs at h with hp
    cases h
    exact ⟨hinv, hp⟩
  | succ fuel ih =>
    intro st st1 hinv h herr
    rw [chunk_loop] at h
    split_ifs at h with hp
    · cases h
      exact ⟨hinv, hp⟩
    · cases hstep : process_chunk res0 st with
      | none => rw [hstep] at h; cases h
      | some st2 =>
        rw [hstep] at h
        simp only at h
        split_ifs at h with he
        · cases h
          exact absurd herr he
        · exact ih st2 st1 (process_chunk_inv res0 st st2 hinv hstep (not_not.mp he)) h herr

theorem scanInv_init (u : Image) (bytes : List Nat) :
    ScanInv { init_members u with raw_data := bytes, cur_pos := 8 } :=
  Or.inl ⟨rfl, rfl, rfl⟩

/-- A finished run without error went through `inflate_and_reconstruct` from a
state the chunk loop left with a supported header. -/
theorem Image_Image_ok (fuel res0 : Nat) (char_signed : Bool)
    (inflate : List Nat → Bool × List Nat) (file : Option (List Nat)) (u img : Image)
    (hrun : Image_Image fuel res0 char_signed inflate file u = Run.finished img)
    (herr : img.err = Error.NONE) :
    ∃ st r, HeaderOk st ∧ st.processed = true ∧ (inflate st.compressed_data).1 = true ∧
      reconstruct char_signed st.width st.height st.components (inflate st.compressed_data).2
        = some r ∧
      img = { st with uncompressed_data := (inflate st.compressed_data).2, err := r.1,
                      data := r.2 } := by
  unfold Image_Image at hrun
  cases file with
  | none => simp only at hrun; cases hrun; cases herr
  | some bytes =>
    simp only at hrun
    cases hsig : is_png bytes with
    | none => rw [hsig] at hrun; cases hrun
    | some b =>
      rw [hsig] at hrun
      cases b with
      | false => simp only at hrun; cases hrun; cases herr
      | true =>
        simp only at hrun
        cases hloop : chunk_loop res0 fuel { init_members u with raw_data := bytes, cur_pos := 8 } with
        | undefined => rw [hloop] at hrun; cases hrun
        | out_of_fuel => rw [hloop] at hrun; cases hrun
        | finished st =>
          rw [hloop] at hrun
          simp only at hrun
          split_ifs at hrun with he
          · cases hrun; exact absurd herr he
          · obtain ⟨hinv, hproc⟩ := chunk_loop_inv res0 fuel _ st (scanInv_init u bytes) hloop
              (not_not.mp he)
            have hok : HeaderOk st := by
              rcases hinv with ⟨_, _, h3⟩ | ⟨_, _, h3⟩
              · rw [hproc] at h3; cases h3
              · exact h3
            unfold inflate_and_reconstruct at hrun
            split_ifs at hrun with hz
            · cases hrun; cases herr
            · cases hrec : reconstruct char_signed st.width st.height st.components
                  (inflate st.compressed_data).2 with
              | none => rw [hrec] at hrun; cases hrun
              | some r =>
                rw [hrec] at hrun
                simp only at hrun
                cases hrun
                exact ⟨st, r, hok, hproc, by simpa using hz, hrec, rfl⟩

/-- Zero height: the filter reversal does nothing. -/
theorem reconstruct_zero_height (char_signed : Bool) (w n : Nat) (unc : List Nat) :
    reconstruct char_signed w 0 n unc = some (Error.NONE, []) := rfl

/-- Zero width: the filter reversal reads the filter bytes and leaves `data` empty. -/
theorem reconstruct_zero_width (char_signed : Bool) (h n : Nat) (unc : List Nat)
    (hh : h < 2 ^ 31) (hlen : h ≤ unc.length) :
    reconstruct char_signed 0 h n unc = some (Error.NONE, []) := by
  obtain ⟨fm, d0, hsplit, _, _, hl0, _⟩ := split_loop_spec unc (0 * n) h (by omega) (by omega)
  have hd0 : d0 = [] := List.eq_nil_of_length_eq_zero (by rw [hl0]; simp)
  subst hd0
  unfold reconstruct
  simp only [hsplit, Option.some_bind]
  obtain ⟨s, hrun, hs⟩ := for_int_rule (fun t => t.1 != Error.NONE)
    (unfilter_row char_signed 0 n fm) (fun _ s => s = (Error.NONE, [])) h 0 (Error.NONE, [])
    (by omega) rfl
    (by
      intro y t _ _ ht
      subst ht
      refine ⟨(Error.NONE, []), ?_, rfl, rfl⟩
      unfold unfilter_row
      have : ulong (0 * n) = 0 := by simp [ulong]
      rw [this, for_int_zero])
  rw [hrun, hs]

/-! ## `get_u_int`: value and independence of the start value -/

theorem get_u_int_natCast (res0 : Nat) (raw : List Nat) (idx : Nat) (hbound : idx + 3 < raw.length)
    (hint : idx + 3 ≤ 2147483647) (hbytes : ∀ v ∈ raw, v < 256) :
    get_u_int res0 raw (idx : Int)
      = some (be_value (raw.getD idx 0) (raw.getD (idx + 1) 0) (raw.getD (idx + 2) 0)
          (raw.getD (idx + 3) 0)) := by
  rw [← to_int_of_lt (show idx < 2 ^ 31 by omega)]
  exact get_u_int_bytes res0 raw idx _ _ _ _ (getElem?_eq_some_getD (by omega))
    (getElem?_eq_some_getD (by omega)) (getElem?_eq_some_getD (by omega))
    (getElem?_eq_some_getD (by omega)) (getD_mem_lt raw hbytes _) (getD_mem_lt raw hbytes _)
    (getD_mem_lt raw hbytes _) (getD_mem_lt raw hbytes _) (by omega)

/-! ## The CRC comparison comes first -/

theorem process_header_err (res0 : Nat) (st st1 : Image) (done : Nat)
    (h : process_header res0 st done = some st1) :
    st1.err = st.err ∨ st1.err = Error.UNSUPPORTED_IMAGE_OPTS ∨
      st1.err = Error.DUPLICATE_BLOCK := by
  unfold process_header at h
  by_cases hhp : st.header_processed = false
  · rw [if_pos hhp] at h
    simp only [Option.bind_eq_some, invalid_opts_iff] at h
    obtain ⟨w, _, ht, _, bd, _, ct, _, cm, _, fm, _, im, _, h⟩ := h
    by_cases hs : supported_opts bd ct cm fm im
    · rw [if_neg (not_not.mpr hs)] at h
      cases h
      exact Or.inl rfl
    · rw [if_pos hs] at h
      cases h
      exact Or.inr (Or.inl rfl)
  · rw [if_neg hhp] at h
    cases h
    exact Or.inr (Or.inr rfl)

theorem process_chunk_crc_equal (res0 : Nat) (st st1 : Image) (front body back : List Nat)
    (hraw : st.raw_data = front ++ chunk_raw body (crc32 0 body) ++ back)
    (hpos : st.cur_pos = front.length) (hbody : 4 ≤ body.length)
    (hcrc : crc32 0 body < 2 ^ 32) (hsize : front.length + body.length + 8 ≤ 2 ^ 31)
    (hrun : process_chunk res0 st = some st1) (herr : st.err ≠ Error.CRC_MISMATCH) :
    st1.err ≠ Error.CRC_MISMATCH := by
  rw [process_chunk_layout res0 st front body back _ hraw hpos hbody hcrc hsize,
    if_neg (by simp)] at hrun
  split_ifs at hrun
  · cases hrun; exact fun h => Error.noConfusion h
  · cases hrun; exact herr
  · cases hrun; exact herr
  · rcases process_header_err res0 _ st1 _ hrun with h | h | h
    · rw [h]; exact herr
    · rw [h]; exact fun h => Error.noConfusion h
    · rw [h]; exact fun h => Error.noConfusion h
  · cases hrun; exact herr

/-! ## The signature check and the values of `err` -/

theorem signature_from_spec (raw : List Nat) :
    ∀ (sig : List Nat) (i : Nat), i + sig.length ≤ raw.length →
      signature_from raw i sig = some (decide ((raw.drop i).take sig.length = sig)) := by
  intro sig
  induction sig with
  | nil => intro i _; simp [signature_from]
  | cons s rest ih =>
    intro i hi
    simp only [List.length_cons] at hi
    have hlt : i < raw.length := by omega
    rw [signature_from, List.getElem?_eq_getElem hlt]
    simp only
    rw [List.drop_eq_getElem_cons hlt, List.length_cons, List.take_succ_cons]
    by_cases hs : raw[i] = s
    · rw [if_pos hs, ih (i + 1) (by omega)]
      simp [hs]
    · rw [if_neg hs]
      simp [hs]

theorem is_png_spec (bytes : List Nat) (hlen : 8 ≤ bytes.length) :
    is_png bytes = some (decide (bytes.take 8 = PNG_SIGNATURE)) := by
  unfold is_png
  rw [signature_from_spec bytes PNG_SIGNATURE 0 (by simpa [PNG_SIGNATURE] using hlen)]
  simp [PNG_SIGNATURE]

/-- The values `process_chunk` can leave in `err`. -/
theorem process_chunk_err (res0 : Nat) (st st1 : Image) (h : process_chunk res0 st = some st1) :
    st1.err = st.err ∨ st1.err = Error.CRC_MISMATCH ∨ st1.err = Error.INVALID_BLOCK ∨
      st1.err = Error.UNSUPPORTED_IMAGE_OPTS ∨ st1.err = Error.DUPLICATE_BLOCK := by
  unfold process_chunk at h
  simp only [Option.bind_eq_some] at h
  obtain ⟨len, _, ty, _, buf, _, crc, _, h⟩ := h
  split_ifs at h
  · cases h; exact Or.inr (Or.inl rfl)
  · cases h; exact Or.inr (Or.inr (Or.inl rfl))
  · cases h; exact Or.inl rfl
  · simp only [Option.bind_eq_some] at h
    obtain ⟨p, _, h⟩ := h
    cases h; exact Or.inl rfl
  · rcases process_header_err res0 _ st1 _ h with h1 | h1 | h1
    · exact Or.inl h1
    · exact Or.inr (Or.inr (Or.inr (Or.inl h1)))
    · exact Or.inr (Or.inr (Or.inr (Or.inr h1)))
  · cases h; exact Or.inl rfl

theorem chunk_loop_err (res0 : Nat) :
    ∀ (fuel : Nat) (st st1 : Image), chunk_loop res0 fuel st = Run.finished st1 →
      st1.err = st.err ∨ st1.err = Error.CRC_MISMATCH ∨ st1.err = Error.INVALID_BLOCK ∨
        st1.err = Error.UNSUPPORTED_IMAGE_OPTS ∨ st1.err = Error.DUPLICATE_BLOCK := by
  intro fuel
  induction fuel with
  | zero =>
    intro st st1 h
    rw [chunk_loop] at h
    split_ifs at h
    cases h
    exact Or.inl rfl
  | succ fuel ih =>
    intro st st1 h
    rw [chunk_loop] at h
    split_ifs at h
    · cases h; exact Or.inl rfl
    · cases hstep : process_chunk res0 st with
      | none => rw [hstep] at h; cases h
      | some st2 =>
        rw [hstep] at h
        simp only at h
        have h2 := process_chunk_err res0 st st2 hstep
        split_ifs at h with he
        · cases h; exact h2
        · rcases ih st2 st1 h with h3 | h3
          · rw [h3]; exact h2
          · exact Or.inr h3

theorem unfilter_byte_err (char_signed : Bool) (w n : Nat) (fm : List Nat) (y x : Nat)
    (s s1 : Error × List Nat) (h : unfilter_byte char_signed w n fm y x s = some s1) :
    s1.1 = s.1 ∨ s1.1 = Error.INVALID_FILTER_TYPE := by
  unfold unfilter_byte at h
  simp only [Option.bind_eq_some] at h
  obtain ⟨c, _, abc, _, f, _, h⟩ := h
  split_ifs at h
  · cases h; exact Or.inl rfl
  · simp only [Option.bind_eq_some] at h
    obtain ⟨d, _, h⟩ := h
    cases h; exact Or.inl rfl
  · simp only [Option.bind_eq_some] at h
    obtain ⟨d, _, h⟩ := h
    cases h; exact Or.inl rfl
  · simp only [Option.bind_eq_some] at h
    obtain ⟨d, _, h⟩ := h
    cases h; exact Or.inl rfl
  · simp only [Option.bind_eq_some] at h
    obtain ⟨d, _, h⟩ := h
    cases h; exact Or.inl rfl
  · cases h; exact Or.inr rfl
  · cases h; exact Or.inl rfl

/-- The filter reversal ends with `err` either `NONE` or `INVALID_FILTER_TYPE`. -/
theorem reconstruct_err (char_signed : Bool) (w h n : Nat) (unc : List Nat) (r : Error × List Nat)
    (hrun : reconstruct char_signed w h n unc = some r) :
    r.1 = Error.NONE ∨ r.1 = Error.INVALID_FILTER_TYPE := by
  unfold reconstruct at hrun
  simp only [Option.bind_eq_some] at hrun
  obtain ⟨fd, _, hun⟩ := hrun
  refine for_int_preserve _ _ (fun t => t.1 = Error.NONE ∨ t.1 = Error.INVALID_FILTER_TYPE)
    (fun y t t1 hb hQ => ?_) _ _ _ r hun (Or.inl rfl)
  unfold unfilter_row at hb
  refine for_int_preserve _ _ (fun t => t.1 = Error.NONE ∨ t.1 = Error.INVALID_FILTER_TYPE)
    (fun x t2 t3 hb2 hQ2 => ?_) _ _ _ t1 hb hQ
  show t3.1 = Error.NONE ∨ t3.1 = Error.INVALID_FILTER_TYPE
  rcases unfilter_byte_err char_signed w n fd.1 y x t2 t3 hb2 with h1 | h1
  · rw [h1]; exact hQ2
  · exact Or.inr h1

theorem inflate_and_reconstruct_err (char_signed : Bool) (inflate : List Nat → Bool × List Nat)
    (st img : Image) (hrun : inflate_and_reconstruct char_signed inflate st = Run.finished img) :
    ((inflate st.compressed_data).1 = false ∧ img.err = Error.ZLIB_ERROR) ∨
      ((inflate st.compressed_data).1 = true ∧
        (img.err = Error.NONE ∨ img.err = Error.INVALID_FILTER_TYPE)) := by
  unfold inflate_and_reconstruct at hrun
  split_ifs at hrun with hz
  · cases hrun
    exact Or.inl ⟨hz, rfl⟩
  · cases hrec : reconstruct char_signed st.width st.height st.components
        (inflate st.compressed_data).2 with
    | none => rw [hrec] at hrun; cases hrun
    | some r =>
      rw [hrec] at hrun
      simp only at hrun
      cases hrun
      exact Or.inr ⟨by simpa using hz, reconstruct_err _ _ _ _ _ r hrec⟩

/-- No run that passes the signature check ends with `INVALID_PNG_SIGNATURE`. -/
theorem Image_Image_signed_err (fuel res0 : Nat) (char_signed : Bool)
    (inflate : List Nat → Bool × List Nat) (u img : Image) (bytes : List Nat)
    (hsig : is_png bytes = some true)
    (hrun : Image_Image fuel res0 char_signed inflate (some bytes) u = Run.finished img) :
    img.err ≠ Error.INVALID_PNG_SIGNATURE := by
  unfold Image_Image at hrun
  simp only [hsig] at hrun
  cases hloop : chunk_loop res0 fuel { init_members u with raw_data := bytes, cur_pos := 8 } with
  | undefined => rw [hloop] at hrun; cases hrun
  | out_of_fuel => rw [hloop] at hrun; cases hrun
  | finished st =>
    rw [hloop] at hrun
    simp only at hrun
    have hst := chunk_loop_err res0 fuel _ st hloop
    split_ifs at hrun with he
    · cases hrun
      rcases hst with h | h | h | h | h <;> rw [h] <;> exact fun h => Error.noConfusion h
    · rcases inflate_and_reconstruct_err char_signed inflate st img hrun with ⟨_, h⟩ | ⟨_, h | h⟩ <;>
        rw [h] <;> exact fun h => Error.noConfusion h

theorem reachable_scanInv (st : Image) (h : Reachable st) : ScanInv st := by
  induction h with
  | init st h1 h2 h3 _ => exact Or.inl ⟨h1, h2, h3⟩
  | step res0 st st1 _ hstep herr ih => exact process_chunk_inv res0 st st1 ih hstep herr

/-! ## What a successful read tells about the buffer -/

theorem get_u_int_step_some (raw : List Nat) (idx : Int) (i res v : Nat)
    (h : get_u_int_step raw idx i res = some v) :
    0 ≤ idx + (i : Int) ∧ idx + (i : Int) ≤ 2147483647 ∧ (idx + (i : Int)).toNat < raw.length := by
  unfold get_u_int_step at h
  simp only [Option.bind_eq_some] at h
  obtain ⟨j, hj, b, hb, _⟩ := h
  unfold int_op at hj
  split_ifs at hj with hr
  cases hj
  unfold at_int at hb
  split_ifs at hb with h0
  refine ⟨h0, hr.2, ?_⟩
  by_contra hge
  rw [List.getElem?_eq_none (by omega)] at hb
  cases hb

/-- A read of `get_u_int` that succeeds lies below `2^31` and inside the buffer. -/
theorem get_u_int_some_range (res0 : Nat) (raw : List Nat) (u v : Nat) (hu : u < 2 ^ 32)
    (h : get_u_int res0 raw (to_int u) = some v) : u + 3 < 2 ^ 31 ∧ u + 3 < raw.length := by
  unfold get_u_int at h
  obtain ⟨t1, hb0, _, _, h⟩ := for_int_complete _ _ 3 0 _ _ h rfl
  obtain ⟨t2, _, _, _, h⟩ := for_int_complete _ _ 2 _ _ _ h rfl
  obtain ⟨t3, _, _, _, h⟩ := for_int_complete _ _ 1 _ _ _ h rfl
  obtain ⟨t4, hb3, _, _, _⟩ := for_int_complete _ _ 0 _ _ _ h rfl
  have h0 := get_u_int_step_some raw _ _ _ _ hb0
  have h3 := get_u_int_step_some raw _ _ _ _ hb3
  have hm : u % 2 ^ 32 = u := Nat.mod_eq_of_lt hu
  unfold to_int at h0 h3
  rw [hm] at h0 h3
  split_ifs at h0 h3 with hlt
  · norm_num at h0 h3
    omega
  · norm_num at h0 h3
    omega

/-- The reads of `process_chunk` that succeed: the declared length `L`, and the
chunk lies below `2^31` and inside the buffer. -/
theorem process_chunk_some_range (res0 : Nat) (st st1 : Image) (hcur : st.cur_pos < 2 ^ 32)
    (h : process_chunk res0 st = some st1) :
    ∃ L, get_u_int res0 st.raw_data (to_int st.cur_pos) = some L ∧
      (st.cur_pos + L + 12 ≤ 2 ^ 32 →
        st.cur_pos + L + 12 ≤ 2 ^ 31 ∧ st.cur_pos + L + 12 ≤ st.raw_data.length) := by
  unfold process_chunk at h
  simp only [Option.bind_eq_some] at h
  obtain ⟨L, hlen, ty, _, buf, _, crc, hcrc, _⟩ := h
  refine ⟨L, hlen, fun hb => ?_⟩
  have h1 := get_u_int_some_range res0 _ _ _ hcur hlen
  have u1 : uint (st.cur_pos + 4) = st.cur_pos + 4 := uint_of_lt (by omega)
  have u2 : uint (st.cur_pos + 4 + 4) = st.cur_pos + 8 := by rw [uint_of_lt (by omega)]
  have u3 : uint (st.cur_pos + 8 + L) = st.cur_pos + 8 + L := uint_of_lt (by omega)
  rw [u1, u2, u3] at hcrc
  have h2 := get_u_int_some_range res0 _ _ _ (by omega) hcrc
  omega

/-- Where `process_chunk` leaves the cursor: past the chunk when it returns
normally, eight bytes on when it returns with an error. -/
theorem process_chunk_cursor (res0 : Nat) (st st1 : Image) (herr0 : st.err = Error.NONE)
    (h : process_chunk res0 st = some st1) :
    ∃ L, get_u_int res0 st.raw_data (to_int st.cur_pos) = some L ∧
      (st1.err = Error.NONE → st1.cur_pos = (st.cur_pos + L + 12) % 2 ^ 32) ∧
      (st1.err ≠ Error.NONE → st1.cur_pos = (st.cur_pos + 8) % 2 ^ 32) := by
  unfold process_chunk at h
  simp only [Option.bind_eq_some] at h
  obtain ⟨L, hlen, ty, _, buf, _, crc, _, h⟩ := h
  refine ⟨L, hlen, ?_⟩
  have e1 : uint (uint (uint (st.cur_pos + 4) + 4) + uint (L + 4))
      = (st.cur_pos + L + 12) % 2 ^ 32 := by
    unfold uint; omega
  have e2 : uint (uint (st.cur_pos + 4) + 4) = (st.cur_pos + 8) % 2 ^ 32 := by
    unfold uint; omega
  rw [e1, e2] at h
  split_ifs at h
  · cases h
    exact ⟨fun h => Error.noConfusion h, fun _ => rfl⟩
  · cases h
    exact ⟨fun h => Error.noConfusion h, fun _ => rfl⟩
  · cases h
    exact ⟨fun _ => rfl, fun h => absurd herr0 h⟩
  · simp only [Option.bind_eq_some] at h
    obtain ⟨p, _, h⟩ := h
    cases h
    exact ⟨fun _ => rfl, fun h => absurd herr0 h⟩
  · unfold process_header at h
    by_cases hhp : st.header_processed = false
    · rw [if_pos hhp] at h
      simp only [Option.bind_eq_some, invalid_opts_iff] at h
      obtain ⟨w, _, ht, _, bd, _, ct, _, cm, _, fm, _, im, _, h⟩ := h
      by_cases hs : supported_opts bd ct cm fm im
      · rw [if_neg (not_not.mpr hs)] at h
        cases h
        exact ⟨fun _ => rfl, fun h => absurd herr0 h⟩
      · rw [if_pos hs] at h
        cases h
        exact ⟨fun h => Error.noConfusion h, fun _ => rfl⟩
    · rw [if_neg hhp] at h
      cases h
      exact ⟨fun h => Error.noConfusion h, fun _ => rfl⟩
  · cases h
    exact ⟨fun _ => rfl, fun h => absurd herr0 h⟩

/-! ## The chunk loop on a well-formed chunk sequence -/

theorem IEND_bytes : ∀ v ∈ IEND, v < 256 := by decide

theorem chunk_loop_processed (res0 fuel : Nat) (st : Image) (h : st.processed = true) :
    chunk_loop res0 fuel st = Run.finished st := by
  cases fuel with
  | zero => rw [chunk_loop, if_pos h]
  | succ f => rw [chunk_loop, if_pos h]

theorem chunk_loop_finished_step (res0 : Nat) (fuel : Nat) (st st1 : Image)
    (hproc : st.processed = false) (h : chunk_loop res0 fuel st = Run.finished st1) :
    ∃ f st2, fuel = f + 1 ∧ process_chunk res0 st = some st2 ∧
      (if st2.err ≠ Error.NONE then Run.finished st2 else chunk_loop res0 f st2)
        = Run.finished st1 := by
  cases fuel with
  | zero =>
    rw [chunk_loop, if_neg (by simp [hproc])] at h
    cases h
  | succ f =>
    rw [chunk_loop, if_neg (by simp [hproc])] at h
    cases hstep : process_chunk res0 st with
    | none => rw [hstep] at h; cases h
    | some st2 =>
      rw [hstep] at h
      exact ⟨f, st2, rfl, rfl, h⟩

/-- A CRC-valid chunk on which `process_chunk` returns lies below `2^31`. -/
theorem process_chunk_valid_range (res0 : Nat) (st st1 : Image)
    (front tag payload back : List Nat)
    (hraw : st.raw_data = front ++ chunk_bytes tag payload ++ back)
    (hpos : st.cur_pos = front.length) (htag : tag.length = 4)
    (hsize : front.length + payload.length + 12 < 2 ^ 32)
    (hrun : process_chunk res0 st = some st1) :
    front.length + payload.length + 12 ≤ 2 ^ 31 := by
  obtain ⟨L, hlen, hrange⟩ := process_chunk_some_range res0 st st1 (by omega) hrun
  have h1 := get_u_int_some_range res0 _ _ _ (by omega) hlen
  have hl : (tag ++ payload).length - 4 = payload.length := by simp [htag]
  have h2 := get_u_int_be32 res0 st.raw_data front
    (tag ++ payload ++ be32 (crc32 0 (tag ++ payload)) ++ back) payload.length
    (by rw [hraw, chunk_bytes_eq, chunk_raw, hl]; simp [List.append_assoc]) (by omega)
    (by omega)
  rw [hpos] at hlen h1
  rw [h2] at hlen
  cases hlen
  rw [hpos] at hrange
  exact (hrange (by omega)).1

/-- The supported IHDR chunk, with the state after it written out. -/
theorem process_chunk_with_header (res0 : Nat) (st : Image) (front hdr back : List Nat)
    (hraw : st.raw_data = front ++ chunk_bytes IHDR hdr ++ back)
    (hpos : st.cur_pos = front.length) (hhp : st.header_processed = false)
    (hlen : 13 ≤ hdr.length) (hbytes : ∀ v ∈ hdr, v < 256)
    (hsup : supported_opts (hdr.getD 8 0) (hdr.getD 9 0) (hdr.getD 10 0) (hdr.getD 11 0)
      (hdr.getD 12 0))
    (hsize : front.length + hdr.length + 12 ≤ 2 ^ 31) :
    process_chunk res0 st
      = some { with_header st hdr with cur_pos := front.length + hdr.length + 12 } := by
  rw [process_chunk_ihdr_header res0 st front hdr back hraw hpos hlen hbytes hsize, if_pos hhp,
    if_neg (not_not.mpr hsup)]
  rfl

/-- The chunk loop from behind the header to the IEND chunk, when it is known to
finish without error: the chunks lie below `2^31` and the final state is
determined. -/
theorem chunk_loop_to_iend (res0 : Nat) (pe back : List Nat) (hpe : ∀ v ∈ pe, v < 256) :
    ∀ (cs : List (List Nat × List Nat)) (fuel : Nat) (st st1 : Image) (front : List Nat),
      st.raw_data = front ++ chunks_bytes cs ++ chunk_bytes IEND pe ++ back →
      st.cur_pos = front.length → st.first_block = false → st.processed = false →
      st.err = Error.NONE → (∀ c ∈ cs, middle_chunk c) →
      front.length + (chunks_bytes cs).length + (pe.length + 12) < 2 ^ 32 →
      chunk_loop res0 fuel st = Run.finished st1 → st1.err = Error.NONE →
      cs.length + 1 ≤ fuel ∧
      front.length + (chunks_bytes cs).length + (pe.length + 12) ≤ 2 ^ 31 ∧
      st1 = { st with cur_pos := front.length + (chunks_bytes cs).length + (pe.length + 12),
                      processed := true,
                      compressed_data := st.compressed_data ++ idat_payloads cs } := by
  intro cs
  induction cs with
  | nil =>
    intro fuel st st1 front hraw hpos hfirst hproc herr _ hsize hrun herr1
    simp only [chunks_bytes, List.append_nil, List.length_nil, Nat.add_zero] at hraw hsize ⊢
    obtain ⟨f, st2, hf, hstep, hrest⟩ := chunk_loop_finished_step res0 fuel st st1 hproc hrun
    have hIEND : IEND.length = 4 := rfl
    have hb : ∀ v ∈ IEND ++ pe, v < 256 := by
      intro v hv
      rcases List.mem_append.mp hv with h | h
      · exact IEND_bytes v h
      · exact hpe v h
    have hr := process_chunk_valid_range res0 st st2 front IEND pe back hraw hpos hIEND
      (by omega) hstep
    have hv := process_chunk_valid res0 st front IEND pe back hraw hpos hIEND hb (by omega)
    rw [if_neg (by simp [hfirst]), if_pos rfl, hstep] at hv
    cases hv
    rw [if_neg (by simp [herr])] at hrest
    rw [chunk_loop_processed res0 f _ rfl] at hrest
    cases hrest
    refine ⟨by simp [hf], hr, ?_⟩
    simp only [idat_payloads, List.append_nil, Image.mk.injEq, true_and, and_true]
    exact ⟨by omega, hfirst.symm⟩
  | cons c cs ih =>
    intro fuel st st1 front hraw hpos hfirst hproc herr hcs hsize hrun herr1
    obtain ⟨htag, hne1, hne2, hbytes⟩ := hcs c (List.mem_cons_self _ _)
    rw [chunks_bytes_length_cons c cs htag] at hsize ⊢
    obtain ⟨f, st2, hf, hstep, hrest⟩ := chunk_loop_finished_step res0 fuel st st1 hproc hrun
    have hraw1 : st.raw_data = front ++ chunk_bytes c.1 c.2
        ++ (chunks_bytes cs ++ chunk_bytes IEND pe ++ back) := by
      rw [hraw]; simp [chunks_bytes, List.append_assoc]
    have hr := process_chunk_valid_range res0 st st2 front c.1 c.2 _ hraw1 hpos htag
      (by omega) hstep
    have hv := process_chunk_valid res0 st front c.1 c.2 _ hraw1 hpos htag hbytes (by omega)
    rw [if_neg (by simp [hfirst]), if_neg hne2, if_neg hne1, hstep] at hv
    have hst2 : st2 =
        { st with cur_pos := front.length + c.2.length + 12, first_block := false,
                  compressed_data := st.compressed_data ++ (if c.1 = IDAT then c.2 else []) } := by
      by_cases hd : c.1 = IDAT
      · rw [if_pos hd] at hv
        cases hv
        simp only [hd, if_true]
      · rw [if_neg hd] at hv
        cases hv
        simp only [hd, if_false, List.append_nil]
    subst hst2
    rw [if_neg (by simp [herr])] at hrest
    have hlen2 : (front ++ chunk_bytes c.1 c.2).length = front.length + c.2.length + 12 := by
      rw [List.length_append, chunk_bytes_length _ _ htag]; omega
    obtain ⟨hfuel, hle, hfin⟩ := ih f
      { st with cur_pos := front.length + c.2.length + 12, first_block := false,
                compressed_data := st.compressed_data ++ (if c.1 = IDAT then c.2 else []) }
      st1 (front ++ chunk_bytes c.1 c.2)
      (by simp [hraw, chunks_bytes, List.append_assoc])
      hlen2.symm rfl hproc herr
      (fun c' hc' => hcs c' (List.mem_cons_of_mem _ hc'))
      (by rw [hlen2]; omega) hrest herr1
    simp only [List.length_append, chunk_bytes_length _ _ htag] at hle hfin
    refine ⟨by simp [hf]; omega, by omega, ?_⟩
    rw [hfin]
    simp only [Image.mk.injEq, true_and, and_true, idat_payloads, List.append_assoc]
    exact ⟨by omega, hfirst.symm⟩

/-- The same walk with enough fuel and the chunks below `2^31`: the loop
finishes. -/
theorem chunk_loop_to_iend_total (res0 fuel : Nat) (st : Image) (front pe back : List Nat)
    (cs : List (List Nat × List Nat)) (hpe : ∀ v ∈ pe, v < 256)
    (hraw : st.raw_data = front ++ chunks_bytes cs ++ chunk_bytes IEND pe ++ back)
    (hpos : st.cur_pos = front.length) (hfirst : st.first_block = false)
    (hproc : st.processed = false) (herr : st.err = Error.NONE)
    (hcs : ∀ c ∈ cs, middle_chunk c)
    (hsize : front.length + (chunks_bytes cs).length + (pe.length + 12) ≤ 2 ^ 31) :
    chunk_loop res0 (cs.length + (fuel + 1)) st
      = Run.finished
          { st with cur_pos := front.length + (chunks_bytes cs).length + (pe.length + 12),
                    processed := true,
                    compressed_data := st.compressed_data ++ idat_payloads cs } := by
  rw [chunk_loop_scan res0 (fuel + 1) cs st front (chunk_bytes IEND pe ++ back)
    (by rw [hraw]; simp only [List.append_assoc]) hpos hfirst hproc herr hcs (by omega)]
  have hIEND : IEND.length = 4 := rfl
  have hb : ∀ v ∈ IEND ++ pe, v < 256 := by
    intro v hv
    rcases List.mem_append.mp hv with h | h
    · exact IEND_bytes v h
    · exact hpe v h
  have hv := process_chunk_valid res0
    { st with cur_pos := front.length + (chunks_bytes cs).length,
              compressed_data := st.compressed_data ++ idat_payloads cs }
    (front ++ chunks_bytes cs) IEND pe back hraw (by simp) hIEND hb (by simp; omega)
  rw [if_neg (by simp [hfirst]), if_pos rfl] at hv
  have hn := fun hp he => chunk_loop_step_next res0 fuel _ _ hp hv he
  rw [hn hproc herr, chunk_loop_processed res0 fuel _ rfl]
  refine congrArg Run.finished ?_
  simp only [List.length_append, Image.mk.injEq, true_and, and_true]
  exact ⟨by omega, hfirst.symm⟩

theorem IHDR_length : IHDR.length = 4 := rfl

/-- The chunk loop on a well-formed chunk sequence below `2^31`: it finishes in
`scan_result`. -/
theorem chunk_loop_wellformed (res0 fuel : Nat) (st : Image) (front hdr pe back : List Nat)
    (cs : List (List Nat × List Nat))
    (hraw : st.raw_data
      = front ++ chunk_bytes IHDR hdr ++ chunks_bytes cs ++ chunk_bytes IEND pe ++ back)
    (hpos : st.cur_pos = front.length) (hhp : st.header_processed = false)
    (hproc : st.processed = false) (herr : st.err = Error.NONE)
    (hlen : 13 ≤ hdr.length) (hbytes : ∀ v ∈ hdr, v < 256)
    (hsup : supported_opts (hdr.getD 8 0) (hdr.getD 9 0) (hdr.getD 10 0) (hdr.getD 11 0)
      (hdr.getD 12 0))
    (hcs : ∀ c ∈ cs, middle_chunk c) (hpe : ∀ v ∈ pe, v < 256)
    (hsize : front.length + (hdr.length + 12) + (chunks_bytes cs).length + (pe.length + 12)
      ≤ 2 ^ 31) :
    chunk_loop res0 (cs.length + (fuel + 2)) st
      = Run.finished (scan_result st hdr cs
          (front.length + (hdr.length + 12) + (chunks_bytes cs).length + (pe.length + 12))) := by
  have hstep := process_chunk_with_header res0 st front hdr
    (chunks_bytes cs ++ chunk_bytes IEND pe ++ back)
    (by rw [hraw]; simp only [List.append_assoc]) hpos hhp hlen hbytes hsup (by omega)
  have hl : (front ++ chunk_bytes IHDR hdr).length = front.length + (hdr.length + 12) := by
    rw [List.length_append, chunk_bytes_length _ _ IHDR_length]
  have h2 := chunk_loop_to_iend_total res0 fuel
    { with_header st hdr with cur_pos := front.length + hdr.length + 12 }
    (front ++ chunk_bytes IHDR hdr) pe back cs hpe hraw
    (by rw [hl]; simp only []; omega) rfl hproc herr hcs (by rw [hl]; exact hsize)
  rw [show cs.length + (fuel + 2) = (cs.length + (fuel + 1)) + 1 by omega,
    chunk_loop_step_next res0 _ st _ hproc hstep herr, h2, hl]
  rfl

/-- The chunk loop on a well-formed chunk sequence below `2^32`, when it is known
to finish without error: the sequence lies below `2^31` and the final state is
`scan_result`. -/
theorem chunk_loop_wellformed_finished (res0 fuel : Nat) (st st1 : Image)
    (front hdr pe back : List Nat) (cs : List (List Nat × List Nat))
    (hraw : st.raw_data
      = front ++ chunk_bytes IHDR hdr ++ chunks_bytes cs ++ chunk_bytes IEND pe ++ back)
    (hpos : st.cur_pos = front.length) (hhp : st.header_processed = false)
    (hproc : st.processed = false) (herr : st.err = Error.NONE)
    (hlen : 13 ≤ hdr.length) (hbytes : ∀ v ∈ hdr, v < 256)
    (hsup : supported_opts (hdr.getD 8 0) (hdr.getD 9 0) (hdr.getD 10 0) (hdr.getD 11 0)
      (hdr.getD 12 0))
    (hcs : ∀ c ∈ cs, middle_chunk c) (hpe : ∀ v ∈ pe, v < 256)
    (hsize : front.length + (hdr.length + 12) + (chunks_bytes cs).length + (pe.length + 12)
      < 2 ^ 32)
    (hrun : chunk_loop res0 fuel st = Run.finished st1) (herr1 : st1.err = Error.NONE) :
    cs.length + 2 ≤ fuel ∧
    front.length + (hdr.length + 12) + (chunks_bytes cs).length + (pe.length + 12) ≤ 2 ^ 31 ∧
    st1 = scan_result st hdr cs
      (front.length + (hdr.length + 12) + (chunks_bytes cs).length + (pe.length + 12)) := by
  obtain ⟨f, st2, hf, hstep, hrest⟩ := chunk_loop_finished_step res0 fuel st st1 hproc hrun
  have hraw1 : st.raw_data = front ++ chunk_bytes IHDR hdr
      ++ (chunks_bytes cs ++ chunk_bytes IEND pe ++ back) := by
    rw [hraw]; simp only [List.append_assoc]
  have hr := process_chunk_valid_range res0 st st2 front IHDR hdr _ hraw1 hpos IHDR_length
    (by omega) hstep
  have hw := process_chunk_with_header res0 st front hdr _ hraw1 hpos hhp hlen hbytes hsup
    (by omega)
  rw [hstep] at hw
  cases hw
  have hl : (front ++ chunk_bytes IHDR hdr).length = front.length + (hdr.length + 12) := by
    rw [List.length_append, chunk_bytes_length _ _ IHDR_length]
  rw [if_neg (by simp [with_header, herr])] at hrest
  obtain ⟨hfuel, hle, hfin⟩ := chunk_loop_to_iend res0 pe back hpe cs f
    { with_header st hdr with cur_pos := front.length + hdr.length + 12 } st1
    (front ++ chunk_bytes IHDR hdr) hraw (by rw [hl]; simp only []; omega) rfl hproc herr hcs
    (by rw [hl]; exact hsize) hrest herr1
  rw [hl] at hle hfin
  exact ⟨by omega, hle, hfin.trans rfl⟩

/-! ## Edge cases of the inverse filters -/

theorem paeth_left_only (a : Nat) : paeth_predictor a 0 0 = a := by
  simp [paeth_predictor]

theorem paeth_above_only (b : Nat) : paeth_predictor 0 b 0 = b := by
  unfold paeth_predictor
  by_cases h : b = 0
  · simp [h]
  · have : ¬ (b ≤ 0) := by omega
    simp [this]

theorem add_assign_char_eq (char_signed : Bool) (d : List Nat) (k r : Nat) :
    add_assign d k (char_value char_signed r) = add_assign d k (r : Int) := by
  unfold add_assign
  simp only [to_uchar_add_char, to_uchar_add_nat]

theorem add_assign_zero (d : List Nat) (k : Nat) (hb : ∀ v ∈ d, v < 256) :
    add_assign d k ((0 : Nat) : Int) = (d[k]?).bind fun _ => some d := by
  unfold add_assign
  simp only [to_uchar_add_nat, Nat.add_zero]
  cases hk : d[k]? with
  | none => rfl
  | some v =>
    have hv : v < 256 := hb v (List.getElem?_mem hk)
    simp only [Option.some_bind, Nat.mod_eq_of_lt hv]
    refine congrArg some ?_
    apply List.ext_getElem?
    intro j
    by_cases hj : k = j
    · subst hj
      rw [List.getElem?_set_self, hk]
      obtain ⟨hlt, _⟩ := List.getElem?_eq_some_iff.mp hk
      simp [hlt]
    · rw [List.getElem?_set_ne hj]

theorem neighbours_first_row (w n x : Nat) (d : List Nat) (abc : Nat × Nat × Nat)
    (h : neighbours w n 0 x d = some abc) : abc.2.1 = 0 ∧ abc.2.2 = 0 := by
  unfold neighbours at h
  by_cases hx : x < n
  · rw [if_pos ⟨rfl, hx⟩] at h
    cases h
    exact ⟨rfl, rfl⟩
  · rw [if_neg (by simp [hx]), if_pos rfl] at h
    simp only [Option.bind_eq_some] at h
    obtain ⟨a, _, h⟩ := h
    cases h
    exact ⟨rfl, rfl⟩

theorem neighbours_first_pixel (w n y x : Nat) (d : List Nat) (abc : Nat × Nat × Nat)
    (hx : x < n) (h : neighbours w n y x d = some abc) : abc.1 = 0 ∧ abc.2.2 = 0 := by
  unfold neighbours at h
  by_cases hy : y = 0
  · rw [if_pos ⟨hy, hx⟩] at h
    cases h
    exact ⟨rfl, rfl⟩
  · rw [if_neg (by simp [hy]), if_neg hy, if_pos hx] at h
    simp only [Option.bind_eq_some] at h
    obtain ⟨b, _, h⟩ := h
    cases h
    exact ⟨rfl, rfl⟩

/-- Adding the predictor `0` leaves a buffer of bytes as it is, so the step agrees
with the step for filter type 0. -/
theorem unfilter_byte_add_zero (char_signed : Bool) (w n : Nat) (fm fm0 : List Nat) (y x f : Nat)
    (s : Error × List Nat) (hf : fm[y]? = some f) (h0 : fm0[y]? = some 0)
    (hb : ∀ v ∈ s.2, v < 256)
    (hzero : ∀ abc, neighbours w n y x s.2 = some abc →
      f = 1 ∧ abc.1 = 0 ∨ f = 2 ∧ abc.2.1 = 0) :
    unfilter_byte char_signed w n fm y x s = unfilter_byte char_signed w n fm0 y x s := by
  unfold unfilter_byte
  rw [hf, h0]
  simp only [Option.some_bind, if_true]
  cases hc : s.2[uint (ulong (y * w * n + x))]? with
  | none => rfl
  | some v =>
    simp only [Option.some_bind]
    cases hn : neighbours w n y x s.2 with
    | none => rfl
    | some abc =>
      simp only [Option.some_bind]
      rcases hzero abc hn with ⟨h1, ha⟩ | ⟨h2, hb2⟩
      · subst h1
        rw [if_neg (by decide), if_pos rfl, ha, add_assign_zero _ _ hb, hc]
        rfl
      · subst h2
        rw [if_neg (by decide), if_neg (by decide), if_pos rfl, hb2, add_assign_zero _ _ hb, hc]
        rfl

/-- The Paeth step agrees with the Sub or the Up step when the predictor returns
that neighbour. -/
theorem unfilter_byte_paeth_eq (char_signed : Bool) (w n : Nat) (fm fm1 : List Nat) (y x f : Nat)
    (s : Error × List Nat) (hf : fm[y]? = some 4) (h1 : fm1[y]? = some f)
    (hpred : ∀ abc, neighbours w n y x s.2 = some abc →
      f = 1 ∧ paeth_predictor abc.1 abc.2.1 abc.2.2 = abc.1 ∨
      f = 2 ∧ paeth_predictor abc.1 abc.2.1 abc.2.2 = abc.2.1) :
    unfilter_byte char_signed w n fm y x s = unfilter_byte char_signed w n fm1 y x s := by
  unfold unfilter_byte
  rw [hf, h1]
  simp only [Option.some_bind]
  cases hc : s.2[uint (ulong (y * w * n + x))]? with
  | none => rfl
  | some v =>
    simp only [Option.some_bind]
    cases hn : neighbours w n y x s.2 with
    | none => rfl
    | some abc =>
      simp only [Option.some_bind]
      rw [if_pos trivial, add_assign_char_eq]
      rcases hpred abc hn with ⟨h1, ha⟩ | ⟨h2, hb2⟩
      · subst h1
        simp [ha]
      · subst h2
        simp [hb2]

theorem add_assign_bytes (d d1 : List Nat) (k : Nat) (v : Int) (h : add_assign d k v = some d1)
    (hb : ∀ u ∈ d, u < 256) : ∀ u ∈ d1, u < 256 := by
  unfold add_assign at h
  simp only [Option.bind_eq_some] at h
  obtain ⟨x, _, h⟩ := h
  cases h
  intro u hu
  rcases List.mem_or_eq_of_mem_set hu with h1 | h1
  · exact hb u h1
  · rw [h1]
    unfold to_uchar
    omega

theorem unfilter_byte_bytes (char_signed : Bool) (w n : Nat) (fm : List Nat) (y x : Nat)
    (s s1 : Error × List Nat) (h : unfilter_byte char_signed w n fm y x s = some s1)
    (hb : ∀ u ∈ s.2, u < 256) : ∀ u ∈ s1.2, u < 256 := by
  unfold unfilter_byte at h
  simp only [Option.bind_eq_some] at h
  obtain ⟨c, _, abc, _, f, _, h⟩ := h
  split_ifs at h
  · cases h; exact hb
  · simp only [Option.bind_eq_some] at h
    obtain ⟨d, hd, h⟩ := h
    cases h
    exact add_assign_bytes _ _ _ _ hd hb
  · simp only [Option.bind_eq_some] at h
    obtain ⟨d, hd, h⟩ := h
    cases h
    exact add_assign_bytes _ _ _ _ hd hb
  · simp only [Option.bind_eq_some] at h
    obtain ⟨d, hd, h⟩ := h
    cases h
    exact add_assign_bytes _ _ _ _ hd hb
  · simp only [Option.bind_eq_some] at h
    obtain ⟨d, hd, h⟩ := h
    cases h
    exact add_assign_bytes _ _ _ _ hd hb
  · cases h; exact hb
  · cases h; exact hb

/-- Two loop bodies that agree on the states satisfying a preserved property give
the same loop. -/
theorem for_int_congr {σ : Type} (ret : σ → Bool) (body body1 : Nat → σ → Option σ)
    (Q : σ → Prop) (hstep : ∀ j s s1, body j s = some s1 → Q s → Q s1)
    (heq : ∀ j s, Q s → body j s = body1 j s) :
    ∀ (k i : Nat) (s : σ), Q s → for_int ret body k i s = for_int ret body1 k i s := by
  intro k
  induction k with
  | zero => intro i s _; rfl
  | succ k ih =>
    intro i s hQ
    rw [for_int, for_int, ← heq i s hQ]
    cases hb : body i s with
    | none => rfl
    | some t =>
      simp only
      rw [ih (i + 1) t (hstep i s t hb hQ)]

theorem unfilter_row_bytes (char_signed : Bool) (w n : Nat) (fm : List Nat) (y : Nat)
    (s s1 : Error × List Nat) (h : unfilter_row char_signed w n fm y s = some s1)
    (hb : ∀ u ∈ s.2, u < 256) : ∀ u ∈ s1.2, u < 256 :=
  for_int_preserve _ _ (fun t => ∀ u ∈ t.2, u < 256)
    (fun j t t1 hj hQ => unfilter_byte_bytes char_signed w n fm y j t t1 hj hQ) _ _ s s1 h hb

theorem unfilter_row_fm_congr (char_signed : Bool) (w n : Nat) (fm fm1 : List Nat) (y : Nat)
    (s : Error × List Nat) (h : fm[y]? = fm1[y]?) :
    unfilter_row char_signed w n fm y s = unfilter_row char_signed w n fm1 y s := by
  unfold unfilter_row unfilter_byte
  rw [h]

/-- The split buffer `data` is determined by its entries. -/
theorem splitInv_unique (unc unc1 : List Nat) (W k : Nat) (d d1 : List Nat)
    (h : SplitInv unc W k d) (h1 : SplitInv unc1 W k d1) (hW : W = 0 → k = 0)
    (heq : ∀ y x, x < W → y * W + x < k →
      unc.getD (y * (W + 1) + 1 + x) 0 = unc1.getD (y * (W + 1) + 1 + x) 0) : d = d1 := by
  apply List.ext_getElem?
  intro i
  by_cases hi : i < k
  · have hpos : 0 < W := by
      by_contra h0
      have := hW (by omega)
      omega
    have hdm : i / W * W + i % W = i := by
      rw [Nat.mul_comm]; exact Nat.div_add_mod i W
    have e := h.2 (i / W) (i % W) (Nat.mod_lt _ hpos) (by omega)
    have e1 := h1.2 (i / W) (i % W) (Nat.mod_lt _ hpos) (by omega)
    rw [hdm] at e e1
    rw [e, e1, heq (i / W) (i % W) (Nat.mod_lt _ hpos) (by omega)]
  · rw [List.getElem?_eq_none (by rw [h.1]; omega), List.getElem?_eq_none (by rw [h1.1]; omega)]

theorem splitInv_bytes (unc : List Nat) (W k : Nat) (d : List Nat) (h : SplitInv unc W k d)
    (hW : W = 0 → k = 0) (hb : ∀ v ∈ unc, v < 256) : ∀ v ∈ d, v < 256 := by
  intro v hv
  obtain ⟨i, hi, rfl⟩ := List.getElem_of_mem hv
  have hpos : 0 < W := by
    by_contra h0
    have := hW (by omega)
    have := h.1
    omega
  have hdm : i / W * W + i % W = i := by
    rw [Nat.mul_comm]; exact Nat.div_add_mod i W
  have e := h.2 (i / W) (i % W) (Nat.mod_lt _ hpos) (by rw [hdm, ← h.1]; exact hi)
  rw [hdm, List.getElem?_eq_getElem hi] at e
  rw [Option.some.inj e]
  exact getD_mem_lt unc hb _

/-- Replacing the filter byte of the first scanline by one whose row reversal
agrees on the first scanline does not change the result of the reconstruction. -/
theorem reconstruct_first_filter (char_signed : Bool) (w h n f f1 : Nat) (rest : List Nat)
    (hbytes : ∀ v ∈ rest, v < 256) (hsize : h * (w * n + 1) < 2 ^ 31)
    (hlen : h * (w * n + 1) ≤ rest.length + 1)
    (hrow : ∀ (fm fm1 : List Nat) (s : Error × List Nat), fm[0]? = some f → fm1[0]? = some f1 →
      (∀ v ∈ s.2, v < 256) →
      unfilter_row char_signed w n fm 0 s = unfilter_row char_signed w n fm1 0 s) :
    reconstruct char_signed w h n (f :: rest) = reconstruct char_signed w h n (f1 :: rest) := by
  obtain ⟨fm, d, hs, hfl, hf, hd⟩ := split_loop_spec (f :: rest) (w * n) h hsize
    (by simpa using hlen)
  obtain ⟨fm1, d1, hs1, hfl1, hf1, hd1⟩ := split_loop_spec (f1 :: rest) (w * n) h hsize
    (by simpa using hlen)
  have hWk : w * n = 0 → h * (w * n) = 0 := by intro h0; rw [h0, Nat.mul_zero]
  have hdd : d = d1 := splitInv_unique _ _ _ _ _ _ hd hd1 hWk
    (by
      intro y x _ _
      rw [show y * (w * n + 1) + 1 + x = y * (w * n + 1) + x + 1 by omega]
      rfl)
  subst hdd
  have hb0 : ∀ v ∈ rest, v < 256 := hbytes
  have hbd : ∀ v ∈ d, v < 256 := by
    apply splitInv_bytes (0 :: rest) (w * n) (h * (w * n)) d _ hWk
    · intro v hv
      rcases List.mem_cons.mp hv with h1 | h1
      · omega
      · exact hb0 v h1
    · refine ⟨hd.1, fun y x hx hk => ?_⟩
      rw [hd.2 y x hx hk]
      rw [show y * (w * n + 1) + 1 + x = y * (w * n + 1) + x + 1 by omega]
      rfl
  simp only [reconstruct, hs, hs1, Option.some_bind]
  refine for_int_congr _ _ _ (fun t => ∀ v ∈ t.2, v < 256)
    (fun j t t1 hj hQ => unfilter_row_bytes char_signed w n fm j t t1 hj hQ) ?_ h 0 _ hbd
  intro j t hQ
  rcases Nat.eq_zero_or_pos j with hj | hj
  · subst hj
    rcases Nat.eq_zero_or_pos h with hh | hh
    · apply unfilter_row_fm_congr
      rw [List.getElem?_eq_none (by omega), List.getElem?_eq_none (by omega)]
    · refine hrow fm fm1 t ?_ ?_ hQ
      · rw [hf 0 hh, Nat.zero_mul]; rfl
      · rw [hf1 0 hh, Nat.zero_mul]; rfl
  · apply unfilter_row_fm_congr
    by_cases hjh : j < h
    · rw [hf j hjh, hf1 j hjh]
      have : j * (w * n + 1) = (j * (w * n + 1) - 1) + 1 := by
        have : 1 ≤ j * (w * n + 1) := Nat.mul_pos hj (by omega)
        omega
      rw [this]
      rfl
    · rw [List.getElem?_eq_none (by omega), List.getElem?_eq_none (by omega)]

/-- On the first scanline the Up row reversal is the None row reversal. -/
theorem unfilter_row_first_up (char_signed : Bool) (w n : Nat) (fm fm0 : List Nat)
    (s : Error × List Nat) (h2 : fm[0]? = some 2) (h0 : fm0[0]? = some 0)
    (hb : ∀ v ∈ s.2, v < 256) :
    unfilter_row char_signed w n fm 0 s = unfilter_row char_signed w n fm0 0 s := by
  unfold unfilter_row
  exact for_int_congr _ _ _ (fun t => ∀ v ∈ t.2, v < 256)
    (fun j t t1 hj hQ => unfilter_byte_bytes char_signed w n fm 0 j t t1 hj hQ)
    (fun j t hQ => unfilter_byte_add_zero char_signed w n fm fm0 0 j 2 t h2 h0 hQ
      (fun abc habc => Or.inr ⟨rfl, (neighbours_first_row w n j t.2 abc habc).1⟩))
    _ 0 s hb

/-- On the first scanline the Paeth row reversal is the Sub row reversal. -/
theorem unfilter_row_first_paeth (char_signed : Bool) (w n : Nat) (fm fm1 : List Nat)
    (s : Error × List Nat) (h4 : fm[0]? = some 4) (h1 : fm1[0]? = some 1) :
    unfilter_row char_signed w n fm 0 s = unfilter_row char_signed w n fm1 0 s := by
  unfold unfilter_row
  exact for_int_congr _ _ _ (fun _ => True) (fun _ _ _ _ _ => trivial)
    (fun j t _ => unfilter_byte_paeth_eq char_signed w n fm fm1 0 j 1 t h4 h1
      (fun abc habc => Or.inl ⟨rfl, by
        obtain ⟨hb, hc⟩ := neighbours_first_row w n j t.2 abc habc
        rw [hb, hc, paeth_left_only]⟩))
    _ 0 s trivial

/-! ## The length of the inflated stream -/

/-- A loop without early return that completes has run its body at every index. -/
theorem for_int_ran {σ : Type} (body : Nat → σ → Option σ) :
    ∀ (k i : Nat) (s s1 : σ), for_int (fun _ => false) body k i s = some s1 →
      ∀ j, i ≤ j → j < i + k → ∃ t t1, body j t = some t1 := by
  intro k
  induction k with
  | zero => intro i s s1 _ j h1 h2; omega
  | succ k ih =>
    intro i s s1 h j h1 h2
    obtain ⟨t, hb, _, _, hrest⟩ := for_int_complete _ body k i s s1 h rfl
    rcases Nat.eq_or_lt_of_le h1 with he | hlt
    · subst he
      exact ⟨s, t, hb⟩
    · exact ih (i + 1) t s1 hrest j (by omega) (by omega)

theorem at_int_some_lt (v : List Nat) (i a : Nat) (h : at_int v (i : Int) = some a) :
    i < v.length := by
  rw [at_int_natCast] at h
  exact (List.getElem?_eq_some_iff.mp h).1

/-- A completed pass of `split_row` has read the last byte of its scanline. -/
theorem split_row_some_range (unc : List Nat) (S y : Nat) (s s1 : List Nat × List Nat)
    (hS : 0 < S) (hsize : y * S + S ≤ 2 ^ 31)
    (h : split_row unc (S : Int) y s = some s1) : y * S + S ≤ unc.length := by
  unfold split_row at h
  have e1 : (y : Int) * (S : Int) = ((y * S : Nat) : Int) := by push_cast; rfl
  rw [e1, int_op_natCast (by omega)] at h
  simp only [Option.some_bind, Option.bind_eq_some, Int.toNat_ofNat] at h
  obtain ⟨f, hf, data, hloop, _⟩ := h
  have h0 := at_int_some_lt _ _ _ hf
  rcases Nat.eq_or_lt_of_le (Nat.succ_le_of_lt hS) with h1 | h1
  · omega
  · obtain ⟨t, t1, hb⟩ := for_int_ran _ S 0 s.2 data hloop (S - 1) (by omega) (by omega)
    unfold split_byte at hb
    rw [if_pos (by omega), e1, int_op_natCast (by omega)] at hb
    simp only [Option.some_bind] at hb
    have e2 : ((y * S : Nat) : Int) + ((S - 1 : Nat) : Int) = ((y * S + (S - 1) : Nat) : Int) := by
      push_cast; rfl
    rw [e2, int_op_natCast (by omega)] at hb
    simp only [Option.some_bind, Option.bind_eq_some] at hb
    obtain ⟨v, hv, _⟩ := hb
    have := at_int_some_lt _ _ _ hv
    omega

/-- A short inflated stream: the split loop indexes `uncompressed_data` out of
range. -/
theorem reconstruct_short (char_signed : Bool) (w h n : Nat) (unc : List Nat)
    (hsize : h * (w * n + 1) < 2 ^ 31) (hlen : unc.length < h * (w * n + 1)) :
    reconstruct char_signed w h n unc = none := by
  have hh : 0 < h := by
    rcases Nat.eq_zero_or_pos h with h0 | h0
    · rw [h0] at hlen; omega
    · exact h0
  have hr : h * (w * n + 1) = (h - 1) * (w * n + 1) + (w * n + 1) := by
    conv_lhs => rw [show h = (h - 1) + 1 by omega, Nat.succ_mul]
  have hW : w * n + 1 < 2 ^ 31 := by omega
  cases hsplit : for_int (fun _ => false)
      (split_row unc (to_int (ulong (w * n + 1)))) h 0 ([], []) with
  | none => simp only [reconstruct, hsplit, Option.none_bind]
  | some fd =>
    exfalso
    rw [ulong_of_lt (by omega), to_int_of_lt hW] at hsplit
    obtain ⟨t, t1, hb⟩ := for_int_ran _ h 0 _ fd hsplit (h - 1) (by omega) (by omega)
    have := split_row_some_range unc (w * n + 1) (h - 1) t t1 (by omega) (by omega) hb
    omega

/-- An over-long inflated stream: the bytes behind the last scanline are not read. -/
theorem reconstruct_prefix (char_signed : Bool) (w h n : Nat) (unc extra : List Nat)
    (hsize : h * (w * n + 1) < 2 ^ 31) (hlen : h * (w * n + 1) ≤ unc.length) :
    reconstruct char_signed w h n (unc ++ extra) = reconstruct char_signed w h n unc := by
  obtain ⟨fm, d, hs, hfl, hf, hd⟩ := split_loop_spec unc (w * n) h hsize hlen
  obtain ⟨fm1, d1, hs1, hfl1, hf1, hd1⟩ := split_loop_spec (unc ++ extra) (w * n) h hsize
    (by rw [List.length_append]; omega)
  have hWk : w * n = 0 → h * (w * n) = 0 := by intro h0; rw [h0, Nat.mul_zero]
  have hdd : d1 = d := by
    refine splitInv_unique _ _ _ _ _ _ hd1 hd hWk (fun y x hx hk => ?_)
    have hy : y < h := by
      by_contra hge
      have := Nat.mul_le_mul_right (w * n) (Nat.le_of_not_lt hge)
      omega
    have := row_le (W := w * n + 1) hy
    exact List.getD_append _ _ _ _ (by omega)
  have hff : fm1 = fm := by
    apply List.ext_getElem?
    intro y
    by_cases hy : y < h
    · have := row_le (W := w * n + 1) hy
      rw [hf y hy, hf1 y hy, List.getD_append _ _ _ _ (by omega)]
    · rw [List.getElem?_eq_none (by omega), List.getElem?_eq_none (by omega)]
  simp only [reconstruct, hs, hs1, Option.some_bind, hdd, hff]

/-! ## Claims C1-C4: scanline reconstruction and the Paeth predictor -/

/-- Claim C1: scanline reconstruction equals the reference inverse filter.  For
every width `w`, height `h` and component count `n` in `{3, 4}` with
`h * (w * n + 1) < 2^31`, and every inflated byte buffer of exactly that length
whose filter bytes are at most 4, the filter reversal of `Image::Image` ends with
`err = NONE` and a buffer of `h * w * n` bytes in which every byte `(y, x)` is the
inflated byte plus the predictor of the reconstructed neighbours modulo 256
(`RecAt`, with the average taken on exact integers and the specification's
`PaethPredictor`).  The two scenarios of the specification are included: a 1x1
image with filter 0 decodes to `[R, G, B]`, and the 2x1 image with filter 1
decodes to second pixel `[15, 25, 35]`. -/
theorem reconstruct_equals_reference_inverse_filter (char_signed : Bool) (w h n : Nat)
    (inflated : List Nat) (hn : n = 3 ∨ n = 4) (hsize : h * (w * n + 1) < 2 ^ 31)
    (hlen : inflated.length = h * (w * n + 1)) (hbyte : ∀ v ∈ inflated, v < 256)
    (hfilter : ∀ y, y < h → inflated.getD (y * (w * n + 1)) 0 ≤ 4) :
    (∃ data, reconstruct char_signed w h n inflated = some (Error.NONE, data) ∧
      data.length = h * w * n ∧
      ∀ y x, y < h → x < w * n → RecAt inflated data (w * n) n y x) ∧
    (∀ R G B, reconstruct char_signed 1 1 3 [0, R, G, B] = some (Error.NONE, [R, G, B])) ∧
    reconstruct char_signed 2 1 3 [1, 10, 20, 30, 5, 5, 5]
      = some (Error.NONE, [10, 20, 30, 15, 25, 35]) := by
  refine ⟨?_, ?_, ?_⟩
  · obtain ⟨data, hrun, hl, hdone, _⟩ := reconstruct_reference char_signed w h n inflated
      (by omega) hsize hlen hbyte hfilter
    refine ⟨data, hrun, by rw [hl, Nat.mul_assoc], ?_⟩
    intro y x hy hx
    exact hdone y x hy hx (by have := row_le (W := w * n) hy; omega)
  · intro R G B
    rfl
  · cases char_signed <;> decide

/-- Witness for claim C1: the 2x1 truecolour scanline with filter type 1. -/
theorem reconstruct_equals_reference_inverse_filter_witness :
    (∃ data, reconstruct true 2 1 3 [1, 10, 20, 30, 5, 5, 5] = some (Error.NONE, data) ∧
      data.length = 1 * 2 * 3 ∧
      ∀ y x, y < 1 → x < 2 * 3 → RecAt [1, 10, 20, 30, 5, 5, 5] data (2 * 3) 3 y x) :=
  (reconstruct_equals_reference_inverse_filter true 2 1 3 [1, 10, 20, 30, 5, 5, 5]
    (by decide) (by decide) (by decide) (by decide) (by decide)).1

/-- Claim C2: reconstruction undoes PNG filtering.  For every `w`, `h`, `n` in
`{3, 4}` with `h * (w * n + 1) < 2^31`, every pixel byte buffer `P` of length
`h * w * n` and every choice `f y` in `0..4` of a filter type per row, running the
filter reversal of `Image::Image` on the forward-filtered buffer `png_filter`
yields `data = P` with `err = NONE`. -/
theorem reconstruct_undoes_png_filter (char_signed : Bool) (w h n : Nat) (P : List Nat)
    (f : Nat → Nat) (hn : n = 3 ∨ n = 4) (hsize : h * (w * n + 1) < 2 ^ 31)
    (hlen : P.length = h * w * n) (hbyte : ∀ v ∈ P, v < 256) (hf : ∀ y, y < h → f y ≤ 4) :
    reconstruct char_signed w h n (png_filter P (w * n) n f h) = some (Error.NONE, P) :=
  reconstruct_png_filter char_signed w h n P f (by omega) hsize (by rw [hlen, Nat.mul_assoc])
    hbyte hf

/-- Witness for claim C2: a 2x2 truecolour image, first row filtered with
Average, second row with Paeth. -/
theorem reconstruct_undoes_png_filter_witness :
    reconstruct true 2 2 3
      (png_filter [200, 0, 255, 3, 77, 128, 9, 250, 31, 64, 5, 199] (2 * 3) 3
        (fun y => 3 + y) 2)
      = some (Error.NONE, [200, 0, 255, 3, 77, 128, 9, 250, 31, 64, 5, 199]) :=
  reconstruct_undoes_png_filter true 2 2 3 [200, 0, 255, 3, 77, 128, 9, 250, 31, 64, 5, 199]
    (fun y => 3 + y) (by decide) (by decide) (by decide) (by decide) (by decide)

/-- Claim C3: for all bytes `a`, `b`, `c` (indeed for all naturals) the value
selected by `paeth_predictor a b c` is `a`, `b` or `c`. -/
theorem paeth_predictor_returns_operand (a b c : Nat) :
    paeth_predictor a b c = a ∨ paeth_predictor a b c = b ∨ paeth_predictor a b c = c :=
  paeth_predictor_cases a b c

/-- Claim C4: with `p = a + b - c` on exact integers, `paeth_predictor a b c`
returns a value at minimal distance from `p` among `a`, `b`, `c`, and ties are
resolved `a` before `b` before `c`.  For `a = b = c = 100` it returns 100, and a
stored delta of 10 under filter 4 with these neighbours reconstructs to 110. -/
theorem paeth_predictor_nearest_tie_order (a b c : Nat) :
    |(a : Int) + b - c - (paeth_predictor a b c : Nat)| =
      min |(a : Int) + b - c - a| (min |(a : Int) + b - c - b| |(a : Int) + b - c - c|) ∧
    (|(a : Int) + b - c - a| ≤ |(a : Int) + b - c - b| ∧
        |(a : Int) + b - c - a| ≤ |(a : Int) + b - c - c| → paeth_predictor a b c = a) ∧
    (¬ (|(a : Int) + b - c - a| ≤ |(a : Int) + b - c - b| ∧
        |(a : Int) + b - c - a| ≤ |(a : Int) + b - c - c|) →
      |(a : Int) + b - c - b| ≤ |(a : Int) + b - c - c| → paeth_predictor a b c = b) ∧
    (¬ (|(a : Int) + b - c - a| ≤ |(a : Int) + b - c - b| ∧
        |(a : Int) + b - c - a| ≤ |(a : Int) + b - c - c|) →
      ¬ |(a : Int) + b - c - b| ≤ |(a : Int) + b - c - c| → paeth_predictor a b c = c) ∧
    paeth_predictor 100 100 100 = 100 ∧
    (∀ char_signed, reconstruct char_signed 2 2 3
        [0, 100, 100, 100, 100, 100, 100, 4, 0, 0, 0, 10, 10, 10]
      = some (Error.NONE, [100, 100, 100, 100, 100, 100, 100, 100, 100, 110, 110, 110])) :=
  ⟨paeth_predictor_nearest a b c, (paeth_predictor_select a b c).1,
    (paeth_predictor_select a b c).2.1, (paeth_predictor_select a b c).2.2, by decide,
    fun char_signed => by cases char_signed <;> decide⟩

/-! ## Claims C5-C10: errors and results of the decoder -/

set_option maxRecDepth 100000 in
/-- Claim C5 (code defect), the decoder evaluated at the failing inputs: a 1x1
truecolour image whose scanline carries filter type 6 (or 255) is decoded without
error, the row being treated as filter type 0, where filter type 5 gives
`INVALID_FILTER_TYPE`; and a row of zero width with filter type 5 gives no error
either.  The complete file of the first case is decoded with `err = NONE`. -/
theorem filter_type_above_five_accepted :
    reconstruct true 1 1 3 [6, 1, 2, 3] = some (Error.NONE, [1, 2, 3]) ∧
    reconstruct true 1 1 3 [255, 1, 2, 3] = some (Error.NONE, [1, 2, 3]) ∧
    reconstruct true 1 1 3 [5, 1, 2, 3] = some (Error.INVALID_FILTER_TYPE, [1, 2, 3]) ∧
    reconstruct true 0 1 3 [5] = some (Error.NONE, []) ∧
    run_err (Image_Image 3 0 true (inflate_to [6, 1, 2, 3])
      (some (PNG_SIGNATURE ++ chunk_bytes IHDR [0, 0, 0, 1, 0, 0, 0, 1, 8, 2, 0, 0, 0]
        ++ chunk_bytes IDAT [120, 156, 99, 99, 100, 98, 6, 0, 0, 38, 0, 13]
        ++ chunk_bytes IEND [])) blank) = some Error.NONE := by
  decide

/-- Claim C6: for every input on which decoding finishes with `err = NONE`, the
pixel buffer `data` has length `width * height * components`, so it is empty when
`width = 0` or `height = 0`.  Such images are accepted: after a chunk scan and a
successful inflate, `height = 0`, or `width = 0` with the `height` filter bytes
present (`height < 2^31`), ends with `err = NONE` and an empty buffer. -/
theorem decoded_buffer_length (fuel res0 : Nat) (char_signed : Bool)
    (inflate : List Nat → Bool × List Nat) (file : Option (List Nat)) (u img : Image)
    (hrun : Image_Image fuel res0 char_signed inflate file u = Run.finished img)
    (herr : img.err = Error.NONE) :
    img.data.length = img.width * img.height * img.components ∧
    (img.width = 0 ∨ img.height = 0 → img.data = []) ∧
    (∀ st : Image, (inflate st.compressed_data).1 = true →
      (st.height = 0 ∨
        st.width = 0 ∧ st.height < 2 ^ 31 ∧ st.height ≤ (inflate st.compressed_data).2.length) →
      ∃ img1, inflate_and_reconstruct char_signed inflate st = Run.finished img1 ∧
        img1.err = Error.NONE ∧ img1.data = [] ∧ header_fields img1 = header_fields st) := by
  obtain ⟨st, r, hok, _, _, hrec, rfl⟩ :=
    Image_Image_ok fuel res0 char_signed inflate file u img hrun herr
  obtain ⟨e, d⟩ := r
  simp only at herr
  subst herr
  obtain ⟨_, hct, _, _, _, hw, _⟩ := hok
  have hwn : st.width * st.components < 2 ^ 64 := by
    rcases hct with ⟨_, hc⟩ | ⟨_, hc⟩ <;> rw [hc] <;> omega
  have hlen := reconstruct_length char_signed _ _ _ _ d hwn hrec
  refine ⟨hlen, ?_, ?_⟩
  · intro hz
    apply List.eq_nil_of_length_eq_zero
    show d.length = 0
    rw [hlen]
    rcases hz with hz | hz
    · have : st.width = 0 := hz
      simp [this]
    · have : st.height = 0 := hz
      simp [this]
  · intro st1 hinf hz
    unfold inflate_and_reconstruct
    rw [if_neg (by simp [hinf])]
    have hrec1 : reconstruct char_signed st1.width st1.height st1.components
        (inflate st1.compressed_data).2 = some (Error.NONE, []) := by
      rcases hz with hz | ⟨hz, hh, hl⟩
      · rw [hz]; exact reconstruct_zero_height _ _ _ _
      · rw [hz]; exact reconstruct_zero_width _ _ _ _ hh hl
    rw [hrec1]
    exact ⟨_, rfl, rfl, rfl, rfl⟩

set_option maxRecDepth 100000 in
/-- Witness for claim C6: a complete 1x1 truecolour file whose IDAT stream
inflates to `[0, 1, 2, 3]`. -/
theorem decoded_buffer_length_witness :
    ∃ img, Image_Image 3 0 true (inflate_to [0, 1, 2, 3])
        (some (PNG_SIGNATURE ++ chunk_bytes IHDR [0, 0, 0, 1, 0, 0, 0, 1, 8, 2, 0, 0, 0]
          ++ chunk_bytes IDAT [120, 156, 99, 96, 100, 98, 6, 0, 0, 14, 0, 7]
          ++ chunk_bytes IEND [])) blank = Run.finished img ∧
      img.data = [1, 2, 3] ∧ img.data.length = img.width * img.height * img.components :=
  ⟨{ blank with
      raw_data := PNG_SIGNATURE ++ chunk_bytes IHDR [0, 0, 0, 1, 0, 0, 0, 1, 8, 2, 0, 0, 0]
        ++ chunk_bytes IDAT [120, 156, 99, 96, 100, 98, 6, 0, 0, 14, 0, 7] ++ chunk_bytes IEND [],
      cur_pos := 69, processed := true, header_processed := true, first_block := false,
      compressed_data := [120, 156, 99, 96, 100, 98, 6, 0, 0, 14, 0, 7],
      uncompressed_data := [0, 1, 2, 3], data := [1, 2, 3], width := 1, height := 1,
      bit_depth := 8, color_type := 2, components := 3 },
    by decide, rfl,
    (decoded_buffer_length 3 0 true (inflate_to [0, 1, 2, 3])
      (some (PNG_SIGNATURE ++ chunk_bytes IHDR [0, 0, 0, 1, 0, 0, 0, 1, 8, 2, 0, 0, 0]
        ++ chunk_bytes IDAT [120, 156, 99, 96, 100, 98, 6, 0, 0, 14, 0, 7]
        ++ chunk_bytes IEND [])) blank _ (by decide) rfl).1⟩

/-- Claim C7: header validation is exact.  On a chunk tagged IHDR with a matching
CRC that is met before any header was processed (payload of at least the thirteen
header bytes, chunk below `2^31`),
`process_chunk` sets `err = UNSUPPORTED_IMAGE_OPTS` if and only if the five option
bytes are not in the supported subset; otherwise `err` stays `NONE`,
`header_processed` becomes true, `width` and `height` are the big-endian values of
payload bytes 0..3 and 4..7, and `components` is 3 for colour type 2 and 4 for
colour type 6.  In particular colour type 0 or 3, or a bit depth other than 8,
gives `UNSUPPORTED_IMAGE_OPTS`. -/
theorem header_validation_exact (res0 : Nat) (st : Image) (front payload back : List Nat)
    (hraw : st.raw_data = front ++ chunk_bytes IHDR payload ++ back)
    (hpos : st.cur_pos = front.length)
    (hhp : st.header_processed = false) (herr : st.err = Error.NONE)
    (hlen : 13 ≤ payload.length) (hbytes : ∀ v ∈ payload, v < 256)
    (hsize : front.length + payload.length + 12 ≤ 2 ^ 31) :
    ∃ st1, process_chunk res0 st = some st1 ∧
      (st1.err = Error.UNSUPPORTED_IMAGE_OPTS ↔
        ¬ supported_opts (payload.getD 8 0) (payload.getD 9 0) (payload.getD 10 0)
          (payload.getD 11 0) (payload.getD 12 0)) ∧
      (supported_opts (payload.getD 8 0) (payload.getD 9 0) (payload.getD 10 0)
          (payload.getD 11 0) (payload.getD 12 0) →
        st1.err = Error.NONE ∧ st1.header_processed = true ∧
        st1.width = be_value (payload.getD 0 0) (payload.getD 1 0) (payload.getD 2 0)
          (payload.getD 3 0) ∧
        st1.height = be_value (payload.getD 4 0) (payload.getD 5 0) (payload.getD 6 0)
          (payload.getD 7 0) ∧
        (payload.getD 9 0 = 2 → st1.components = 3) ∧
        (payload.getD 9 0 = 6 → st1.components = 4)) ∧
      (payload.getD 9 0 = 0 ∨ payload.getD 9 0 = 3 ∨ payload.getD 8 0 ≠ 8 →
        st1.err = Error.UNSUPPORTED_IMAGE_OPTS) := by
  rw [process_chunk_ihdr_header res0 st front payload back hraw hpos hlen hbytes hsize,
    if_pos hhp]
  by_cases hs : supported_opts (payload.getD 8 0) (payload.getD 9 0) (payload.getD 10 0)
      (payload.getD 11 0) (payload.getD 12 0)
  · rw [if_neg (not_not.mpr hs)]
    refine ⟨_, rfl, ?_, ?_, ?_⟩
    · show st.err = _ ↔ _
      rw [herr]
      exact ⟨fun h => Error.noConfusion h, fun h => absurd hs h⟩
    · intro _
      refine ⟨herr, rfl, rfl, rfl, ?_, ?_⟩
      · intro h2
        show (if payload.getD 9 0 = 2 then 3 else _) = 3
        rw [if_pos h2]
      · intro h6
        show (if payload.getD 9 0 = 2 then 3 else if payload.getD 9 0 = 6 then 4 else _) = 4
        rw [if_neg (by omega), if_pos h6]
    · intro h
      unfold supported_opts at hs
      omega
  · rw [if_pos hs]
    refine ⟨_, rfl, ?_, ?_, ?_⟩
    · exact ⟨fun _ => hs, fun _ => rfl⟩
    · intro h; exact absurd h hs
    · intro _; rfl

/-- Witness for claim C7: the IHDR chunk of a 1x1 truecolour image right after
the signature. -/
theorem header_validation_exact_witness :
    ∃ st1, process_chunk 0
        { blank with raw_data := PNG_SIGNATURE ++ chunk_bytes IHDR [0, 0, 0, 1, 0, 0, 0, 1, 8, 2, 0, 0, 0] ++ [],
                     cur_pos := 8 } = some st1 ∧
      (st1.err = Error.UNSUPPORTED_IMAGE_OPTS ↔ ¬ supported_opts 8 2 0 0 0) ∧
      (supported_opts 8 2 0 0 0 →
        st1.err = Error.NONE ∧ st1.header_processed = true ∧
        st1.width = be_value 0 0 0 1 ∧ st1.height = be_value 0 0 0 1 ∧
        ((2 : Nat) = 2 → st1.components = 3) ∧ ((2 : Nat) = 6 → st1.components = 4)) ∧
      ((2 : Nat) = 0 ∨ (2 : Nat) = 3 ∨ (8 : Nat) ≠ 8 → st1.err = Error.UNSUPPORTED_IMAGE_OPTS) :=
  header_validation_exact 0
    { blank with raw_data := PNG_SIGNATURE ++ chunk_bytes IHDR [0, 0, 0, 1, 0, 0, 0, 1, 8, 2, 0, 0, 0] ++ [],
                 cur_pos := 8 }
    PNG_SIGNATURE [0, 0, 0, 1, 0, 0, 0, 1, 8, 2, 0, 0, 0] [] rfl rfl rfl rfl (by decide)
    (by decide) (by decide)

/-- Claim C8 as amended: for every input with a valid signature whose first
chunk lies wholly in the buffer below `2^31`, has a stored CRC equal to
`crc32 (typeTag ++ payload)` and has a type tag other than `"IHDR"`, decoding ends
with `err = INVALID_BLOCK`. -/
theorem first_chunk_not_ihdr_invalid_block (fuel res0 : Nat) (char_signed : Bool)
    (inflate : List Nat → Bool × List Nat) (u : Image) (tag payload back : List Nat)
    (htag : tag.length = 4) (hne : tag ≠ IHDR) (hbytes : ∀ v ∈ tag ++ payload, v < 256)
    (hsize : payload.length + 20 ≤ 2 ^ 31) :
    ∃ img, Image_Image (fuel + 1) res0 char_signed inflate
        (some (PNG_SIGNATURE ++ chunk_bytes tag payload ++ back)) u = Run.finished img ∧
      img.err = Error.INVALID_BLOCK := by
  have hraw : (PNG_SIGNATURE ++ chunk_bytes tag payload ++ back)
      = PNG_SIGNATURE ++ (chunk_bytes tag payload ++ back) := List.append_assoc _ _ _
  have hstep := process_chunk_valid res0
    { init_members u with raw_data := PNG_SIGNATURE ++ (chunk_bytes tag payload ++ back),
                          cur_pos := 8 }
    PNG_SIGNATURE tag payload back (List.append_assoc _ _ _).symm rfl htag hbytes
    (by simp [PNG_SIGNATURE]; omega)
  rw [if_pos ⟨rfl, hne⟩] at hstep
  rw [hraw, Image_Image_signed, chunk_loop_step_error res0 fuel _ _ rfl hstep
    (fun h => Error.noConfusion h)]
  exact ⟨_, rfl, rfl⟩

/-- Witness for the amended claim C8: a CRC-valid empty IDAT chunk right after
the signature. -/
theorem first_chunk_not_ihdr_invalid_block_witness :
    ∃ img, Image_Image (0 + 1) 0 true (inflate_to [])
        (some (PNG_SIGNATURE ++ chunk_bytes IDAT [] ++ [])) blank = Run.finished img ∧
      img.err = Error.INVALID_BLOCK :=
  first_chunk_not_ihdr_invalid_block 0 0 true (inflate_to []) blank IDAT [] [] rfl (by decide)
    (by decide) (by decide)

/-- Counterexample to claim C8 as stated: the first chunk is tagged IDAT, its
stored CRC is zero and does not match, and decoding ends with `CRC_MISMATCH`. -/
theorem first_chunk_not_ihdr_crc_mismatch :
    run_err (Image_Image 1 0 true (inflate_to []) (some (PNG_SIGNATURE ++
      [0, 0, 0, 0, 73, 68, 65, 84, 0, 0, 0, 0])) blank) = some Error.CRC_MISMATCH := by
  decide

/-- Claim C9: a second IHDR chunk before IEND ends decoding with
`err = DUPLICATE_BLOCK`.  The input is the signature, a CRC-valid supported IHDR
chunk, any run of CRC-valid chunks that are neither IHDR nor IEND, and a
CRC-valid second IHDR chunk (all below `2^31`); the header fields then still hold
the values parsed from the first IHDR.  Moreover, once `header_processed` is true
no `process_chunk` call changes the header fields. -/
theorem second_ihdr_duplicate_block (fuel res0 : Nat) (char_signed : Bool)
    (inflate : List Nat → Bool × List Nat) (u : Image) (hdr hdr2 back : List Nat)
    (cs : List (List Nat × List Nat)) (hlen : 13 ≤ hdr.length) (hbytes : ∀ v ∈ hdr, v < 256)
    (hsup : supported_opts (hdr.getD 8 0) (hdr.getD 9 0) (hdr.getD 10 0) (hdr.getD 11 0)
      (hdr.getD 12 0))
    (hcs : ∀ c ∈ cs, middle_chunk c) (hbytes2 : ∀ v ∈ hdr2, v < 256)
    (hsize : 8 + (hdr.length + 12) + (chunks_bytes cs).length + (hdr2.length + 12) ≤ 2 ^ 31) :
    (∃ img, Image_Image (cs.length + 2 + fuel) res0 char_signed inflate
        (some (PNG_SIGNATURE ++ (chunk_bytes IHDR hdr ++ chunks_bytes cs ++ chunk_bytes IHDR hdr2
          ++ back))) u = Run.finished img ∧
      img.err = Error.DUPLICATE_BLOCK ∧
      header_fields img =
        [be_value (hdr.getD 0 0) (hdr.getD 1 0) (hdr.getD 2 0) (hdr.getD 3 0),
          be_value (hdr.getD 4 0) (hdr.getD 5 0) (hdr.getD 6 0) (hdr.getD 7 0),
          hdr.getD 8 0, hdr.getD 9 0, hdr.getD 10 0, hdr.getD 11 0, hdr.getD 12 0,
          if hdr.getD 9 0 = 2 then 3 else 4]) ∧
    (∀ st st1 : Image, st.header_processed = true → process_chunk res0 st = some st1 →
      header_fields st1 = header_fields st) := by
  refine ⟨?_, fun st st1 h1 h2 => process_chunk_header_frame res0 st st1 h1 h2⟩
  obtain ⟨img, hrun, herr, hf⟩ := chunk_loop_duplicate res0 fuel
    { init_members u with
      raw_data := PNG_SIGNATURE ++ (chunk_bytes IHDR hdr ++ chunks_bytes cs ++ chunk_bytes IHDR hdr2
        ++ back), cur_pos := 8 }
    PNG_SIGNATURE hdr hdr2 back cs (by simp only [List.append_assoc]) rfl rfl rfl rfl hlen hbytes
    hsup hcs hbytes2 (by simpa [PNG_SIGNATURE] using hsize)
  rw [Image_Image_signed, hrun]
  refine ⟨img, ?_, herr, hf⟩
  simp [herr]

/-- Witness for claim C9: two IHDR chunks of a 1x1 truecolour image with an
empty IDAT chunk in between. -/
theorem second_ihdr_duplicate_block_witness :
    ∃ img, Image_Image ([(IDAT, ([] : List Nat))].length + 2 + 0) 0 true (inflate_to [])
        (some (PNG_SIGNATURE ++ (chunk_bytes IHDR [0, 0, 0, 1, 0, 0, 0, 1, 8, 2, 0, 0, 0]
          ++ chunks_bytes [(IDAT, [])] ++ chunk_bytes IHDR [0, 0, 0, 9, 0, 0, 0, 9, 8, 6, 0, 0, 0]
          ++ []))) blank = Run.finished img ∧
      img.err = Error.DUPLICATE_BLOCK ∧
      header_fields img = [be_value 0 0 0 1, be_value 0 0 0 1, 8, 2, 0, 0, 0, 3] :=
  (second_ihdr_duplicate_block 0 0 true (inflate_to []) blank
    [0, 0, 0, 1, 0, 0, 0, 1, 8, 2, 0, 0, 0] [0, 0, 0, 9, 0, 0, 0, 9, 8, 6, 0, 0, 0] []
    [(IDAT, [])] (by decide) (by decide) (by decide)
    (by
      intro c hc
      rw [List.mem_singleton.mp hc]
      exact ⟨rfl, by decide, by decide, by decide⟩)
    (by decide) (by decide)).1

/-- Claim C10: with `crc32` the standard CRC-32, for every chunk whose stored CRC
equals `crc32 (typeTag ++ payload)` (lying below `2^31`), flipping bit `k` of byte
`i` of the type tag and payload, the length field and the stored CRC staying as
they are, makes `process_chunk` on that chunk set `err = CRC_MISMATCH`.  The state
is arbitrary, so this holds for the first chunk and for a flip in the type tag
as well. -/
theorem single_bit_flip_crc_mismatch (res0 : Nat) (st : Image)
    (front tag payload back : List Nat) (i k : Nat)
    (hraw : st.raw_data = front ++ chunk_bytes tag payload ++ back)
    (hpos : st.cur_pos = front.length) (htag : tag.length = 4)
    (hbytes : ∀ v ∈ tag ++ payload, v < 256)
    (hsize : front.length + payload.length + 12 ≤ 2 ^ 31) (hi : i < 4 + payload.length)
    (hk : k < 8) :
    ∃ st1, process_chunk res0
        { st with raw_data := flip_bit st.raw_data (front.length + 4 + i) k } = some st1 ∧
      st1.err = Error.CRC_MISMATCH :=
  ⟨_, process_chunk_flipped res0 st front (tag ++ payload) back i k hraw hpos
    (by simp [htag]) hbytes (by simp [htag]; omega) (by simp [htag]; omega) hk, rfl⟩

/-- Witness for claim C10: the lowest bit of the first tag byte of an IEND chunk
that is the first chunk after the signature. -/
theorem single_bit_flip_crc_mismatch_witness :
    ∃ st1, process_chunk 0
        { ({ blank with raw_data := PNG_SIGNATURE ++ chunk_bytes IEND [] ++ [], cur_pos := 8 } :
            Image) with
          raw_data := flip_bit (PNG_SIGNATURE ++ chunk_bytes IEND [] ++ [])
            (PNG_SIGNATURE.length + 4 + 0) 0 } = some st1 ∧
      st1.err = Error.CRC_MISMATCH :=
  single_bit_flip_crc_mismatch 0
    { blank with raw_data := PNG_SIGNATURE ++ chunk_bytes IEND [] ++ [], cur_pos := 8 }
    PNG_SIGNATURE IEND [] [] 0 0 rfl rfl rfl (by decide) (by decide) (by decide) (by decide)

/-! ## Claims C11-C20: the chunk scanner and edge cases -/

/-- C11: for a well-formed chunk sequence (CRC-valid chunks: a supported IHDR,
then chunks tagged neither IHDR nor IEND, then IEND; the sequence ending below
`2^32`) scanned from a state with empty `compressed_data`, whenever the chunk loop
finishes with `err = NONE` the buffer `compressed_data` is the concatenation in
file order of the payloads of exactly the IDAT chunks before the IEND chunk.  The
loop does finish so, with one unit of fuel per chunk, when the sequence ends at or
below `2^31`. -/
theorem idat_payloads_concatenated (res0 : Nat) (st : Image) (front hdr pe back : List Nat)
    (cs : List (List Nat × List Nat))
    (hraw : st.raw_data
      = front ++ chunk_bytes IHDR hdr ++ chunks_bytes cs ++ chunk_bytes IEND pe ++ back)
    (hpos : st.cur_pos = front.length) (hhp : st.header_processed = false)
    (hproc : st.processed = false) (herr : st.err = Error.NONE)
    (hcd : st.compressed_data = [])
    (hlen : 13 ≤ hdr.length) (hbytes : ∀ v ∈ hdr, v < 256)
    (hsup : supported_opts (hdr.getD 8 0) (hdr.getD 9 0) (hdr.getD 10 0) (hdr.getD 11 0)
      (hdr.getD 12 0))
    (hcs : ∀ c ∈ cs, middle_chunk c) (hpe : ∀ v ∈ pe, v < 256)
    (hsize : front.length + (hdr.length + 12) + (chunks_bytes cs).length + (pe.length + 12)
      < 2 ^ 32) :
    (∀ fuel st1, chunk_loop res0 fuel st = Run.finished st1 → st1.err = Error.NONE →
      st1.compressed_data = idat_payloads cs) ∧
    (front.length + (hdr.length + 12) + (chunks_bytes cs).length + (pe.length + 12) ≤ 2 ^ 31 →
      ∀ fuel, ∃ st1, chunk_loop res0 (cs.length + (fuel + 2)) st = Run.finished st1 ∧
        st1.err = Error.NONE ∧ st1.processed = true ∧
        st1.compressed_data = idat_payloads cs) := by
  constructor
  · intro fuel st1 hrun herr1
    obtain ⟨_, _, hfin⟩ := chunk_loop_wellformed_finished res0 fuel st st1 front hdr pe back cs
      hraw hpos hhp hproc herr hlen hbytes hsup hcs hpe hsize hrun herr1
    rw [hfin]
    simp [scan_result, with_header, hcd]
  · intro hle fuel
    refine ⟨_, chunk_loop_wellformed res0 fuel st front hdr pe back cs hraw hpos hhp hproc herr
      hlen hbytes hsup hcs hpe hle, ?_, rfl, ?_⟩
    · simp [scan_result, with_header, herr]
    · simp [scan_result, with_header, hcd]

theorem idat_payloads_concatenated_witness :
    ∃ st1, chunk_loop 0 ([(IDAT, [1, 2]), ([116, 69, 88, 116], [7]), (IDAT, [3])].length + (0 + 2))
        { blank with
          raw_data := PNG_SIGNATURE ++ chunk_bytes IHDR [0, 0, 0, 1, 0, 0, 0, 1, 8, 2, 0, 0, 0]
            ++ chunks_bytes [(IDAT, [1, 2]), ([116, 69, 88, 116], [7]), (IDAT, [3])]
            ++ chunk_bytes IEND [] ++ [9, 9],
          cur_pos := 8 } = Run.finished st1 ∧
      st1.err = Error.NONE ∧ st1.processed = true ∧
      st1.compressed_data = idat_payloads [(IDAT, [1, 2]), ([116, 69, 88, 116], [7]), (IDAT, [3])] :=
  (idat_payloads_concatenated 0
    { blank with
      raw_data := PNG_SIGNATURE ++ chunk_bytes IHDR [0, 0, 0, 1, 0, 0, 0, 1, 8, 2, 0, 0, 0]
        ++ chunks_bytes [(IDAT, [1, 2]), ([116, 69, 88, 116], [7]), (IDAT, [3])]
        ++ chunk_bytes IEND [] ++ [9, 9],
      cur_pos := 8 }
    PNG_SIGNATURE [0, 0, 0, 1, 0, 0, 0, 1, 8, 2, 0, 0, 0] [] [9, 9]
    [(IDAT, [1, 2]), ([116, 69, 88, 116], [7]), (IDAT, [3])]
    rfl rfl rfl rfl rfl rfl (by decide) (by decide) (by decide)
    (by
      intro c hc
      simp only [List.mem_cons, List.mem_singleton, List.not_mem_nil, or_false] at hc
      rcases hc with h | h | h <;> rw [h] <;> exact ⟨rfl, by decide, by decide, by decide⟩)
    (by decide) (by decide)).2 (by decide) 0

/-- C12: bytes after the IEND chunk are not inspected.  Take two buffers that
agree up to and including the CRC of the IEND chunk of a well-formed chunk
sequence (ending below `2^32`) and differ arbitrarily afterwards, scanned from the
same state.  If the chunk loop finishes without error on the first, then with the
same fuel it finishes on the second, in the same state apart from `raw_data`:
`processed = true`, `cur_pos` just past the CRC of that IEND chunk, the same header
fields and the same `compressed_data`.  The loop does finish without error on
both when the sequence ends at or below `2^31`. -/
theorem bytes_after_iend_not_inspected (res0 : Nat) (st : Image)
    (front hdr pe back1 back2 : List Nat) (cs : List (List Nat × List Nat))
    (hraw : st.raw_data
      = front ++ chunk_bytes IHDR hdr ++ chunks_bytes cs ++ chunk_bytes IEND pe ++ back1)
    (hpos : st.cur_pos = front.length) (hhp : st.header_processed = false)
    (hproc : st.processed = false) (herr : st.err = Error.NONE)
    (hlen : 13 ≤ hdr.length) (hbytes : ∀ v ∈ hdr, v < 256)
    (hsup : supported_opts (hdr.getD 8 0) (hdr.getD 9 0) (hdr.getD 10 0) (hdr.getD 11 0)
      (hdr.getD 12 0))
    (hcs : ∀ c ∈ cs, middle_chunk c) (hpe : ∀ v ∈ pe, v < 256)
    (hsize : front.length + (hdr.length + 12) + (chunks_bytes cs).length + (pe.length + 12)
      < 2 ^ 32) :
    (∀ fuel st1, chunk_loop res0 fuel st = Run.finished st1 → st1.err = Error.NONE →
      ∃ st2, chunk_loop res0 fuel
          { st with raw_data := front ++ chunk_bytes IHDR hdr ++ chunks_bytes cs
                      ++ chunk_bytes IEND pe ++ back2 } = Run.finished st2 ∧
        st2 = { st1 with raw_data := front ++ chunk_bytes IHDR hdr ++ chunks_bytes cs
                           ++ chunk_bytes IEND pe ++ back2 } ∧
        st1.processed = true ∧ st2.processed = true ∧
        st1.cur_pos = (front ++ chunk_bytes IHDR hdr ++ chunks_bytes cs
          ++ chunk_bytes IEND pe).length ∧
        st2.cur_pos = st1.cur_pos ∧ st2.err = Error.NONE ∧
        header_fields st2 = header_fields st1 ∧
        st2.compressed_data = st1.compressed_data) ∧
    (front.length + (hdr.length + 12) + (chunks_bytes cs).length + (pe.length + 12) ≤ 2 ^ 31 →
      ∀ fuel, ∃ st1, chunk_loop res0 (cs.length + (fuel + 2)) st = Run.finished st1 ∧
        st1.err = Error.NONE) := by
  have hl : (front ++ chunk_bytes IHDR hdr ++ chunks_bytes cs ++ chunk_bytes IEND pe).length
      = front.length + (hdr.length + 12) + (chunks_bytes cs).length + (pe.length + 12) := by
    simp only [List.length_append, chunk_bytes_length _ _ IHDR_length,
      chunk_bytes_length _ _ (rfl : IEND.length = 4)]
  constructor
  · intro fuel st1 hrun herr1
    obtain ⟨hfuel, hle, hfin⟩ := chunk_loop_wellformed_finished res0 fuel st st1 front hdr pe
      back1 cs hraw hpos hhp hproc herr hlen hbytes hsup hcs hpe hsize hrun herr1
    have h2 := chunk_loop_wellformed res0 (fuel - (cs.length + 2))
      { st with raw_data := front ++ chunk_bytes IHDR hdr ++ chunks_bytes cs
                  ++ chunk_bytes IEND pe ++ back2 }
      front hdr pe back2 cs rfl hpos hhp hproc herr hlen hbytes hsup hcs hpe hle
    rw [show cs.length + (fuel - (cs.length + 2) + 2) = fuel by omega] at h2
    rw [hl]
    subst hfin
    exact ⟨_, h2, rfl, rfl, rfl, rfl, rfl, by simp [scan_result, with_header, herr], rfl, rfl⟩
  · intro hle fuel
    refine ⟨_, chunk_loop_wellformed res0 fuel st front hdr pe back1 cs hraw hpos hhp hproc herr
      hlen hbytes hsup hcs hpe hle, ?_⟩
    simp [scan_result, with_header, herr]

theorem bytes_after_iend_not_inspected_witness :
    ∃ st1 st2,
      chunk_loop 0 3
        { blank with
          raw_data := PNG_SIGNATURE ++ chunk_bytes IHDR [0, 0, 0, 1, 0, 0, 0, 1, 8, 2, 0, 0, 0]
            ++ chunks_bytes [(IDAT, [1, 2])] ++ chunk_bytes IEND [] ++ [9, 9],
          cur_pos := 8 } = Run.finished st1 ∧
      chunk_loop 0 3
        { blank with
          raw_data := PNG_SIGNATURE ++ chunk_bytes IHDR [0, 0, 0, 1, 0, 0, 0, 1, 8, 2, 0, 0, 0]
            ++ chunks_bytes [(IDAT, [1, 2])] ++ chunk_bytes IEND [] ++ [7, 7, 7],
          cur_pos := 8 } = Run.finished st2 ∧
      st2.cur_pos = st1.cur_pos ∧ header_fields st2 = header_fields st1 ∧
      st2.compressed_data = st1.compressed_data := by
  have T := bytes_after_iend_not_inspected 0
    { blank with
      raw_data := PNG_SIGNATURE ++ chunk_bytes IHDR [0, 0, 0, 1, 0, 0, 0, 1, 8, 2, 0, 0, 0]
        ++ chunks_bytes [(IDAT, [1, 2])] ++ chunk_bytes IEND [] ++ [9, 9],
      cur_pos := 8 }
    PNG_SIGNATURE [0, 0, 0, 1, 0, 0, 0, 1, 8, 2, 0, 0, 0] [] [9, 9] [7, 7, 7] [(IDAT, [1, 2])]
    rfl rfl rfl rfl rfl (by decide) (by decide) (by decide)
    (by
      intro c hc
      rw [List.mem_singleton.mp hc]
      exact ⟨rfl, by decide, by decide, by decide⟩)
    (by decide) (by decide)
  obtain ⟨st1, h1, he⟩ := T.2 (by decide) 0
  obtain ⟨st2, h2, _, _, _, _, hc, _, hh, hd⟩ := T.1 3 st1 h1 he
  exact ⟨st1, st2, h1, h2, hc, hh, hd⟩

/-- Claim C13 as amended: `process_chunk` has no truncation check and `Error` has
no truncation value.  When the buffer ends inside the length field, or when fewer
than `length + 12` bytes remain at the cursor (with cursor plus `length + 12` at
most `2^32`), `process_chunk` indexes `raw_data` past its end: the call is
undefined and no error is reported. -/
theorem truncated_chunk_reads_past_end (res0 : Nat) (st : Image) (hcur : st.cur_pos < 2 ^ 32)
    (htrunc : st.raw_data.length < st.cur_pos + 4 ∨
      ∃ L, get_u_int res0 st.raw_data (to_int st.cur_pos) = some L ∧
        st.raw_data.length < st.cur_pos + L + 12 ∧ st.cur_pos + L + 12 ≤ 2 ^ 32) :
    process_chunk res0 st = none := by
  cases h : process_chunk res0 st with
  | none => rfl
  | some st1 =>
    obtain ⟨L, hlen, hrange⟩ := process_chunk_some_range res0 st st1 hcur h
    have h1 := get_u_int_some_range res0 _ _ _ hcur hlen
    rcases htrunc with ht | ⟨L1, hlen1, ht, hb⟩
    · omega
    · rw [hlen] at hlen1
      cases hlen1
      have := hrange hb
      omega

/-- Witness for the amended claim C13: an IHDR chunk that declares 13 payload
bytes and ends after two of them. -/
theorem truncated_chunk_reads_past_end_witness :
    process_chunk 0
      { blank with raw_data := PNG_SIGNATURE ++ [0, 0, 0, 13, 73, 72, 68, 82, 0, 0], cur_pos := 8 }
      = none :=
  truncated_chunk_reads_past_end 0
    { blank with raw_data := PNG_SIGNATURE ++ [0, 0, 0, 13, 73, 72, 68, 82, 0, 0], cur_pos := 8 }
    (by decide) (Or.inr ⟨13, by decide, by decide, by decide⟩)

/-- Counterexample to claim C13 as stated: on a buffer that ends inside the
payload of its first chunk `process_chunk` returns no state with an error set;
the run is undefined (a read past the end of `raw_data`). -/
theorem truncated_chunk_no_error :
    (process_chunk 0
      { blank with raw_data := PNG_SIGNATURE ++ [0, 0, 0, 13, 73, 72, 68, 82, 0, 0, 0, 1],
                   cur_pos := 8 }).map (fun st1 => st1.err) = none := by
  decide

/-- Claim C17 as amended: a call of `process_chunk` at cursor `p` on a chunk of
declared payload length `L` that returns with `err = NONE` leaves the cursor at
`p + L + 12` modulo `2^32`, whatever the type tag; a call that returns with an
error leaves it at `p + 8` modulo `2^32`.  On a CRC-valid chunk below `2^31`
that is not the first chunk and is not tagged IHDR the call returns with `err`
unchanged and the cursor at `p + L + 12`. -/
theorem cursor_after_process_chunk (res0 : Nat) (st st1 : Image) (herr0 : st.err = Error.NONE)
    (hrun : process_chunk res0 st = some st1) :
    (∃ L, get_u_int res0 st.raw_data (to_int st.cur_pos) = some L ∧
      (st1.err = Error.NONE → st1.cur_pos = (st.cur_pos + L + 12) % 2 ^ 32) ∧
      (st1.err ≠ Error.NONE → st1.cur_pos = (st.cur_pos + 8) % 2 ^ 32)) ∧
    (∀ (s : Image) (front tag payload back : List Nat),
      s.raw_data = front ++ chunk_bytes tag payload ++ back → s.cur_pos = front.length →
      tag.length = 4 → (∀ v ∈ tag ++ payload, v < 256) →
      front.length + payload.length + 12 ≤ 2 ^ 31 → s.first_block = false → tag ≠ IHDR →
      ∃ s1, process_chunk res0 s = some s1 ∧ s1.err = s.err ∧
        s1.cur_pos = s.cur_pos + payload.length + 12) := by
  refine ⟨process_chunk_cursor res0 st st1 herr0 hrun, ?_⟩
  intro s front tag payload back hraw hpos htag hbytes hsize hfirst hne
  rw [process_chunk_valid res0 s front tag payload back hraw hpos htag hbytes hsize,
    if_neg (by simp [hfirst]), if_neg hne, hpos]
  split_ifs
  · exact ⟨_, rfl, rfl, rfl⟩
  · exact ⟨_, rfl, rfl, rfl⟩
  · exact ⟨_, rfl, rfl, rfl⟩

set_option maxRecDepth 100000 in
/-- Witness for the amended claim C17: the IHDR chunk of a 1x1 truecolour image
at cursor 8 moves the cursor to 33. -/
theorem cursor_after_process_chunk_witness :
    process_chunk 0 at_header_1x1 = some after_header_1x1 ∧
      ∃ L, get_u_int 0 at_header_1x1.raw_data (to_int at_header_1x1.cur_pos) = some L ∧
        (after_header_1x1.err = Error.NONE →
          after_header_1x1.cur_pos = (at_header_1x1.cur_pos + L + 12) % 2 ^ 32) ∧
        (after_header_1x1.err ≠ Error.NONE →
          after_header_1x1.cur_pos = (at_header_1x1.cur_pos + 8) % 2 ^ 32) :=
  have hrun : process_chunk 0 at_header_1x1 = some after_header_1x1 := by decide
  ⟨hrun, (cursor_after_process_chunk 0 at_header_1x1 after_header_1x1 rfl hrun).1⟩

set_option maxRecDepth 100000 in
/-- Counterexample to claim C17 as stated: a CRC-valid chunk tagged IDAT with
declared length 0, met as the first chunk at cursor 8, leaves the cursor at 16 and
not at `8 + 0 + 12 = 20`. -/
theorem cursor_after_first_idat :
    (process_chunk 0
      { blank with raw_data := PNG_SIGNATURE ++ chunk_bytes IDAT [], cur_pos := 8 }).map
        (fun st1 => (st1.cur_pos, st1.err)) = some (16, Error.INVALID_BLOCK) := by
  decide

/-- C14, amended: the length of the inflated stream is not checked.  `ZLIB_ERROR`
is the result exactly when a zlib call fails.  After a successful inflate, with
`height * (width * components + 1)` below `2^31`: a stream shorter than that makes
the split loop index `uncompressed_data` out of range (undefined behaviour, no
error value); a stream at least that long is decoded as its first
`height * (width * components + 1)` bytes are, the rest being ignored; and when
these are bytes with filter types in `0..4` the decoder finishes with `err = NONE`
and a pixel buffer of `height * (width * components)` bytes. -/
theorem inflated_length_not_checked (char_signed : Bool) (inflate : List Nat → Bool × List Nat)
    (st : Image) (hz : (inflate st.compressed_data).1 = true)
    (hsize : st.height * (st.width * st.components + 1) < 2 ^ 31) :
    ((inflate st.compressed_data).2.length < st.height * (st.width * st.components + 1) →
      inflate_and_reconstruct char_signed inflate st = Run.undefined) ∧
    (st.height * (st.width * st.components + 1) ≤ (inflate st.compressed_data).2.length →
      reconstruct char_signed st.width st.height st.components (inflate st.compressed_data).2
        = reconstruct char_signed st.width st.height st.components
            ((inflate st.compressed_data).2.take
              (st.height * (st.width * st.components + 1)))) ∧
    (st.height * (st.width * st.components + 1) ≤ (inflate st.compressed_data).2.length →
      0 < st.components → (∀ v ∈ (inflate st.compressed_data).2, v < 256) →
      (∀ y, y < st.height →
        (inflate st.compressed_data).2.getD (y * (st.width * st.components + 1)) 0 ≤ 4) →
      ∃ img, inflate_and_reconstruct char_signed inflate st = Run.finished img ∧
        img.err = Error.NONE ∧ img.data.length = st.height * (st.width * st.components)) ∧
    (∀ (inflate1 : List Nat → Bool × List Nat) (img : Image),
      inflate_and_reconstruct char_signed inflate1 st = Run.finished img →
      (img.err = Error.ZLIB_ERROR ↔ (inflate1 st.compressed_data).1 = false)) := by
  have hpre : st.height * (st.width * st.components + 1) ≤ (inflate st.compressed_data).2.length →
      reconstruct char_signed st.width st.height st.components (inflate st.compressed_data).2
        = reconstruct char_signed st.width st.height st.components
            ((inflate st.compressed_data).2.take
              (st.height * (st.width * st.components + 1))) := by
    intro hlen
    have h := reconstruct_prefix char_signed st.width st.height st.components
      ((inflate st.compressed_data).2.take (st.height * (st.width * st.components + 1)))
      ((inflate st.compressed_data).2.drop (st.height * (st.width * st.components + 1)))
      hsize (by rw [List.length_take]; omega)
    rw [List.take_append_drop] at h
    exact h
  refine ⟨?_, hpre, ?_, ?_⟩
  · intro hlen
    unfold inflate_and_reconstruct
    rw [if_neg (by simp [hz]),
      reconstruct_short char_signed st.width st.height st.components _ hsize hlen]
  · intro hlen hn hbytes hfilter
    obtain ⟨data, hrec, hinv⟩ := reconstruct_reference char_signed st.width st.height st.components
      ((inflate st.compressed_data).2.take (st.height * (st.width * st.components + 1)))
      hn hsize (by rw [List.length_take]; omega)
      (fun v hv => hbytes v (List.mem_of_mem_take hv))
      (fun y hy => by
        have := row_le (W := st.width * st.components + 1) hy
        rw [List.getD_eq_getElem?_getD, List.getElem?_take_of_lt (by omega),
          ← List.getD_eq_getElem?_getD]
        exact hfilter y hy)
    unfold inflate_and_reconstruct
    rw [if_neg (by simp [hz]), hpre hlen, hrec]
    exact ⟨_, rfl, rfl, hinv.1⟩
  · intro inflate1 img hrun
    rcases inflate_and_reconstruct_err char_signed inflate1 st img hrun with ⟨h1, h2⟩ | ⟨h1, h2⟩
    · exact ⟨fun _ => h1, fun _ => h2⟩
    · constructor
      · intro he
        rcases h2 with h3 | h3 <;> rw [he] at h3 <;> cases h3
      · intro hf
        rw [hf] at h1
        cases h1

set_option maxRecDepth 100000 in
theorem inflated_length_not_checked_witness :
    ∃ img, inflate_and_reconstruct true (inflate_to [0, 1, 2, 3, 99]) after_header_1x1
        = Run.finished img ∧
      img.err = Error.NONE ∧
      img.data.length = after_header_1x1.height
        * (after_header_1x1.width * after_header_1x1.components) :=
  (inflated_length_not_checked true (inflate_to [0, 1, 2, 3, 99]) after_header_1x1 rfl
    (by decide)).2.2.1 (by decide) (by decide) (by decide) (by decide)

set_option maxRecDepth 100000 in
/-- Counterexample to claim C14 as stated: for a complete 1x1 truecolour file,
where `height * (width * components + 1) = 4`, an inflated stream of five bytes is
decoded with `err = NONE` into the pixel buffer `[1, 2, 3]`. -/
theorem overlong_stream_decoded :
    run_err (Image_Image 3 0 true (inflate_to [0, 1, 2, 3, 99])
      (some (PNG_SIGNATURE ++ chunk_bytes IHDR [0, 0, 0, 1, 0, 0, 0, 1, 8, 2, 0, 0, 0]
        ++ chunk_bytes IDAT [120, 156, 99, 96, 100, 98, 6, 0, 0, 14, 0, 7]
        ++ chunk_bytes IEND [])) blank) = some Error.NONE ∧
    run_data (Image_Image 3 0 true (inflate_to [0, 1, 2, 3, 99])
      (some (PNG_SIGNATURE ++ chunk_bytes IHDR [0, 0, 0, 1, 0, 0, 0, 1, 8, 2, 0, 0, 0]
        ++ chunk_bytes IDAT [120, 156, 99, 96, 100, 98, 6, 0, 0, 14, 0, 7]
        ++ chunk_bytes IEND [])) blank) = some [1, 2, 3] := by
  decide

/-- Claim C15: for every input buffer of at least 8 bytes the constructor ends
with `err = INVALID_PNG_SIGNATURE` if and only if the first 8 bytes differ from
`89 50 4E 47 0D 0A 1A 0A`.  When they differ the constructor returns at once, and
when they match the chunk loop starts from the initial members with only
`raw_data` loaded and `cur_pos = 8`. -/
theorem signature_check_exact (fuel res0 : Nat) (char_signed : Bool)
    (inflate : List Nat → Bool × List Nat) (bytes : List Nat) (u : Image)
    (hlen : 8 ≤ bytes.length) :
    (bytes.take 8 ≠ PNG_SIGNATURE →
      Image_Image fuel res0 char_signed inflate (some bytes) u
        = Run.finished
            { init_members u with raw_data := bytes, err := Error.INVALID_PNG_SIGNATURE }) ∧
    (bytes.take 8 = PNG_SIGNATURE →
      Image_Image fuel res0 char_signed inflate (some bytes) u
        = match chunk_loop res0 fuel { init_members u with raw_data := bytes, cur_pos := 8 } with
          | Run.undefined => Run.undefined
          | Run.out_of_fuel => Run.out_of_fuel
          | Run.finished st1 =>
            if st1.err ≠ Error.NONE then Run.finished st1
            else inflate_and_reconstruct char_signed inflate st1) ∧
    (∀ img, Image_Image fuel res0 char_signed inflate (some bytes) u = Run.finished img →
      (img.err = Error.INVALID_PNG_SIGNATURE ↔ bytes.take 8 ≠ PNG_SIGNATURE)) := by
  have hsig := is_png_spec bytes hlen
  have hbad : bytes.take 8 ≠ PNG_SIGNATURE →
      Image_Image fuel res0 char_signed inflate (some bytes) u
        = Run.finished
            { init_members u with raw_data := bytes, err := Error.INVALID_PNG_SIGNATURE } := by
    intro hne
    unfold Image_Image
    simp only [hsig, hne, decide_False]
  refine ⟨hbad, ?_, ?_⟩
  · intro heq
    unfold Image_Image
    simp only [hsig, heq, decide_True]
  · intro img hrun
    by_cases heq : bytes.take 8 = PNG_SIGNATURE
    · have := Image_Image_signed_err fuel res0 char_signed inflate u img bytes
        (by rw [hsig]; simp [heq]) hrun
      exact ⟨fun h => absurd h this, fun h => absurd heq h⟩
    · rw [hbad heq] at hrun
      cases hrun
      exact ⟨fun _ => heq, fun _ => rfl⟩

/-- Witness for claim C15: eight bytes that differ from the signature in the
last byte. -/
theorem signature_check_exact_witness :
    Image_Image 5 0 true (inflate_to []) (some [137, 80, 78, 71, 13, 10, 26, 11]) blank
      = Run.finished
          { init_members blank with
            raw_data := [137, 80, 78, 71, 13, 10, 26, 11], err := Error.INVALID_PNG_SIGNATURE } :=
  (signature_check_exact 5 0 true (inflate_to []) [137, 80, 78, 71, 13, 10, 26, 11] blank
    (by decide)).1 (by decide)

/-- Claim C16: the CRC comparison precedes every interpretation of the chunk.
On a chunk lying below `2^31`, whatever its type tag and whatever the state, a
stored CRC that differs from `crc32 (typeTag ++ payload)` makes `process_chunk`
set `err = CRC_MISMATCH` and leave `first_block`, `header_processed`, `processed`,
the header fields and `compressed_data` as they were; and when the two values are
equal `process_chunk` does not set `CRC_MISMATCH`. -/
theorem crc_comparison_precedes_interpretation (res0 : Nat) (st : Image)
    (front body back : List Nat) (crc : Nat)
    (hraw : st.raw_data = front ++ chunk_raw body crc ++ back)
    (hpos : st.cur_pos = front.length) (hbody : 4 ≤ body.length) (hcrc : crc < 2 ^ 32)
    (hsize : front.length + body.length + 8 ≤ 2 ^ 31) :
    (crc32 0 body ≠ crc →
      ∃ st1, process_chunk res0 st = some st1 ∧ st1.err = Error.CRC_MISMATCH ∧
        st1.first_block = st.first_block ∧ st1.header_processed = st.header_processed ∧
        st1.processed = st.processed ∧ header_fields st1 = header_fields st ∧
        st1.compressed_data = st.compressed_data) ∧
    (crc32 0 body = crc →
      ∀ st1, process_chunk res0 st = some st1 → st.err ≠ Error.CRC_MISMATCH →
        st1.err ≠ Error.CRC_MISMATCH) := by
  constructor
  · intro hne
    rw [process_chunk_layout res0 st front body back crc hraw hpos hbody hcrc hsize, if_pos hne]
    exact ⟨_, rfl, rfl, rfl, rfl, rfl, rfl, rfl⟩
  · intro heq st1 hrun herr
    subst heq
    exact process_chunk_crc_equal res0 st st1 front body back hraw hpos hbody hcrc hsize hrun herr

set_option maxRecDepth 100000 in
/-- Witness for claim C16: an IHDR-tagged first chunk whose stored CRC is zero. -/
theorem crc_comparison_precedes_interpretation_witness :
    crc32 0 (IHDR ++ [0, 0, 0, 1, 0, 0, 0, 1, 8, 2, 0, 0, 0]) ≠ 0 ∧
    ∃ st1, process_chunk 0
        { blank with
          raw_data := PNG_SIGNATURE ++ chunk_raw (IHDR ++ [0, 0, 0, 1, 0, 0, 0, 1, 8, 2, 0, 0, 0]) 0
            ++ [],
          cur_pos := 8 } = some st1 ∧
      st1.err = Error.CRC_MISMATCH ∧ st1.first_block = true ∧ st1.header_processed = false ∧
      st1.processed = false ∧ header_fields st1 = header_fields blank ∧
      st1.compressed_data = [] :=
  ⟨by decide,
    (crc_comparison_precedes_interpretation 0
      { blank with
        raw_data := PNG_SIGNATURE ++ chunk_raw (IHDR ++ [0, 0, 0, 1, 0, 0, 0, 1, 8, 2, 0, 0, 0]) 0
          ++ [],
        cur_pos := 8 }
      PNG_SIGNATURE (IHDR ++ [0, 0, 0, 1, 0, 0, 0, 1, 8, 2, 0, 0, 0]) [] 0 rfl rfl (by decide)
      (by decide) (by decide)).1 (by decide)⟩

/-- Claim C19: for every index `idx` with `idx + 3` in bounds (and within `int`),
`get_u_int idx` returns the big-endian value
`raw_data[idx] * 2^24 + raw_data[idx+1] * 2^16 + raw_data[idx+2] * 2^8 + raw_data[idx+3]`,
and the result is the same for every value `r0` the uninitialised local `res`
may start from. -/
theorem get_u_int_big_endian (res0 : Nat) (raw_data : List Nat) (idx : Nat)
    (hbound : idx + 3 < raw_data.length) (hint : idx + 3 ≤ 2147483647)
    (hbytes : ∀ v ∈ raw_data, v < 256) :
    get_u_int res0 raw_data (idx : Int)
      = some (raw_data.getD idx 0 * 2 ^ 24 + raw_data.getD (idx + 1) 0 * 2 ^ 16
          + raw_data.getD (idx + 2) 0 * 2 ^ 8 + raw_data.getD (idx + 3) 0) ∧
    ∀ r0, get_u_int r0 raw_data (idx : Int) = get_u_int res0 raw_data (idx : Int) := by
  refine ⟨get_u_int_natCast res0 raw_data idx hbound hint hbytes, fun r0 => ?_⟩
  rw [get_u_int_natCast res0 raw_data idx hbound hint hbytes,
    get_u_int_natCast r0 raw_data idx hbound hint hbytes]

/-- Witness for claim C19: the width field of an IHDR payload, read with two
different start values. -/
theorem get_u_int_big_endian_witness :
    get_u_int 0 [0, 0, 1, 2, 7] ((1 : Nat) : Int) = some (0 * 2 ^ 24 + 1 * 2 ^ 16 + 2 * 2 ^ 8 + 7) ∧
    get_u_int 4294967295 [0, 0, 1, 2, 7] ((1 : Nat) : Int) = get_u_int 0 [0, 0, 1, 2, 7] ((1 : Nat) : Int) :=
  ⟨(get_u_int_big_endian 0 [0, 0, 1, 2, 7] 1 (by decide) (by decide) (by decide)).1,
    (get_u_int_big_endian 0 [0, 0, 1, 2, 7] 1 (by decide) (by decide) (by decide)).2 4294967295⟩

/-- Claim C18: state invariant of the chunk scanner.  In every state reachable
from the initial state by `process_chunk` steps with `err` still `NONE`,
(i) `header_processed` is true iff `first_block` is false, (ii) `processed`
implies `header_processed`, and (iii) `header_processed` implies `bit_depth = 8`,
`color_type` 2 with 3 components or 6 with 4, and compression, filter and
interlace method 0.  Hence the state the chunk loop hands to inflation and
reconstruction carries a header of the supported subset. -/
theorem scanner_state_invariant (st : Image) (h : Reachable st) :
    (st.header_processed = true ↔ st.first_block = false) ∧
    (st.processed = true → st.header_processed = true) ∧
    (st.header_processed = true →
      st.bit_depth = 8 ∧ (st.color_type = 2 ∧ st.components = 3 ∨
        st.color_type = 6 ∧ st.components = 4) ∧
      st.compression_method = 0 ∧ st.filter_method = 0 ∧ st.interlace_method = 0) ∧
    (∀ (fuel res0 : Nat) (u : Image) (bytes : List Nat) (st1 : Image),
      chunk_loop res0 fuel { init_members u with raw_data := bytes, cur_pos := 8 }
        = Run.finished st1 → st1.err = Error.NONE →
      st1.header_processed = true ∧
      supported_opts st1.bit_depth st1.color_type st1.compression_method st1.filter_method
        st1.interlace_method ∧
      (st1.color_type = 2 ∧ st1.components = 3 ∨ st1.color_type = 6 ∧ st1.components = 4)) := by
  have hinv := reachable_scanInv st h
  refine ⟨?_, ?_, ?_, ?_⟩
  · rcases hinv with ⟨h1, h2, _⟩ | ⟨h1, h2, _⟩
    · rw [h1, h2]; simp
    · rw [h1, h2]; simp
  · intro hp
    rcases hinv with ⟨_, _, h3⟩ | ⟨_, h2, _⟩
    · rw [h3] at hp; cases hp
    · exact h2
  · intro hhp
    rcases hinv with ⟨_, h2, _⟩ | ⟨_, _, h3⟩
    · rw [h2] at hhp; cases hhp
    · exact ⟨h3.1, h3.2.1, h3.2.2.1, h3.2.2.2.1, h3.2.2.2.2.1⟩
  · intro fuel res0 u bytes st1 hrun herr
    obtain ⟨hinv1, hproc⟩ := chunk_loop_inv res0 fuel _ st1 (scanInv_init u bytes) hrun herr
    rcases hinv1 with ⟨_, _, h3⟩ | ⟨_, h2, h3⟩
    · rw [hproc] at h3; cases h3
    · refine ⟨h2, ⟨h3.1, ?_, h3.2.2.1, h3.2.2.2.1, h3.2.2.2.2.1⟩, h3.2.1⟩
      rcases h3.2.1 with ⟨hc, _⟩ | ⟨hc, _⟩
      · exact Or.inl hc
      · exact Or.inr hc

set_option maxRecDepth 100000 in
/-- Witness for claim C18: the state after the IHDR chunk of a 1x1 truecolour
image is reachable and satisfies the invariant. -/
theorem scanner_state_invariant_witness :
    Reachable after_header_1x1 ∧
      (after_header_1x1.header_processed = true ↔ after_header_1x1.first_block = false) ∧
      (after_header_1x1.processed = true → after_header_1x1.header_processed = true) ∧
      (after_header_1x1.header_processed = true →
        after_header_1x1.bit_depth = 8 ∧
        (after_header_1x1.color_type = 2 ∧ after_header_1x1.components = 3 ∨
          after_header_1x1.color_type = 6 ∧ after_header_1x1.components = 4) ∧
        after_header_1x1.compression_method = 0 ∧ after_header_1x1.filter_method = 0 ∧
        after_header_1x1.interlace_method = 0) :=
  have hr : Reachable after_header_1x1 :=
    Reachable.step 0 at_header_1x1 after_header_1x1 (Reachable.init _ rfl rfl rfl rfl)
      (by decide) rfl
  have h := scanner_state_invariant after_header_1x1 hr
  ⟨hr, h.1, h.2.1, h.2.2.1⟩

/-- C20: edge equivalences of the inverse filters.  `paeth_predictor a 0 0 = a`
and `paeth_predictor 0 b 0 = b`.  On the first scanline (`y = 0`) the row reversal
with filter type 2 equals the one with filter type 0 (on a buffer of bytes), and
the one with filter type 4 equals the one with filter type 1.  For a byte of the
first pixel of any row (`x < components`) the step with filter type 4 equals the
step with filter type 2, and the step with filter type 1 equals the step with
filter type 0 (on a buffer of bytes).  Consequently, for an inflated stream of
bytes holding `height` scanlines below `2^31`, changing the filter byte of the
first scanline from 2 to 0, or from 4 to 1, does not change the result of the
reconstruction. -/
theorem inverse_filter_edge_equivalences (char_signed : Bool) (w h n : Nat) (rest : List Nat)
    (hbytes : ∀ v ∈ rest, v < 256) (hsize : h * (w * n + 1) < 2 ^ 31)
    (hlen : h * (w * n + 1) ≤ rest.length + 1) :
    (∀ a, paeth_predictor a 0 0 = a) ∧ (∀ b, paeth_predictor 0 b 0 = b) ∧
    (∀ (fm fm0 : List Nat) (s : Error × List Nat), fm[0]? = some 2 → fm0[0]? = some 0 →
      (∀ v ∈ s.2, v < 256) →
      unfilter_row char_signed w n fm 0 s = unfilter_row char_signed w n fm0 0 s) ∧
    (∀ (fm fm1 : List Nat) (s : Error × List Nat), fm[0]? = some 4 → fm1[0]? = some 1 →
      unfilter_row char_signed w n fm 0 s = unfilter_row char_signed w n fm1 0 s) ∧
    (∀ (fm fm2 : List Nat) (y x : Nat) (s : Error × List Nat), x < n →
      fm[y]? = some 4 → fm2[y]? = some 2 →
      unfilter_byte char_signed w n fm y x s = unfilter_byte char_signed w n fm2 y x s) ∧
    (∀ (fm fm0 : List Nat) (y x : Nat) (s : Error × List Nat), x < n →
      fm[y]? = some 1 → fm0[y]? = some 0 → (∀ v ∈ s.2, v < 256) →
      unfilter_byte char_signed w n fm y x s = unfilter_byte char_signed w n fm0 y x s) ∧
    reconstruct char_signed w h n (2 :: rest) = reconstruct char_signed w h n (0 :: rest) ∧
    reconstruct char_signed w h n (4 :: rest) = reconstruct char_signed w h n (1 :: rest) := by
  refine ⟨paeth_left_only, paeth_above_only,
    fun fm fm0 s h2 h0 hb => unfilter_row_first_up char_signed w n fm fm0 s h2 h0 hb,
    fun fm fm1 s h4 h1 => unfilter_row_first_paeth char_signed w n fm fm1 s h4 h1, ?_, ?_, ?_, ?_⟩
  · intro fm fm2 y x s hx h4 h2
    refine unfilter_byte_paeth_eq char_signed w n fm fm2 y x 2 s h4 h2 (fun abc habc => ?_)
    obtain ⟨ha, hc⟩ := neighbours_first_pixel w n y x s.2 abc hx habc
    exact Or.inr ⟨rfl, by rw [ha, hc, paeth_above_only]⟩
  · intro fm fm0 y x s hx h1 h0 hb
    exact unfilter_byte_add_zero char_signed w n fm fm0 y x 1 s h1 h0 hb
      (fun abc habc => Or.inl ⟨rfl, (neighbours_first_pixel w n y x s.2 abc hx habc).1⟩)
  · exact reconstruct_first_filter char_signed w h n 2 0 rest hbytes hsize hlen
      (fun fm fm0 s h2 h0 hb => unfilter_row_first_up char_signed w n fm fm0 s h2 h0 hb)
  · exact reconstruct_first_filter char_signed w h n 4 1 rest hbytes hsize hlen
      (fun fm fm1 s h4 h1 _ => unfilter_row_first_paeth char_signed w n fm fm1 s h4 h1)

theorem inverse_filter_edge_equivalences_witness :
    reconstruct true 2 1 3 [2, 10, 20, 30, 40, 50, 60]
        = reconstruct true 2 1 3 [0, 10, 20, 30, 40, 50, 60] ∧
      reconstruct true 2 1 3 [4, 10, 20, 30, 40, 50, 60]
        = reconstruct true 2 1 3 [1, 10, 20, 30, 40, 50, 60] :=
  (inverse_filter_edge_equivalences true 2 1 3 [10, 20, 30, 40, 50, 60] (by decide) (by decide)
    (by decide)).2.2.2.2.2.2

end PNG
